import Mathlib

/-!
# libdataset: dataset container and encode pipeline

Shallow embedding of `src/src/dataset.c` (with `src/include/dataset.h`).

Conventions of the embedding

* A `void *data` payload is a `Value` (integer, text or numeric vector); `NULL` is `none`.
* A `struct data_entries` (an `int size` with an array of `size` entry pointers) is the list of
  its slots; `size` is the length of that list.
* Rows live in a flat row memory `Nat → data_row` addressed by natural numbers; a row pointer
  is an `Option Nat`.  Memory is total: reading or writing through a stale pointer reads or
  writes the cell it designates.  `malloc` of a row hands out the address `brk` and bumps it.
* Every `malloc` draws its outcome from a schedule `Alloc`; the empty schedule means that
  every allocation succeeds.
* A function whose C body can dereference `NULL`, reinterpret a payload of the wrong kind,
  read past an array, or loop without bound returns an outer `Option`: `none` stands for such
  an undefined execution (or for exhausted fuel), `some (r, s)` for a run that returned `r`
  in state `s`.  A `NULL` return value is the inner `none`.
* C `int` values are mathematical integers; the counters of the program (`size`, loop
  indices) are assumed to stay below `2^31`.
-/

namespace Libdataset

/-! ## Data model (`dataset.h`) -/

/-- Kinds of payload an entry's `void *data` designates in this program. -/
inductive Value where
  | int (v : Int)
  | text (s : List Char)
  | vector (xs : List Int)
deriving DecidableEq

/-- The `struct data_entry`: one type-erased payload pointer. -/
structure data_entry where
  data : Option Value
deriving DecidableEq

/-- The `struct data_entries`: the array of entry pointers; `size` is its length. -/
structure data_entries where
  entries : List (Option data_entry)
deriving DecidableEq

/-- The `size` field of a collection. -/
def data_entries.size (c : data_entries) : Int := c.entries.length

/-- The `struct data_row`: two owned collections and the two traversal links. -/
structure data_row where
  inputs : Option data_entries
  outputs : Option data_entries
  previous : Option Nat
  next : Option Nat
deriving DecidableEq

/-- The `struct dataset`: row counter, head (`iterator`) and tail (`last`). -/
structure dataset where
  size : Int
  iterator : Option Nat
  last : Option Nat
deriving DecidableEq

/-! ## Allocation and row memory -/

/-- Schedule of the outcomes of the coming `malloc` calls (`true` is success); once the
schedule is exhausted every allocation succeeds. -/
abbrev Alloc := List Bool

/-- One `malloc` call: its outcome and the remaining schedule. -/
def malloc : Alloc → Bool × Alloc
  | [] => (true, [])
  | b :: rest => (b, rest)

/-- Program state seen by the row-level functions: the row memory, the liveness of its
cells, the next address `malloc` hands out for a row, the allocation schedule, and `junk`:
the indeterminate value a pointer field holds in memory that `malloc` has just returned and
the program has not written yet (`malloc` does not clear recycled memory). -/
structure Heap where
  rows : Nat → data_row
  live : Nat → Bool
  brk : Nat
  junk : Option Nat
  alloc : Alloc

/-- A row cell with all four pointers `NULL`. -/
def blank_row : data_row := ⟨none, none, none, none⟩

/-! ## Entries and collections -/

/-- The C function `data_entry_create` (dataset.c:11). -/
def data_entry_create (value : Option Value) (a : Alloc) : Option data_entry × Alloc :=
  match malloc a with
  | (false, a1) => (none, a1)
  | (true, a1) => (some ⟨value⟩, a1)

/-- The C function `data_entry_create_int` (dataset.c:29). -/
def data_entry_create_int (value : Int) (a : Alloc) : Option data_entry × Alloc :=
  match malloc a with
  | (false, a1) => (none, a1)
  | (true, a1) =>
    match data_entry_create (some (Value.int value)) a1 with
    | (none, a2) => (none, a2)
    | (some entry, a2) => (some entry, a2)

/-- The C function `data_entries_create` (dataset.c:114).  A negative `size` converts to a
request of more than `2^64 - 2^34` bytes, which no allocator grants. -/
def data_entries_create (size : Int) (a : Alloc) : Option data_entries × Alloc :=
  match malloc a with
  | (false, a1) => (none, a1)
  | (true, a1) =>
    match malloc a1 with
    | (false, a2) => (none, a2)
    | (true, a2) =>
      if size < 0 then (none, a2)
      else (some ⟨List.replicate size.toNat none⟩, a2)

/-! ## Index encoding -/

/-- The `for` loop of `find_token_index` (dataset.c:347): `remaining` iterations are left and
`i` is the loop index.  Reading `tokens[i]` past the array is undefined. -/
def find_token_scan (token : Char) (tokens : List Char) : Nat → Nat → Option Int
  | 0, _ => some (-1)
  | remaining + 1, i =>
    match tokens[i]? with
    | none => none
    | some c => if c = token then some (i : Int) else find_token_scan token tokens remaining (i + 1)

/-- The C function `find_token_index` (dataset.c:340). -/
def find_token_index (token : Char) (tokens : Option (List Char)) (tokens_size : Int) :
    Option Int :=
  match tokens with
  | none => some (-1)
  | some ts =>
    if tokens_size ≤ 0 then some (-1)
    else find_token_scan token ts tokens_size.toNat 0

/-- The encoding loop of `data_entry_int_encode` (dataset.c:390): `j` is the loop index, the
list holds the characters `string_value[j..]`.  The result of `data_entry_create_int` is
stored unchecked. -/
def int_encode_fill (tokens : Option (List Char)) (tokens_size : Int) :
    List Char → Nat → data_entries → Alloc → Option (data_entries × Alloc)
  | [], _, encoded_entries, a => some (encoded_entries, a)
  | c :: rest, j, encoded_entries, a =>
    match find_token_index c tokens tokens_size with
    | none => none
    | some index =>
      match data_entry_create_int index a with
      | (entry, a1) =>
        int_encode_fill tokens tokens_size rest (j + 1) ⟨encoded_entries.entries.set j entry⟩ a1

/-- The C function `data_entry_int_encode` (dataset.c:375).  The payload is read as text. -/
def data_entry_int_encode (entry : Option data_entry) (tokens : Option (List Char))
    (tokens_size : Int) (a : Alloc) : Option (Option data_entries × Alloc) :=
  match entry with
  | none => some (none, a)
  | some ⟨none⟩ => some (none, a)
  | some ⟨some (Value.text string_value)⟩ =>
    match data_entries_create (string_value.length : Int) a with
    | (none, a1) => some (none, a1)
    | (some encoded_entries, a1) =>
      match int_encode_fill tokens tokens_size string_value 0 encoded_entries a1 with
      | none => none
      | some (filled, a2) => some (some filled, a2)
  | some ⟨some _⟩ => none

/-! ## Decimal-string encoding -/

/-- Modelled from the spec: the digit loop of `itos`, a function of the external strutils
library that is not part of this repository.  It peels decimal digits off `n`, least
significant first, in front of `acc`. -/
def itos_digits : Nat → Nat → List Char → List Char
  | 0, _, acc => acc
  | fuel + 1, n, acc =>
    if n < 10 then Nat.digitChar n :: acc
    else itos_digits fuel (n / 10) (Nat.digitChar (n % 10) :: acc)

/-- Modelled from the spec: the text `itos` produces, "its canonical decimal text
representation (handles negative values with a leading sign)". -/
def itos_text (v : Int) : List Char :=
  if v < 0 then '-' :: itos_digits (v.natAbs + 1) v.natAbs []
  else itos_digits (v.natAbs + 1) v.natAbs []

/-- Modelled from the spec: `itos` of the external strutils library; it allocates the text
it returns and yields `NULL` when that allocation fails. -/
def itos (v : Int) (a : Alloc) : Option (List Char) × Alloc :=
  match malloc a with
  | (false, a1) => (none, a1)
  | (true, a1) => (some (itos_text v), a1)

/-- The C function `data_entry_string_encode` (dataset.c:414).  The payload is read as an
`int`; the result of `data_entry_create` is stored unchecked. -/
def data_entry_string_encode (entry : Option data_entry) (_tokens : Option (List Char))
    (_tokens_size : Int) (a : Alloc) : Option (Option data_entries × Alloc) :=
  match entry with
  | none => some (none, a)
  | some ⟨none⟩ => some (none, a)
  | some ⟨some (Value.int int_value)⟩ =>
    match itos int_value a with
    | (none, a1) => some (none, a1)
    | (some string_value, a1) =>
      match data_entries_create 1 a1 with
      | (none, a2) => some (none, a2)
      | (some encoded_entries, a2) =>
        match data_entry_create (some (Value.text string_value)) a2 with
        | (slot, a3) => some (some ⟨encoded_entries.entries.set 0 slot⟩, a3)
  | some ⟨some _⟩ => none

/-! ## One-hot encoding -/

/-- Modelled from the spec: `vector_create` of the external matrixmath library, a numeric
vector of `size` elements (the elements are `long double` in C; the encoder only stores the
exact values 0 and 1, kept here as integers). -/
def vector_create (size : Int) (a : Alloc) : Option (List Int) × Alloc :=
  match malloc a with
  | (false, a1) => (none, a1)
  | (true, a1) => (some (List.replicate size.toNat 0), a1)

/-- Modelled from the spec: `vector_setl` of the external matrixmath library; it stores
`value` at `index` and yields `NULL` when the index is outside the vector. -/
def vector_setl (v : List Int) (index : Int) (value : Int) : Option (List Int) :=
  if 0 ≤ index ∧ index < (v.length : Int) then some (v.set index.toNat value) else none

/-- The initialisation loop of `data_entry_one_hot_encode` (dataset.c:475): `remaining`
iterations are left, `index` is the loop index; `none` is the early exit taken when
`vector_setl` fails. -/
def one_hot_fill (value : Int) : Nat → Int → List Int → Option (List Int)
  | 0, _, v => some v
  | remaining + 1, index, v =>
    match vector_setl v index (if index = value then 1 else 0) with
    | none => none
    | some v1 => one_hot_fill value remaining (index + 1) v1

/-- The C function `data_entry_one_hot_encode` (dataset.c:458).  The payload is read as an
`int`. -/
def data_entry_one_hot_encode (entry : Option data_entry) (_tokens : Option (List Char))
    (tokens_size : Int) (a : Alloc) : Option (Option data_entries × Alloc) :=
  match entry with
  | none => some (none, a)
  | some ⟨none⟩ => some (none, a)
  | some ⟨some payload⟩ =>
    if tokens_size ≤ 0 then some (none, a)
    else
      match payload with
      | Value.int value =>
        if value < 0 ∨ value ≥ tokens_size then some (none, a)
        else
          match vector_create tokens_size a with
          | (none, a1) => some (none, a1)
          | (some one_hot_vector, a1) =>
            match one_hot_fill value tokens_size.toNat 0 one_hot_vector with
            | none => some (none, a1)
            | some filled =>
              match data_entries_create 1 a1 with
              | (none, a2) => some (none, a2)
              | (some encoded_entries, a2) =>
                match data_entry_create (some (Value.vector filled)) a2 with
                | (none, a3) => some (none, a3)
                | (some slot, a3) => some (some ⟨encoded_entries.entries.set 0 (some slot)⟩, a3)
      | _ => none

/-! ## The generic per-collection transform -/

/-- Type of the `encode_entry` function pointer: entry, alphabet, alphabet size. -/
abbrev Encoder :=
  Option data_entry → Option (List Char) → Int → Alloc → Option (Option data_entries × Alloc)

/-- The C function `data_entries_collection_create` (dataset.c:510). -/
def data_entries_collection_create (size : Int) (a : Alloc) :
    Option (List (Option data_entries)) × Alloc :=
  match malloc a with
  | (false, a1) => (none, a1)
  | (true, a1) => (some (List.replicate size.toNat none), a1)

/-- State of the first loop of `data_entries_encode`: the temporary array, the running
`encoded_entries_size`, the `failed` flag and the allocation schedule. -/
structure EncodeAcc where
  entries_collection : List (Option data_entries)
  encoded_entries_size : Int
  failed : Bool
  alloc : Alloc

/-- The first loop of `data_entries_encode` (dataset.c:574): `i` is the loop index, the list
holds `raw_entries->entries[i..]`.  The loop does not stop at a failed application. -/
def encode_each (tokens : Option (List Char)) (tokens_size : Int) (encode_entry : Encoder) :
    List (Option data_entry) → Nat → EncodeAcc → Option EncodeAcc
  | [], _, acc => some acc
  | e :: rest, i, acc =>
    match encode_entry e tokens tokens_size acc.alloc with
    | none => none
    | some (none, a1) =>
      encode_each tokens tokens_size encode_entry rest (i + 1)
        ⟨acc.entries_collection.set i none, acc.encoded_entries_size, true, a1⟩
    | some (some c, a1) =>
      encode_each tokens tokens_size encode_entry rest (i + 1)
        ⟨acc.entries_collection.set i (some c), acc.encoded_entries_size + c.size, acc.failed, a1⟩

/-- The inner loop of the flattening step (dataset.c:596): copies the slots
`entries_collection[j]->entries[k..]` to `encoded_entries->entries[index..]`. -/
def flatten_inner : List (Option data_entry) → Nat → List (Option data_entry) →
    List (Option data_entry) × Nat
  | [], index, encoded => (encoded, index)
  | slot :: rest, index, encoded => flatten_inner rest (index + 1) (encoded.set index slot)

/-- The outer loop of the flattening step (dataset.c:595) over `entries_collection[j..]`;
dereferencing a `NULL` element is undefined. -/
def flatten_outer : List (Option data_entries) → Nat → List (Option data_entry) →
    Option (List (Option data_entry))
  | [], _, encoded => some encoded
  | none :: _, _, _ => none
  | some c :: rest, index, encoded =>
    match flatten_inner c.entries index encoded with
    | (encoded1, index1) => flatten_outer rest index1 encoded1

/-- The C function `data_entries_encode` (dataset.c:563).  `raw_entries` is dereferenced
unchecked. -/
def data_entries_encode (raw_entries : Option data_entries) (tokens : Option (List Char))
    (tokens_size : Int) (encode_entry : Encoder) (a : Alloc) :
    Option (Option data_entries × Alloc) :=
  match raw_entries with
  | none => none
  | some raw =>
    match data_entries_collection_create raw.size a with
    | (none, a1) => some (none, a1)
    | (some entries_collection, a1) =>
      match encode_each tokens tokens_size encode_entry raw.entries 0
          ⟨entries_collection, 0, false, a1⟩ with
      | none => none
      | some acc =>
        if acc.failed then some (none, acc.alloc)
        else
          match data_entries_create acc.encoded_entries_size acc.alloc with
          | (none, a2) => some (none, a2)
          | (some encoded_entries, a2) =>
            match flatten_outer acc.entries_collection 0 encoded_entries.entries with
            | none => none
            | some flat => some (some ⟨flat⟩, a2)

/-! ## Rows and datasets -/

/-- The C function `data_row_create` (dataset.c:185). -/
def data_row_create (m : Heap) : Option Nat × Heap :=
  match malloc m.alloc with
  | (false, a1) => (none, { m with alloc := a1 })
  | (true, a1) =>
    (some m.brk,
      { rows := Function.update m.rows m.brk blank_row
        live := Function.update m.live m.brk true
        brk := m.brk + 1
        junk := m.junk
        alloc := a1 })

/-- The C function `data_row_destroy` (dataset.c:207): both collections are released and
their fields cleared, then the row cell is freed. -/
def data_row_destroy (row : Option Nat) (m : Heap) : Heap :=
  match row with
  | none => m
  | some p =>
    { m with
      rows := Function.update m.rows p { m.rows p with inputs := none, outputs := none }
      live := Function.update m.live p false }

/-- The C function `dataset_create` (dataset.c:229).  It stores `size` and `iterator` only;
the `last` field keeps whatever the allocated memory held. -/
def dataset_create (m : Heap) : Option dataset × Heap :=
  match malloc m.alloc with
  | (false, a1) => (none, { m with alloc := a1 })
  | (true, a1) => (some { size := 0, iterator := none, last := m.junk }, { m with alloc := a1 })

/-- The `while` loop of `dataset_destroy` (dataset.c:256). -/
def destroy_rows : Nat → Option Nat → Heap → Option Heap
  | _, none, m => some m
  | 0, some _, _ => none
  | fuel + 1, some current, m =>
    destroy_rows fuel (m.rows current).next (data_row_destroy (some current) m)

/-- The C function `dataset_destroy` (dataset.c:249). -/
def dataset_destroy (fuel : Nat) (data : Option dataset) (m : Heap) : Option Heap :=
  match data with
  | none => some m
  | some d => destroy_rows fuel d.iterator m

/-- The C function `dataset_append_row` (dataset.c:306): return code, the dataset after the
call, the memory after the call. -/
def dataset_append_row (data : Option dataset) (row : Option Nat) (m : Heap) :
    Int × Option dataset × Heap :=
  match data, row with
  | some d, some r =>
    match d.last with
    | none =>
      (0, some { size := d.size + 1, iterator := some r, last := some r }, m)
    | some l =>
      let rows1 := Function.update m.rows l { m.rows l with next := some r }
      let rows2 := Function.update rows1 r { rows1 r with previous := some l }
      (0, some { size := d.size + 1, iterator := d.iterator, last := some r },
        { m with rows := rows2 })
  | _, _ => (-1, data, m)

/-- Forward traversal as in the loop of `dataset_print` (dataset.c:283): the addresses visited
from `current` following `next` until `NULL`; `none` when the fuel runs out first. -/
def forward (rows : Nat → data_row) : Nat → Option Nat → Option (List Nat)
  | _, none => some []
  | 0, some _ => none
  | fuel + 1, some current => (forward rows fuel (rows current).next).map (current :: ·)

/-- Backward traversal of the data model (the source has no such loop): the addresses
visited from `current` following `previous` until `NULL`; `none` when the fuel runs out
first. -/
def backward (rows : Nat → data_row) : Nat → Option Nat → Option (List Nat)
  | _, none => some []
  | 0, some _ => none
  | fuel + 1, some current => (backward rows fuel (rows current).previous).map (current :: ·)

/-! ## The generic per-row and per-dataset transforms -/

/-- The C function `data_row_encode` (dataset.c:625).  `raw_row` is dereferenced
unchecked. -/
def data_row_encode (raw_row : Option Nat) (tokens : Option (List Char)) (tokens_size : Int)
    (encode_entry : Encoder) (m : Heap) : Option (Option Nat × Heap) :=
  match raw_row with
  | none => none
  | some raw =>
    match data_row_create m with
    | (none, m1) => some (none, m1)
    | (some encoded_row, m1) =>
      match data_entries_encode (m1.rows raw).inputs tokens tokens_size encode_entry m1.alloc with
      | none => none
      | some (none, a1) => some (none, data_row_destroy (some encoded_row) { m1 with alloc := a1 })
      | some (some ins, a1) =>
        let m2 : Heap :=
          { m1 with
            rows := Function.update m1.rows encoded_row
              { m1.rows encoded_row with inputs := some ins }
            alloc := a1 }
        match data_entries_encode (m2.rows raw).outputs tokens tokens_size encode_entry
            m2.alloc with
        | none => none
        | some (none, a2) =>
          some (none, data_row_destroy (some encoded_row) { m2 with alloc := a2 })
        | some (some outs, a2) =>
          some (some encoded_row,
            { m2 with
              rows := Function.update m2.rows encoded_row
                { m2.rows encoded_row with outputs := some outs }
              alloc := a2 })

/-- The `while` loop of `dataset_encode` (dataset.c:663); `dfuel` bounds the traversal of
`dataset_destroy` on the failure path. -/
def dataset_encode_loop (tokens : Option (List Char)) (tokens_size : Int)
    (encode_entry : Encoder) (dfuel : Nat) :
    Nat → Option Nat → Option dataset → Heap → Option (Option dataset × Heap)
  | _, none, encoded_dataset, m => some (encoded_dataset, m)
  | 0, some _, _, _ => none
  | fuel + 1, some current, encoded_dataset, m =>
    match data_row_encode (some current) tokens tokens_size encode_entry m with
    | none => none
    | some (none, m1) => (dataset_destroy dfuel encoded_dataset m1).map (fun m2 => (none, m2))
    | some (some encoded_row, m1) =>
      match dataset_append_row encoded_dataset (some encoded_row) m1 with
      | (rc, encoded_dataset1, m2) =>
        if rc ≠ 0 then (dataset_destroy dfuel encoded_dataset1 m2).map (fun m3 => (none, m3))
        else
          dataset_encode_loop tokens tokens_size encode_entry dfuel fuel (m2.rows current).next
            encoded_dataset1 m2

/-- The C function `dataset_encode` (dataset.c:650); `fuel` bounds both row traversals. -/
def dataset_encode (fuel : Nat) (raw_dataset : Option dataset) (tokens : Option (List Char))
    (tokens_size : Int) (encode_entry : Encoder) (m : Heap) : Option (Option dataset × Heap) :=
  match raw_dataset with
  | none => some (none, m)
  | some raw =>
    match dataset_create m with
    | (none, m1) => some (none, m1)
    | (some encoded_dataset, m1) =>
      dataset_encode_loop tokens tokens_size encode_entry fuel fuel raw.iterator
        (some encoded_dataset) m1

/-- The C function `dataset_int_encode` (dataset.c:680). -/
def dataset_int_encode (fuel : Nat) (string_dataset : Option dataset)
    (tokens : Option (List Char)) (tokens_size : Int) (m : Heap) :
    Option (Option dataset × Heap) :=
  dataset_encode fuel string_dataset tokens tokens_size data_entry_int_encode m

/-- The C function `dataset_string_encode` (dataset.c:688). -/
def dataset_string_encode (fuel : Nat) (int_dataset : Option dataset) (m : Heap) :
    Option (Option dataset × Heap) :=
  dataset_encode fuel int_dataset none 0 data_entry_string_encode m

/-- The C function `dataset_one_hot_encode` (dataset.c:696). -/
def dataset_one_hot_encode (fuel : Nat) (int_encoded_dataset : Option dataset)
    (tokens_size : Int) (m : Heap) : Option (Option dataset × Heap) :=
  dataset_encode fuel int_encoded_dataset none tokens_size data_entry_one_hot_encode m

/-! ## Specification vocabulary -/

/-- Value of a digit string read in base 10, most significant digit first. -/
def decimal_value (ds : List Char) : Nat :=
  ds.foldl (fun acc c => 10 * acc + (c.toNat - 48)) 0

/-- Canonical base-10 digit string of `n`: not empty, decimal digits only, no leading zero
except for the string "0" itself, and of value `n`. -/
def canonical_digits (ds : List Char) (n : Nat) : Prop :=
  ds ≠ [] ∧ (∀ c ∈ ds, c.isDigit = true) ∧ (ds.head? = some '0' → ds = ['0'])
    ∧ decimal_value ds = n

/-- Concatenation, in source order, of the collections the per-entry results `r` hold;
`none` as soon as one per-entry result is absent. -/
def concat_outputs (r : Option data_entry → Option data_entries) :
    List (Option data_entry) → Option (List (Option data_entry))
  | [] => some []
  | e :: rest =>
    match r e, concat_outputs r rest with
    | some c, some tail => some (c.entries ++ tail)
    | _, _ => none

/-- Following the link `nxt` from `start` visits exactly the addresses `l`, in this order,
and then reaches `NULL`. -/
def follows (nxt : Nat → Option Nat) : Option Nat → List Nat → Prop
  | start, [] => start = none
  | start, p :: ps => start = some p ∧ follows nxt (nxt p) ps

/-- The four conditions the data model lists as the dataset invariant, for a dataset whose
forward traversal from the head is `l`: `size` counts the rows of the traversal, the tail's
forward link is absent, the head's backward link is absent, and each row after the head
links back to its immediate predecessor, whose forward link designates it. -/
def listed_invariant (rows : Nat → data_row) (d : dataset) (l : List Nat) : Prop :=
  forward rows l.length d.iterator = some l
    ∧ d.size = (l.length : Int)
    ∧ (∀ t, d.last = some t → (rows t).next = none)
    ∧ (∀ h, d.iterator = some h → (rows h).previous = none)
    ∧ (∀ i p q, l[i]? = some p → l[i + 1]? = some q →
        (rows q).previous = some p ∧ (rows p).next = some q)

/-- The listed invariant together with the tie between the tail reference and the
traversal: `last` designates the final row of the traversal and is absent when the dataset
is empty. -/
def well_formed (rows : Nat → data_row) (d : dataset) (l : List Nat) : Prop :=
  listed_invariant rows d l ∧ d.last = l.getLast?

/-- Appends the rows at the addresses `rs`, in order, with `dataset_append_row`. -/
def append_rows : List Nat → Option dataset → Heap → Option dataset × Heap
  | [], d, m => (d, m)
  | r :: rest, d, m =>
    match dataset_append_row d (some r) m with
    | (_, d1, m1) => append_rows rest d1 m1

/-- Row-encoding of a row under the per-entry results `r`: the concatenated outputs of its
inputs side and of its outputs side; `none` when a side is absent or an application failed. -/
def row_outputs (r : Option data_entry → Option data_entries) (row : data_row) :
    Option (data_entries × data_entries) :=
  match row.inputs, row.outputs with
  | some ins, some outs =>
    match concat_outputs r ins.entries, concat_outputs r outs.entries with
    | some x, some y => some (⟨x⟩, ⟨y⟩)
    | _, _ => none
  | _, _ => none

/-- A memory whose row cells are all blank, with the cells 0 and 1 live, no allocation
failure scheduled, and `junk` as the content of uninitialised pointer fields. -/
def blank_heap (junk : Option Nat) : Heap :=
  { rows := fun _ => blank_row
    live := fun p => decide (p < 2)
    brk := 2
    junk := junk
    alloc := [] }

/-- A source row the transform can process: it lies below the address `b0` from which the
encoded rows are allocated, both its sides are present, and without allocation failure the
per-entry encoder returns `r e` on each of its entries `e`. -/
def encodable (tokens : Option (List Char)) (n : Int) (enc : Encoder)
    (r : Option data_entry → Option data_entries) (orig : Nat → data_row) (b0 p : Nat) : Prop :=
  p < b0 ∧ ∃ ins outs, (orig p).inputs = some ins ∧ (orig p).outputs = some outs
    ∧ ∀ e ∈ ins.entries ++ outs.entries, enc e tokens n [] = some (r e, [])

/-- State of the loop of `dataset_encode` after the source rows `pre` have been encoded:
the encoded rows occupy the addresses `b0, b0 + 1, ...` in source order, the encoded dataset
`d` is well formed over them, each encoded row holds the row-encoding of its source row, and
the cells below `b0` (the source) are as in `orig`. -/
def encoded_so_far (r : Option data_entry → Option data_entries) (orig : Nat → data_row)
    (b0 : Nat) (pre : List Nat) (d : dataset) (mk : Heap) : Prop :=
  mk.alloc = [] ∧ mk.brk = b0 + pre.length ∧ (∀ p, p < b0 → mk.rows p = orig p)
    ∧ well_formed mk.rows d (List.range' b0 pre.length)
    ∧ ∀ i p, pre[i]? = some p → ∃ x y, row_outputs r (orig p) = some (x, y)
        ∧ (mk.rows (b0 + i)).inputs = some x ∧ (mk.rows (b0 + i)).outputs = some y

/-- A memory holding a well-formed two-row source dataset: row 0 has the integer input 0,
row 1 the integer input 5, both have an empty outputs side; cell 2 is a blank row that is not
part of the source; encoded rows are allocated from address 3. -/
def sample_heap (junk : Option Nat) : Heap :=
  { rows := fun p =>
      if p = 0 then ⟨some ⟨[some ⟨some (Value.int 0)⟩]⟩, some ⟨[]⟩, none, some 1⟩
      else if p = 1 then ⟨some ⟨[some ⟨some (Value.int 5)⟩]⟩, some ⟨[]⟩, some 0, none⟩
      else blank_row
    live := fun p => decide (p < 3)
    brk := 3
    junk := junk
    alloc := [] }

/-- The dataset over the two source rows of `sample_heap`. -/
def sample_source : dataset := { size := 2, iterator := some 0, last := some 1 }

/-- A per-entry encoder in the sense of the `encode_entry` parameter: it copies an entry
holding the integer 0 into a one-entry collection and fails on every other entry. -/
def keep_zero : Encoder := fun entry _ _ a =>
  match entry with
  | some ⟨some (Value.int v)⟩ =>
    if v = 0 then
      match data_entries_create 1 a with
      | (none, a1) => some (none, a1)
      | (some c, a1) =>
        match data_entry_create_int 0 a1 with
        | (none, a2) => some (none, a2)
        | (some e, a2) => some (some ⟨c.entries.set 0 (some e)⟩, a2)
    else some (none, a)
  | _ => some (none, a)

/-- Symbol an integer entry designates in the alphabet `tokens`: the index-to-symbol
direction of the alphabet; `none` for an absent entry, a payload that is not an integer, or
an index outside the array. -/
def token_at (tokens : List Char) (slot : Option data_entry) : Option Char :=
  match slot with
  | some ⟨some (Value.int i)⟩ => if 0 ≤ i then tokens[i.toNat]? else none
  | _ => none

/-- A memory holding a one-row source dataset of texts: row 0 has the text input "a" and an
empty outputs side; encoded rows are allocated from address 1; `alloc` is the allocation
schedule. -/
def text_heap (alloc : Alloc) : Heap :=
  { rows := fun p => if p = 0 then ⟨some ⟨[some ⟨some (Value.text ['a'])⟩]⟩, some ⟨[]⟩, none, none⟩
      else blank_row
    live := fun p => decide (p < 1)
    brk := 1
    junk := none
    alloc := alloc }

/-- The dataset over the source row of `text_heap`. -/
def text_source : dataset := { size := 1, iterator := some 0, last := some 0 }

/-- Value of a C `int` expression after two's-complement wraparound to 32 bits. -/
def wrap_int (x : Int) : Int := (x + 2147483648) % 4294967296 - 2147483648

/-- The C function `random_generate_integer` (tests/arithmetic_operations.c:9);
`rand_value` is what `rand()` returned.  The C operator `%` truncates toward zero and is
undefined for a zero divisor. -/
def random_generate_integer (min max rand_value : Int) : Option Int :=
  if wrap_int (wrap_int (max - min) + 1) = 0 then none
  else some (wrap_int (min + Int.tmod rand_value (wrap_int (wrap_int (max - min) + 1))))

/-- The token array of the test driver (tests/main.c:30): the twelve symbols
"0123456789+ " followed by the terminator; its `tokens_size` is 12. -/
def driver_tokens : List Char :=
  ['0', '1', '2', '3', '4', '5', '6', '7', '8', '9', '+', ' ', Char.ofNat 0]

/-- A memory holding a well-formed two-row source whose second row has an absent slot:
row 0 has the integer input 0, row 1 has one input slot, absent; both have an empty outputs
side; encoded rows are allocated from address 2. -/
def gap_heap (junk : Option Nat) : Heap :=
  { rows := fun p =>
      if p = 0 then ⟨some ⟨[some ⟨some (Value.int 0)⟩]⟩, some ⟨[]⟩, none, some 1⟩
      else if p = 1 then ⟨some ⟨[none]⟩, some ⟨[]⟩, some 0, none⟩
      else blank_row
    live := fun p => decide (p < 2)
    brk := 2
    junk := junk
    alloc := [] }

/-- A memory holding a one-row source of non-negative integers: row 0 has the inputs 12 and
30 and the output 42; cell 1 is a blank row that is not part of the source; encoded rows are
allocated from address 2. -/
def digits_heap (junk : Option Nat) : Heap :=
  { rows := fun p =>
      if p = 0 then
        ⟨some ⟨[some ⟨some (Value.int 12)⟩, some ⟨some (Value.int 30)⟩]⟩,
          some ⟨[some ⟨some (Value.int 42)⟩]⟩, none, none⟩
      else blank_row
    live := fun p => decide (p < 2)
    brk := 2
    junk := junk
    alloc := [] }

/-- A memory holding a one-row source of texts: row 0 has the text input "-7" and an empty
outputs side; cell 1 is a blank row that is not part of the source; encoded rows are
allocated from address 2. -/
def minus_heap (junk : Option Nat) : Heap :=
  { rows := fun p =>
      if p = 0 then ⟨some ⟨[some ⟨some (Value.text ['-', '7'])⟩]⟩, some ⟨[]⟩, none, none⟩
      else blank_row
    live := fun p => decide (p < 2)
    brk := 2
    junk := junk
    alloc := [] }

/-- The dataset over row 0 of `digits_heap` and of `minus_heap`. -/
def single_source : dataset := { size := 1, iterator := some 0, last := some 0 }

/-! ## Vocabulary of the encoding pipelines -/

/-- The decimal-string encoding of one entry in the words of the spec: an integer entry
becomes the text entry holding its decimal text. -/
def string_of (e : Option data_entry) : Option data_entry :=
  match e with
  | some ⟨some (Value.int v)⟩ => some ⟨some (Value.text (itos_text v))⟩
  | _ => none

/-- The one-hot encoding of one entry in the words of the spec: an integer entry becomes the
vector entry of length `n` with a 1 at the position of its value and 0 elsewhere. -/
def one_hot_of (n : Int) (e : Option data_entry) : Option data_entry :=
  match e with
  | some ⟨some (Value.int v)⟩ =>
    some ⟨some (Value.vector
      ((List.range n.toNat).map (fun i : Nat => if (i : Int) = v then (1 : Int) else 0)))⟩
  | _ => none

/-- Position of `c` in the first `n` characters of the alphabet `ts`, and `-1` when it does
not occur there. -/
def token_code (ts : List Char) (n : Nat) (c : Char) : Int :=
  if c ∈ ts.take n then (((ts.take n).indexOf c : Nat) : Int) else -1

/-- Every slot of the collection holds an integer. -/
def holds_ints (c : data_entries) : Prop :=
  ∀ e ∈ c.entries, ∃ v : Int, e = some ⟨some (Value.int v)⟩

/-- Every slot of the collection holds a non-negative integer. -/
def holds_naturals (c : data_entries) : Prop :=
  ∀ e ∈ c.entries, ∃ v : Int, 0 ≤ v ∧ e = some ⟨some (Value.int v)⟩

/-- Every slot of the collection holds a text. -/
def holds_texts (c : data_entries) : Prop :=
  ∀ e ∈ c.entries, ∃ t : List Char, e = some ⟨some (Value.text t)⟩

/-- The decimal digit values of `n`, most significant first; the single digit 0 for 0. -/
def decimal_digits (n : Nat) : List Nat :=
  if n = 0 then [0] else (Nat.digits 10 n).reverse

/-- The decimal digit values of the integers of a collection, concatenated in entry order,
as integer entries. -/
def digit_entries (c : data_entries) : List (Option data_entry) :=
  c.entries.flatMap (fun e =>
    match e with
    | some ⟨some (Value.int v)⟩ =>
      (decimal_digits v.toNat).map (fun k : Nat => some ⟨some (Value.int (k : Int))⟩)
    | _ => [])

/-- Per-entry results of `data_entry_string_encode` when no allocation fails. -/
def string_results (e : Option data_entry) : Option data_entries :=
  match e with
  | some ⟨some (Value.int v)⟩ => some ⟨[some ⟨some (Value.text (itos_text v))⟩]⟩
  | _ => none

/-- Per-entry results of `data_entry_one_hot_encode` with alphabet size `n` when no
allocation fails. -/
def one_hot_results (n : Int) (e : Option data_entry) : Option data_entries :=
  match e with
  | some ⟨some (Value.int v)⟩ => if 0 ≤ v ∧ v < n then some ⟨[one_hot_of n e]⟩ else none
  | _ => none

/-- Per-entry results of `data_entry_int_encode` over the first `n` characters of `ts` when
no allocation fails. -/
def int_results (ts : List Char) (n : Nat) (e : Option data_entry) : Option data_entries :=
  match e with
  | some ⟨some (Value.text t)⟩ =>
    some ⟨t.map (fun c => some ⟨some (Value.int (token_code ts n c))⟩)⟩
  | _ => none

/-- The index codes of the characters of the texts of a collection over the first `n`
characters of `ts`, concatenated in entry order, as integer entries. -/
def code_entries (ts : List Char) (n : Nat) (c : data_entries) : List (Option data_entry) :=
  c.entries.flatMap (fun e =>
    match e with
    | some ⟨some (Value.text t)⟩ =>
      t.map (fun ch => some ⟨some (Value.int (token_code ts n ch))⟩)
    | _ => [])

/-! ## Safety conditions of the loops -/

/-- Safety of the first loop of `data_entries_encode` (dataset.c:574): at every iteration
the read of `raw_entries->entries[i]` and the write of `entries_collection[i]` are inside
their arrays; `raw_size` is the size of the source collection. -/
def encode_each_in_range (tokens : Option (List Char)) (tokens_size : Int)
    (encode_entry : Encoder) (raw_size : Nat) :
    List (Option data_entry) → Nat → EncodeAcc → Prop
  | [], _, _ => True
  | e :: rest, i, acc =>
    i < raw_size ∧ i < acc.entries_collection.length ∧
    match encode_entry e tokens tokens_size acc.alloc with
    | none => True
    | some (none, a1) =>
      encode_each_in_range tokens tokens_size encode_entry raw_size rest (i + 1)
        ⟨acc.entries_collection.set i none, acc.encoded_entries_size, true, a1⟩
    | some (some c, a1) =>
      encode_each_in_range tokens tokens_size encode_entry raw_size rest (i + 1)
        ⟨acc.entries_collection.set i (some c), acc.encoded_entries_size + c.size, acc.failed, a1⟩

/-- Safety of the inner flattening loop (dataset.c:596): every write of
`encoded_entries->entries[index]` is inside the array. -/
def flatten_inner_in_range : List (Option data_entry) → Nat → List (Option data_entry) → Prop
  | [], _, _ => True
  | slot :: rest, index, encoded =>
    index < encoded.length ∧ flatten_inner_in_range rest (index + 1) (encoded.set index slot)

/-- Safety of the outer flattening loop (dataset.c:595): every element
`entries_collection[j]` that is dereferenced is present, and the writes of its inner loop are
inside the array. -/
def flatten_outer_in_range : List (Option data_entries) → Nat → List (Option data_entry) → Prop
  | [], _, _ => True
  | none :: _, _, _ => False
  | some c :: rest, index, encoded =>
    flatten_inner_in_range c.entries index encoded
      ∧ flatten_outer_in_range rest (flatten_inner c.entries index encoded).2
          (flatten_inner c.entries index encoded).1

/-- Safety of `data_entries_encode` on a present source collection: the accesses of its
first loop and of the flattening step are all inside their arrays. -/
def data_entries_encode_in_range (raw : data_entries) (tokens : Option (List Char))
    (tokens_size : Int) (encode_entry : Encoder) (a : Alloc) : Prop :=
  match data_entries_collection_create raw.size a with
  | (none, _) => True
  | (some entries_collection, a1) =>
    encode_each_in_range tokens tokens_size encode_entry raw.entries.length raw.entries 0
        ⟨entries_collection, 0, false, a1⟩
      ∧ match encode_each tokens tokens_size encode_entry raw.entries 0
          ⟨entries_collection, 0, false, a1⟩ with
        | none => True
        | some acc =>
          if acc.failed then True
          else
            match data_entries_create acc.encoded_entries_size acc.alloc with
            | (none, _) => True
            | (some encoded_entries, _) =>
              flatten_outer_in_range acc.entries_collection 0 encoded_entries.entries

/-- Safety of the encoding loop of `data_entry_int_encode` (dataset.c:390): every write of
`encoded_entries->entries[j]` is inside the array. -/
def int_encode_fill_in_range (tokens : Option (List Char)) (tokens_size : Int) :
    List Char → Nat → data_entries → Alloc → Prop
  | [], _, _, _ => True
  | c :: rest, j, encoded_entries, a =>
    j < encoded_entries.entries.length ∧
    match find_token_index c tokens tokens_size with
    | none => True
    | some index =>
      int_encode_fill_in_range tokens tokens_size rest (j + 1)
        ⟨encoded_entries.entries.set j (data_entry_create_int index a).1⟩
        (data_entry_create_int index a).2

/-- Safety of `data_row_encode` (dataset.c:625) on the row at address `raw`: the collections
whose `size` `data_entries_encode` reads, `raw_row->inputs` and then `raw_row->outputs`, are
present. -/
def row_encode_null_free (raw : Nat) (tokens : Option (List Char)) (tokens_size : Int)
    (encode_entry : Encoder) (m : Heap) : Prop :=
  match data_row_create m with
  | (none, _) => True
  | (some encoded_row, m1) =>
    (m1.rows raw).inputs ≠ none ∧
    match data_entries_encode (m1.rows raw).inputs tokens tokens_size encode_entry m1.alloc with
    | some (some ins, _) =>
      ((Function.update m1.rows encoded_row
        { m1.rows encoded_row with inputs := some ins }) raw).outputs ≠ none
    | _ => True

/-- Safety of the loop of `dataset_encode` (dataset.c:663) for `fuel` iterations: every row
the loop hands to `data_row_encode` has its two collections present when they are read. -/
def encode_loop_null_free (tokens : Option (List Char)) (tokens_size : Int)
    (encode_entry : Encoder) : Nat → Option Nat → Option dataset → Heap → Prop
  | _, none, _, _ => True
  | 0, some _, _, _ => True
  | fuel + 1, some current, encoded_dataset, m =>
    row_encode_null_free current tokens tokens_size encode_entry m ∧
    match data_row_encode (some current) tokens tokens_size encode_entry m with
    | some (some encoded_row, m1) =>
      match dataset_append_row encoded_dataset (some encoded_row) m1 with
      | (rc, encoded_dataset1, m2) =>
        if rc ≠ 0 then True
        else encode_loop_null_free tokens tokens_size encode_entry fuel (m2.rows current).next
          encoded_dataset1 m2
    | _ => True

/-- Safety of `dataset_encode` (dataset.c:650) on a present source for `fuel` iterations of
its loop. -/
def dataset_encode_null_free (fuel : Nat) (raw : dataset) (tokens : Option (List Char))
    (tokens_size : Int) (encode_entry : Encoder) (m : Heap) : Prop :=
  match dataset_create m with
  | (none, _) => True
  | (some encoded_dataset, m1) =>
    encode_loop_null_free tokens tokens_size encode_entry fuel raw.iterator
      (some encoded_dataset) m1

/-- The row `p` is visited when following the link `nxt` from `start`. -/
inductive reaches (nxt : Nat → Option Nat) : Option Nat → Nat → Prop where
  | here (p : Nat) : reaches nxt (some p) p
  | step (p q : Nat) : reaches nxt (nxt p) q → reaches nxt (some p) q

/-! ## Lemmas: allocation without scheduled failure -/

theorem malloc_nil : malloc [] = (true, []) := rfl

theorem data_entry_create_nil (value : Option Value) :
    data_entry_create value [] = (some ⟨value⟩, []) := rfl

theorem data_entry_create_int_nil (value : Int) :
    data_entry_create_int value [] = (some ⟨some (Value.int value)⟩, []) := rfl

theorem data_entries_create_nil (size : Int) (h : 0 ≤ size) :
    data_entries_create size [] = (some ⟨List.replicate size.toNat none⟩, []) := by
  simp [data_entries_create, malloc, not_lt.mpr h]

/-! ## Lemmas: index encoding -/

/-- Code the index encoder stores for a character: its first position in the alphabet, or
the sentinel `-1` when the alphabet does not hold it. -/
theorem find_token_scan_eq (token : Char) (l pre : List Char) :
    find_token_scan token (pre ++ l) l.length pre.length
      = some (if token ∈ l then ((pre.length + l.indexOf token : Nat) : Int) else -1) := by
  induction l generalizing pre with
  | nil => simp [find_token_scan]
  | cons c rest ih =>
    simp only [List.length_cons, find_token_scan]
    have hget : (pre ++ c :: rest)[pre.length]? = some c := by
      rw [List.getElem?_append_right (le_refl _)]; simp
    rw [hget]
    by_cases hc : c = token
    · subst hc
      simp
    · have h1 := ih (pre ++ [c])
      simp only [List.append_assoc, List.singleton_append, List.length_append,
        List.length_singleton] at h1
      have hc2 : ¬ token = c := fun h => hc h.symm
      simp only [hc, if_false, h1, List.mem_cons, hc2, false_or]
      split_ifs with hm
      · simp [List.indexOf_cons, hc]
        omega
      · rfl

theorem find_token_index_eq (token : Char) (A : List Char) :
    find_token_index token (some A) (A.length : Int)
      = some (if token ∈ A then ((A.indexOf token : Nat) : Int) else -1) := by
  unfold find_token_index
  by_cases hA : A = []
  · subst hA; simp
  · have hpos : 0 < A.length := List.length_pos.mpr hA
    have h := find_token_scan_eq token A []
    simp only [List.nil_append, List.length_nil, Nat.zero_add] at h
    have hn : ¬ ((A.length : Int) ≤ 0) := by omega
    simp only [hn, if_false, Int.toNat_ofNat, h]

theorem set_length_append {α : Type} (done rest : List α) (x y : α) :
    (done ++ x :: rest).set done.length y = done ++ y :: rest := by
  induction done with
  | nil => rfl
  | cons d ds ih => simp [List.set, ih]

theorem int_encode_fill_eq (tokens : Option (List Char)) (tokens_size : Int) (g : Char → Int)
    (t : List Char) (hg : ∀ c ∈ t, find_token_index c tokens tokens_size = some (g c))
    (done : List (Option data_entry)) :
    int_encode_fill tokens tokens_size t done.length ⟨done ++ List.replicate t.length none⟩ []
      = some (⟨done ++ t.map (fun c => some ⟨some (Value.int (g c))⟩)⟩, []) := by
  induction t generalizing done with
  | nil => simp [int_encode_fill]
  | cons c rest ih =>
    have hc := hg c (List.mem_cons_self c rest)
    have hrest : ∀ x ∈ rest, find_token_index x tokens tokens_size = some (g x) :=
      fun x hx => hg x (List.mem_cons_of_mem c hx)
    have h1 := ih hrest (done ++ [some ⟨some (Value.int (g c))⟩])
    simp only [List.length_append, List.length_singleton, List.append_assoc,
      List.singleton_append] at h1
    simp only [int_encode_fill, hc, data_entry_create_int_nil, List.length_cons,
      List.replicate_succ, set_length_append, h1, List.map_cons]

theorem data_entry_int_encode_eq (tokens : Option (List Char)) (tokens_size : Int)
    (g : Char → Int) (t : List Char)
    (hg : ∀ c ∈ t, find_token_index c tokens tokens_size = some (g c)) :
    data_entry_int_encode (some ⟨some (Value.text t)⟩) tokens tokens_size []
      = some (some ⟨t.map (fun c => some ⟨some (Value.int (g c))⟩)⟩, []) := by
  have h := int_encode_fill_eq tokens tokens_size g t hg []
  simp only [List.length_nil, List.nil_append] at h
  simp only [data_entry_int_encode, data_entries_create_nil _ (Int.natCast_nonneg t.length),
    Int.toNat_ofNat, h]

/-! ## Index encoding: claims -/

/-- Claim C3.  For an alphabet `A` of pairwise-distinct symbols and a text `t` over `A`,
index-encoding an entry holding `t` (alphabet size `A.length`, no allocation failure)
returns a collection with one integer entry per character of `t`, in order, the `j`-th being
the position of the `j`-th character in `A`: that position holds the character and is the
only position of `A` that does. -/
theorem int_encode_over_alphabet (A t : List Char) (hA : A.Nodup) (ht : ∀ c ∈ t, c ∈ A) :
    data_entry_int_encode (some ⟨some (Value.text t)⟩) (some A) (A.length : Int) []
        = some (some ⟨t.map (fun c => some ⟨some (Value.int (A.indexOf c : Nat))⟩)⟩, [])
      ∧ (data_entries.mk (t.map (fun c => some ⟨some (Value.int (A.indexOf c : Nat))⟩))).size
        = (t.length : Int)
      ∧ ∀ c ∈ t, A[A.indexOf c]? = some c ∧ ∀ k : Nat, A[k]? = some c → k = A.indexOf c := by
  refine ⟨?_, by simp [data_entries.size], ?_⟩
  · have h := data_entry_int_encode_eq (some A) (A.length : Int)
      (fun c => if c ∈ A then ((A.indexOf c : Nat) : Int) else -1) t
      (fun c _ => find_token_index_eq c A)
    rw [h]
    have hmap : t.map (fun c => some (data_entry.mk (some (Value.int
          (if c ∈ A then ((A.indexOf c : Nat) : Int) else -1)))))
        = t.map (fun c => some (data_entry.mk (some (Value.int ((A.indexOf c : Nat) : Int))))) := by
      apply List.map_congr_left
      intro c hc
      simp [ht c hc]
    rw [hmap]
  · intro c hc
    have hmem := ht c hc
    have hlt : A.indexOf c < A.length := List.indexOf_lt_length.mpr hmem
    refine ⟨?_, ?_⟩
    · rw [List.getElem?_eq_getElem hlt]
      simp
    · intro k hk
      have hk2 : k < A.length := by
        by_contra hcon
        rw [List.getElem?_eq_none (not_lt.mp hcon)] at hk
        exact Option.noConfusion hk
      rw [List.getElem?_eq_getElem hk2] at hk
      have hk3 : A[k] = c := Option.some.inj hk
      have h4 : A[A.indexOf c] = c := by simp
      exact (List.Nodup.getElem_inj_iff hA).mp (hk3.trans h4.symm)

/-- Witness for claim C3: alphabet "abc" with text "cab" gives `[2, 0, 1]`,
alphabet "01+" with text "1+0" gives `[1, 2, 0]`, and the empty text gives a collection of
size 0. -/
theorem int_encode_over_alphabet_witness :
    (['a', 'b', 'c'].Nodup ∧ ∀ c ∈ ['c', 'a', 'b'], c ∈ ['a', 'b', 'c'])
      ∧ data_entry_int_encode (some ⟨some (Value.text ['c', 'a', 'b'])⟩)
          (some ['a', 'b', 'c']) 3 []
        = some (some ⟨[some ⟨some (Value.int 2)⟩, some ⟨some (Value.int 0)⟩,
            some ⟨some (Value.int 1)⟩]⟩, [])
      ∧ data_entry_int_encode (some ⟨some (Value.text ['1', '+', '0'])⟩)
          (some ['0', '1', '+']) 3 []
        = some (some ⟨[some ⟨some (Value.int 1)⟩, some ⟨some (Value.int 2)⟩,
            some ⟨some (Value.int 0)⟩]⟩, [])
      ∧ data_entry_int_encode (some ⟨some (Value.text [])⟩) (some ['a', 'b', 'c']) 3 []
        = some (some ⟨[]⟩, []) :=
  ⟨⟨by decide, by decide⟩,
    (int_encode_over_alphabet ['a', 'b', 'c'] ['c', 'a', 'b'] (by decide) (by decide)).1,
    (int_encode_over_alphabet ['0', '1', '+'] ['1', '+', '0'] (by decide) (by decide)).1,
    (int_encode_over_alphabet ['a', 'b', 'c'] [] (by decide) (by decide)).1⟩

/-- Claim C4.  For every alphabet `A`, text `t` and position `j` whose character `c` does not
occur in `A`, index-encoding `t` (alphabet size `A.length`, no allocation failure) does not
report failure: it returns a collection with one integer entry per character, holding the
sentinel `-1` for a character outside `A` and the first position in `A` otherwise; the entry
at position `j` is exactly `-1`. -/
theorem int_encode_unknown_char (A t : List Char) (j : Nat) (c : Char)
    (hj : t[j]? = some c) (hc : c ∉ A) :
    data_entry_int_encode (some ⟨some (Value.text t)⟩) (some A) (A.length : Int) []
        = some (some ⟨t.map (fun d => some ⟨some (Value.int
            (if d ∈ A then ((A.indexOf d : Nat) : Int) else -1))⟩)⟩, [])
      ∧ (t.map (fun d => some (data_entry.mk (some (Value.int
            (if d ∈ A then ((A.indexOf d : Nat) : Int) else -1)))))).length = t.length
      ∧ (t.map (fun d => some (data_entry.mk (some (Value.int
            (if d ∈ A then ((A.indexOf d : Nat) : Int) else -1))))))[j]?
        = some (some ⟨some (Value.int (-1))⟩) := by
  refine ⟨?_, by simp, ?_⟩
  · exact data_entry_int_encode_eq (some A) (A.length : Int)
      (fun d => if d ∈ A then ((A.indexOf d : Nat) : Int) else -1) t
      (fun d _ => find_token_index_eq d A)
  · simp [List.getElem?_map, hj, hc]

/-- Witness for claim C4: alphabet "01+" with text "1+2" gives
`[1, 2, -1]`. -/
theorem int_encode_unknown_char_witness :
    (['1', '+', '2'][2]? = some '2' ∧ '2' ∉ ['0', '1', '+'])
      ∧ data_entry_int_encode (some ⟨some (Value.text ['1', '+', '2'])⟩)
          (some ['0', '1', '+']) 3 []
        = some (some ⟨[some ⟨some (Value.int 1)⟩, some ⟨some (Value.int 2)⟩,
            some ⟨some (Value.int (-1))⟩]⟩, []) :=
  ⟨⟨by decide, by decide⟩,
    (int_encode_unknown_char ['0', '1', '+'] ['1', '+', '2'] 2 '2' (by decide) (by decide)).1⟩

/-! ## One-hot encoding: lemmas and claims -/

theorem vector_setl_at_length (done rest : List Int) (x y : Int) :
    vector_setl (done ++ x :: rest) (done.length : Int) y = some (done ++ y :: rest) := by
  unfold vector_setl
  have h : 0 ≤ (done.length : Int) ∧ (done.length : Int) < ((done ++ x :: rest).length : Int) := by
    constructor
    · omega
    · simp only [List.length_append, List.length_cons]; omega
  simp only [h, and_self, if_true, Int.toNat_ofNat, set_length_append]

theorem one_hot_fill_eq (value : Int) (k : Nat) (done : List Int) :
    one_hot_fill value k (done.length : Int) (done ++ List.replicate k 0)
      = some (done ++ (List.range' done.length k).map
          (fun i : Nat => if (i : Int) = value then (1 : Int) else 0)) := by
  induction k generalizing done with
  | zero => simp [one_hot_fill]
  | succ k ih =>
    have h1 := ih (done ++ [if (done.length : Int) = value then (1 : Int) else 0])
    simp only [List.length_append, List.length_singleton, List.append_assoc,
      List.singleton_append, Nat.cast_add, Nat.cast_one] at h1
    simp only [one_hot_fill, List.replicate_succ, vector_setl_at_length, h1, List.range'_succ,
      List.map_cons]

theorem indicator_sum (value : Nat) (k i : Nat) :
    ((List.range' i k).map (fun j : Nat => if (j : Int) = (value : Int) then (1 : Int) else 0)).sum
      = if i ≤ value ∧ value < i + k then 1 else 0 := by
  induction k generalizing i with
  | zero =>
    have : ¬ (i ≤ value ∧ value < i) := by omega
    simp [this]
  | succ k ih =>
    simp only [List.range'_succ, List.map_cons, List.sum_cons, ih]
    by_cases h : i = value
    · subst h
      have h2 : ¬ (i + 1 ≤ i ∧ i < i + 1 + k) := by omega
      have h3 : i ≤ i ∧ i < i + (k + 1) := by omega
      simp [h2, h3]
    · have h1 : ¬ ((i : Int) = (value : Int)) := by omega
      simp only [h1, if_false, zero_add]
      by_cases h2 : i + 1 ≤ value ∧ value < i + 1 + k
      · have h3 : i ≤ value ∧ value < i + (k + 1) := by omega
        simp [h2, h3]
      · have h3 : ¬ (i ≤ value ∧ value < i + (k + 1)) := by omega
        simp [h2, h3]

theorem indicator_count (value : Nat) (k i : Nat) :
    ((List.range' i k).map (fun j : Nat => if (j : Int) = (value : Int) then (1 : Int) else 0)).count 1
      = if i ≤ value ∧ value < i + k then 1 else 0 := by
  induction k generalizing i with
  | zero =>
    have : ¬ (i ≤ value ∧ value < i) := by omega
    simp [this]
  | succ k ih =>
    simp only [List.range'_succ, List.map_cons, List.count_cons, ih]
    by_cases h : i = value
    · subst h
      have h2 : ¬ (i + 1 ≤ i ∧ i < i + 1 + k) := by omega
      have h3 : i ≤ i ∧ i < i + (k + 1) := by omega
      simp [h2, h3]
    · have h1 : ¬ ((i : Int) = (value : Int)) := by omega
      simp only [h1, if_false]
      by_cases h2 : i + 1 ≤ value ∧ value < i + 1 + k
      · have h3 : i ≤ value ∧ value < i + (k + 1) := by omega
        simp [h2, h3]
      · have h3 : ¬ (i ≤ value ∧ value < i + (k + 1)) := by omega
        simp [h2, h3]

theorem one_hot_encode_eq (tokens : Option (List Char)) (n v : Int) (h0 : 0 ≤ v) (h1 : v < n) :
    data_entry_one_hot_encode (some ⟨some (Value.int v)⟩) tokens n []
      = some (some ⟨[some ⟨some (Value.vector
          ((List.range n.toNat).map (fun i : Nat => if (i : Int) = v then (1 : Int) else 0)))⟩]⟩,
          []) := by
  have hn : ¬ (n ≤ 0) := by omega
  have hv : ¬ (v < 0 ∨ v ≥ n) := by omega
  have hfill := one_hot_fill_eq v n.toNat []
  simp only [List.length_nil, Nat.cast_zero, List.nil_append] at hfill
  simp only [data_entry_one_hot_encode, hn, hv, if_false, vector_create, malloc, hfill,
    data_entries_create_nil 1 (by omega), data_entry_create_nil, List.range_eq_range']
  rfl

/-- Claim C5.  For every alphabet size `n` and integer `v` with `0 ≤ v < n`, one-hot-encoding
an entry holding `v` (no allocation failure) returns a collection of exactly one entry, a
vector of length `n` holding 1 at position `v` and 0 at every other position; exactly one
element is 1 and the elements sum to 1. -/
theorem one_hot_in_range (tokens : Option (List Char)) (n v : Int) (h0 : 0 ≤ v) (h1 : v < n) :
    data_entry_one_hot_encode (some ⟨some (Value.int v)⟩) tokens n []
        = some (some ⟨[some ⟨some (Value.vector
            ((List.range n.toNat).map (fun i : Nat => if (i : Int) = v then (1 : Int) else 0)))⟩]⟩, [])
      ∧ ((List.range n.toNat).map (fun i : Nat => if (i : Int) = v then (1 : Int) else 0)).length
        = n.toNat
      ∧ (∀ i : Nat, i < n.toNat →
          ((List.range n.toNat).map (fun i : Nat => if (i : Int) = v then (1 : Int) else 0))[i]?
            = some (if (i : Int) = v then 1 else 0))
      ∧ ((List.range n.toNat).map (fun i : Nat => if (i : Int) = v then (1 : Int) else 0)).count 1
        = 1
      ∧ ((List.range n.toNat).map (fun i : Nat => if (i : Int) = v then (1 : Int) else 0)).sum = 1 := by
  refine ⟨one_hot_encode_eq tokens n v h0 h1, by simp, ?_, ?_, ?_⟩
  · intro i hi
    simp [List.getElem?_map, List.getElem?_range hi]
  · obtain ⟨w, rfl⟩ := Int.eq_ofNat_of_zero_le h0
    have h := indicator_count w n.toNat 0
    rw [List.range_eq_range', h]
    have : 0 ≤ w ∧ w < 0 + n.toNat := by omega
    rw [if_pos this]
  · obtain ⟨w, rfl⟩ := Int.eq_ofNat_of_zero_le h0
    have h := indicator_sum w n.toNat 0
    rw [List.range_eq_range', h]
    have : 0 ≤ w ∧ w < 0 + n.toNat := by omega
    rw [if_pos this]

/-- Witness for claim C5: alphabet size 4 and value 1 give `[0, 1, 0, 0]`. -/
theorem one_hot_in_range_witness :
    ((0 : Int) ≤ 1 ∧ (1 : Int) < 4)
      ∧ data_entry_one_hot_encode (some ⟨some (Value.int 1)⟩) none 4 []
        = some (some ⟨[some ⟨some (Value.vector [0, 1, 0, 0])⟩]⟩, []) :=
  ⟨⟨by decide, by decide⟩, (one_hot_in_range none 4 1 (by decide) (by decide)).1⟩

/-- Claim C6.  For every alphabet size `n` (also `n ≤ 0`) and every entry holding an integer
`v`, one-hot-encoding returns the absent result whenever `v < 0` or `v ≥ n`, whatever the
allocator does; and when no allocation fails it returns a collection if and only if
`0 ≤ v < n`. -/
theorem one_hot_range_check (tokens : Option (List Char)) (n v : Int) :
    (∀ a : Alloc, v < 0 ∨ v ≥ n →
        data_entry_one_hot_encode (some ⟨some (Value.int v)⟩) tokens n a = some (none, a))
      ∧ ((∃ c, data_entry_one_hot_encode (some ⟨some (Value.int v)⟩) tokens n []
            = some (some c, [])) ↔ (0 ≤ v ∧ v < n)) := by
  have hfail : ∀ a : Alloc, v < 0 ∨ v ≥ n →
      data_entry_one_hot_encode (some ⟨some (Value.int v)⟩) tokens n a = some (none, a) := by
    intro a hv
    by_cases hn : n ≤ 0
    · simp [data_entry_one_hot_encode, hn]
    · simp [data_entry_one_hot_encode, hn, hv]
  refine ⟨hfail, ?_⟩
  constructor
  · rintro ⟨c, hc⟩
    by_contra hcon
    have hv : v < 0 ∨ v ≥ n := by omega
    rw [hfail [] hv] at hc
    simp at hc
  · rintro ⟨h0, h1⟩
    exact ⟨_, one_hot_encode_eq tokens n v h0 h1⟩

/-! ## Decimal-string encoding: lemmas and claim -/

theorem digitChar_isDigit : ∀ k : Nat, k < 10 → (Nat.digitChar k).isDigit = true := by
  decide

theorem digitChar_value : ∀ k : Nat, k < 10 → (Nat.digitChar k).toNat - 48 = k := by
  decide

theorem digitChar_zero : ∀ k : Nat, k < 10 → Nat.digitChar k = '0' → k = 0 := by
  decide

theorem decimal_value_snoc (ds : List Char) (c : Char) :
    decimal_value (ds ++ [c]) = 10 * decimal_value ds + (c.toNat - 48) := by
  simp [decimal_value, List.foldl_append]

theorem itos_digits_spec (fuel n : Nat) (acc : List Char) (h : n < fuel) :
    ∃ ds, itos_digits fuel n acc = ds ++ acc ∧ canonical_digits ds n := by
  induction fuel generalizing n acc with
  | zero => omega
  | succ fuel ih =>
    unfold itos_digits
    by_cases hn : n < 10
    · refine ⟨[Nat.digitChar n], by simp [hn], by simp, ?_, ?_, ?_⟩
      · intro c hc
        rw [List.mem_singleton.mp hc]
        exact digitChar_isDigit n hn
      · intro h0
        have hz : Nat.digitChar n = '0' := by simpa using h0
        rw [hz]
      · simp [decimal_value, digitChar_value n hn]
    · have hlt : n / 10 < fuel := by omega
      obtain ⟨ds, hds, hne, hdig, hlead, hval⟩ := ih (n / 10) (Nat.digitChar (n % 10) :: acc) hlt
      have hmod : n % 10 < 10 := Nat.mod_lt n (by decide)
      refine ⟨ds ++ [Nat.digitChar (n % 10)], by simp [hn, hds], by simp, ?_, ?_, ?_⟩
      · intro c hc
        rcases List.mem_append.mp hc with h1 | h1
        · exact hdig c h1
        · rw [List.mem_singleton.mp h1]
          exact digitChar_isDigit _ hmod
      · intro h0
        exfalso
        have hhead : ds.head? = some '0' := by
          cases ds with
          | nil => exact absurd rfl hne
          | cons d rest => simpa using h0
        have hds0 := hlead hhead
        rw [hds0] at hval
        have : n / 10 = 0 := by
          rw [← hval]
          decide
        omega
      · rw [decimal_value_snoc, hval, digitChar_value _ hmod]
        omega

/-- Claim C7.  For every integer `v`, decimal-string-encoding an entry holding `v` (no
allocation failure) returns a collection of exactly one text entry; its text is the
canonical base-10 representation of `v`: a leading `-` exactly when `v < 0`, followed by the
digits of `|v|` without leading zeros.  The text is the one `itos` is specified to produce.
In particular 42 gives "42" and -7 gives "-7". -/
theorem string_encode_canonical :
    (∀ (tokens : Option (List Char)) (n v : Int), ∃ ds : List Char,
        data_entry_string_encode (some ⟨some (Value.int v)⟩) tokens n []
            = some (some ⟨[some ⟨some (Value.text ((if v < 0 then ['-'] else []) ++ ds))⟩]⟩, [])
          ∧ canonical_digits ds v.natAbs)
      ∧ data_entry_string_encode (some ⟨some (Value.int 42)⟩) none 0 []
        = some (some ⟨[some ⟨some (Value.text ['4', '2'])⟩]⟩, [])
      ∧ data_entry_string_encode (some ⟨some (Value.int (-7))⟩) none 0 []
        = some (some ⟨[some ⟨some (Value.text ['-', '7'])⟩]⟩, []) := by
  refine ⟨?_, by decide, by decide⟩
  intro tokens n v
  obtain ⟨ds, hds, hcan⟩ := itos_digits_spec (v.natAbs + 1) v.natAbs [] (Nat.lt_succ_self _)
  rw [List.append_nil] at hds
  refine ⟨ds, ?_, hcan⟩
  by_cases hv : v < 0
  · simp [data_entry_string_encode, itos, malloc, itos_text, hv, hds,
      data_entries_create, data_entry_create]
  · simp [data_entry_string_encode, itos, malloc, itos_text, hv, hds,
      data_entries_create, data_entry_create]

/-! ## The per-collection transform: lemmas and claim -/

/-- The first loop of `data_entries_encode` when no allocation fails and the per-entry
results are given by `r`: it fills the temporary array with them, adds up the sizes of the
present ones and raises `failed` when one is absent. -/
theorem encode_each_eq (tokens : Option (List Char)) (n : Int) (enc : Encoder)
    (r : Option data_entry → Option data_entries) (l : List (Option data_entry))
    (h : ∀ e ∈ l, enc e tokens n [] = some (r e, []))
    (done : List (Option data_entries)) (sz : Int) (fl : Bool) :
    encode_each tokens n enc l done.length ⟨done ++ List.replicate l.length none, sz, fl, []⟩
      = some ⟨done ++ l.map r,
          sz + (l.map (fun e => match r e with
            | some c => c.size
            | none => 0)).sum,
          fl || l.any (fun e => (r e).isNone), []⟩ := by
  induction l generalizing done sz fl with
  | nil => simp [encode_each]
  | cons e rest ih =>
    have he := h e (List.mem_cons_self e rest)
    have hrest : ∀ x ∈ rest, enc x tokens n [] = some (r x, []) :=
      fun x hx => h x (List.mem_cons_of_mem e hx)
    have h1 := fun sz fl => ih hrest (done ++ [r e]) sz fl
    simp only [List.length_append, List.length_singleton, List.append_assoc,
      List.singleton_append] at h1
    cases hr : r e with
    | none =>
      rw [hr] at he h1
      simp only [encode_each, he, List.length_cons, List.replicate_succ, set_length_append,
        h1, List.map_cons, hr, List.sum_cons, List.any_cons, Option.isNone_none, Bool.true_or,
        Bool.or_true, zero_add]
    | some c =>
      rw [hr] at he h1
      simp only [encode_each, he, List.length_cons, List.replicate_succ, set_length_append,
        h1, List.map_cons, hr, List.sum_cons, List.any_cons, Option.isNone_some, Bool.false_or,
        add_assoc]

theorem flatten_inner_eq (es done xs rest : List (Option data_entry))
    (hx : xs.length = es.length) :
    flatten_inner es done.length (done ++ xs ++ rest) = (done ++ es ++ rest, done.length + es.length) := by
  induction es generalizing done xs with
  | nil =>
    have : xs = [] := List.length_eq_zero.mp hx
    subst this
    simp [flatten_inner]
  | cons e es ih =>
    cases xs with
    | nil => simp at hx
    | cons x xs =>
      have hx2 : xs.length = es.length := by simpa using hx
      have h1 : flatten_inner es (done.length + 1) (done ++ e :: (xs ++ rest))
          = (done ++ e :: (es ++ rest), done.length + 1 + es.length) := by
        have h0 := ih (done ++ [e]) xs hx2
        simpa using h0
      simp only [flatten_inner, List.append_assoc, List.cons_append, set_length_append, h1,
        List.length_cons]
      congr 1
      omega

theorem flatten_outer_eq (cs : List data_entries) (done : List (Option data_entry)) :
    flatten_outer (cs.map some) done.length
        (done ++ List.replicate ((cs.map (fun c => c.entries)).flatten.length) none)
      = some (done ++ (cs.map (fun c => c.entries)).flatten) := by
  induction cs generalizing done with
  | nil => simp [flatten_outer]
  | cons c cs ih =>
    have h1 := ih (done ++ c.entries)
    have h2 := flatten_inner_eq c.entries done (List.replicate c.entries.length none)
      (List.replicate ((cs.map (fun c => c.entries)).flatten.length) none) (by simp)
    simp only [List.length_append] at h1
    simp only [List.map_cons, List.flatten_cons, List.length_append, List.replicate_add,
      flatten_outer]
    rw [← List.append_assoc, h2]
    simp only [List.append_assoc] at h1 ⊢
    exact h1

theorem concat_outputs_none (r : Option data_entry → Option data_entries)
    (l : List (Option data_entry)) (h : l.any (fun e => (r e).isNone) = true) :
    concat_outputs r l = none := by
  induction l with
  | nil => simp at h
  | cons e rest ih =>
    simp only [List.any_cons, Bool.or_eq_true] at h
    unfold concat_outputs
    cases hr : r e with
    | none => rfl
    | some c =>
      have hrest : rest.any (fun e => (r e).isNone) = true := by
        rcases h with h | h
        · simp [hr] at h
        · exact h
      rw [ih hrest]

theorem concat_outputs_some (r : Option data_entry → Option data_entries)
    (l : List (Option data_entry)) (h : l.any (fun e => (r e).isNone) = false) :
    ∃ cs : List data_entries, l.map r = cs.map some
      ∧ concat_outputs r l = some ((cs.map (fun c => c.entries)).flatten)
      ∧ (l.map (fun e => match r e with
          | some c => c.size
          | none => 0)).sum = (((cs.map (fun c => c.entries)).flatten.length : Nat) : Int) := by
  induction l with
  | nil => exact ⟨[], rfl, rfl, rfl⟩
  | cons e rest ih =>
    simp only [List.any_cons, Bool.or_eq_false_iff] at h
    obtain ⟨cs, h1, h2, h3⟩ := ih h.2
    cases hr : r e with
    | none => simp [hr] at h
    | some c =>
      refine ⟨c :: cs, by simp [hr, h1], by simp [concat_outputs, hr, h2], ?_⟩
      have h3b : (rest.map (fun e => match r e with
          | some c => (c.entries.length : Int)
          | none => 0)).sum = (((cs.map (fun c => c.entries)).flatten.length : Nat) : Int) := h3
      simp only [List.map_cons, List.sum_cons, hr, h3b, List.flatten_cons, List.length_append,
        data_entries.size, Nat.cast_add]

/-- What `data_entries_encode` returns when no allocation fails and the per-entry results
are given by `r`: the concatenation of the per-entry outputs, or the absent result as soon
as one application failed. -/
theorem data_entries_encode_eq (tokens : Option (List Char)) (n : Int) (enc : Encoder)
    (r : Option data_entry → Option data_entries) (raw : data_entries)
    (h : ∀ e ∈ raw.entries, enc e tokens n [] = some (r e, [])) :
    data_entries_encode (some raw) tokens n enc []
      = some ((concat_outputs r raw.entries).map data_entries.mk, []) := by
  have h1 := encode_each_eq tokens n enc r raw.entries h [] 0 false
  simp only [List.length_nil, List.nil_append, Bool.false_or, zero_add] at h1
  simp only [data_entries_encode, data_entries_collection_create, malloc, data_entries.size,
    Int.toNat_ofNat, h1]
  cases hany : raw.entries.any (fun e => (r e).isNone) with
  | true =>
    simp [concat_outputs_none r raw.entries hany]
  | false =>
    obtain ⟨cs, hmap, hcat, hsum⟩ := concat_outputs_some r raw.entries hany
    have hsum2 : (raw.entries.map (fun e => match r e with
          | some c => (c.entries.length : Int)
          | none => 0)).sum = (((cs.map (fun c => c.entries)).flatten.length : Nat) : Int) := hsum
    have hflat := flatten_outer_eq cs []
    simp only [List.length_nil, List.nil_append] at hflat
    simp only [Bool.false_eq_true, if_false, hcat, Option.map_some', hmap, hsum2,
      data_entries_create_nil _ (Int.natCast_nonneg _), Int.toNat_ofNat, hflat]

/-- Claim C9.  When every application of the per-entry encoder to an entry of the source
collection succeeds (with output `f e`, no allocation failure), `data_entries_encode` returns
one flat collection: the concatenation, in source index order, of the per-entry output
collections; its size is the sum of the per-entry output sizes. -/
theorem entries_encode_concatenates (tokens : Option (List Char)) (n : Int) (enc : Encoder)
    (f : Option data_entry → data_entries) (raw : data_entries)
    (h : ∀ e ∈ raw.entries, enc e tokens n [] = some (some (f e), [])) :
    data_entries_encode (some raw) tokens n enc []
        = some (some ⟨(raw.entries.map (fun e => (f e).entries)).flatten⟩, [])
      ∧ (data_entries.mk ((raw.entries.map (fun e => (f e).entries)).flatten)).size
        = (raw.entries.map (fun e => (f e).size)).sum := by
  have hcat : ∀ l : List (Option data_entry),
      concat_outputs (fun e => some (f e)) l = some ((l.map (fun e => (f e).entries)).flatten) := by
    intro l
    induction l with
    | nil => rfl
    | cons e rest ih => simp [concat_outputs, ih]
  constructor
  · rw [data_entries_encode_eq tokens n enc (fun e => some (f e)) raw h, hcat]
    rfl
  · generalize raw.entries = l
    induction l with
    | nil => rfl
    | cons e rest ih =>
      simp only [data_entries.size] at ih
      simp only [List.map_cons, List.flatten_cons, data_entries.size, List.length_append,
        Nat.cast_add, List.sum_cons, ih]

/-- Witness for claim C9: index-encoding the collection of the texts
"ab" and "c" over the alphabet "abc" gives the flat collection `[0, 1, 2]`. -/
theorem entries_encode_concatenates_witness :
    (∀ e ∈ [some (data_entry.mk (some (Value.text ['a', 'b']))),
          some (data_entry.mk (some (Value.text ['c'])))],
        data_entry_int_encode e (some ['a', 'b', 'c']) 3 []
          = some (some ((fun e => match data_entry_int_encode e (some ['a', 'b', 'c']) 3 [] with
              | some (some c, _) => c
              | _ => ⟨[]⟩) e), []))
      ∧ data_entries_encode
          (some ⟨[some ⟨some (Value.text ['a', 'b'])⟩, some ⟨some (Value.text ['c'])⟩]⟩)
          (some ['a', 'b', 'c']) 3 data_entry_int_encode []
        = some (some ⟨[some ⟨some (Value.int 0)⟩, some ⟨some (Value.int 1)⟩,
            some ⟨some (Value.int 2)⟩]⟩, []) :=
  ⟨by decide,
    (entries_encode_concatenates (some ['a', 'b', 'c']) 3 data_entry_int_encode
      (fun e => match data_entry_int_encode e (some ['a', 'b', 'c']) 3 [] with
        | some (some c, _) => c
        | _ => ⟨[]⟩)
      ⟨[some ⟨some (Value.text ['a', 'b'])⟩, some ⟨some (Value.text ['c'])⟩]⟩
      (by decide)).1⟩

/-! ## Traversals and links -/

theorem forward_iff (rows : Nat → data_row) (fuel : Nat) (s : Option Nat) (l : List Nat) :
    forward rows fuel s = some l ↔ follows (fun p => (rows p).next) s l ∧ l.length ≤ fuel := by
  induction fuel generalizing s l with
  | zero =>
    cases s with
    | none =>
      cases l with
      | nil => simp [forward, follows]
      | cons p ps => simp [forward, follows]
    | some c =>
      cases l with
      | nil => simp [forward, follows]
      | cons p ps => simp [forward, follows]
  | succ fuel ih =>
    cases s with
    | none =>
      cases l with
      | nil => simp [forward, follows]
      | cons p ps => simp [forward, follows]
    | some c =>
      cases l with
      | nil => simp [forward, follows]
      | cons p ps =>
        simp only [forward, Option.map_eq_some', List.cons.injEq, follows, Option.some.injEq,
          List.length_cons, Nat.add_le_add_iff_right]
        constructor
        · rintro ⟨l', h1, h2, h3⟩
          subst h2 h3
          exact ⟨⟨rfl, ((ih _ _).mp h1).1⟩, ((ih _ _).mp h1).2⟩
        · rintro ⟨⟨h1, h2⟩, h3⟩
          subst h1
          exact ⟨ps, (ih _ _).mpr ⟨h2, h3⟩, rfl, rfl⟩

theorem backward_iff (rows : Nat → data_row) (fuel : Nat) (s : Option Nat) (l : List Nat) :
    backward rows fuel s = some l
      ↔ follows (fun p => (rows p).previous) s l ∧ l.length ≤ fuel := by
  induction fuel generalizing s l with
  | zero =>
    cases s with
    | none =>
      cases l with
      | nil => simp [backward, follows]
      | cons p ps => simp [backward, follows]
    | some c =>
      cases l with
      | nil => simp [backward, follows]
      | cons p ps => simp [backward, follows]
  | succ fuel ih =>
    cases s with
    | none =>
      cases l with
      | nil => simp [backward, follows]
      | cons p ps => simp [backward, follows]
    | some c =>
      cases l with
      | nil => simp [backward, follows]
      | cons p ps =>
        simp only [backward, Option.map_eq_some', List.cons.injEq, follows, Option.some.injEq,
          List.length_cons, Nat.add_le_add_iff_right]
        constructor
        · rintro ⟨l', h1, h2, h3⟩
          subst h2 h3
          exact ⟨⟨rfl, ((ih _ _).mp h1).1⟩, ((ih _ _).mp h1).2⟩
        · rintro ⟨⟨h1, h2⟩, h3⟩
          subst h1
          exact ⟨ps, (ih _ _).mpr ⟨h2, h3⟩, rfl, rfl⟩

theorem follows_congr (nxt nxt' : Nat → Option Nat) (l : List Nat)
    (h : ∀ p ∈ l, nxt p = nxt' p) (s : Option Nat) (hf : follows nxt s l) :
    follows nxt' s l := by
  induction l generalizing s with
  | nil => exact hf
  | cons p ps ih =>
    obtain ⟨h1, h2⟩ := hf
    refine ⟨h1, ?_⟩
    rw [← h p (List.mem_cons_self p ps)]
    exact ih (fun q hq => h q (List.mem_cons_of_mem p hq)) _ h2

theorem follows_last_none (nxt : Nat → Option Nat) (l : List Nat) (s : Option Nat) (t : Nat)
    (hf : follows nxt s l) (ht : l.getLast? = some t) : nxt t = none := by
  induction l generalizing s with
  | nil => simp at ht
  | cons p ps ih =>
    obtain ⟨_, h2⟩ := hf
    cases ps with
    | nil =>
      simp only [List.getLast?_singleton, Option.some.injEq] at ht
      subst ht
      exact h2
    | cons q qs =>
      rw [List.getLast?_cons_cons] at ht
      exact ih _ h2 ht

theorem follows_snoc (nxt nxt' : Nat → Option Nat) (l : List Nat) (s : Option Nat) (t r : Nat)
    (hf : follows nxt s l) (ht : l.getLast? = some t)
    (hsame : ∀ p, p ≠ t → p ≠ r → nxt' p = nxt p) (htr : nxt' t = some r)
    (hr : nxt' r = none) (hnew : r ∉ l) :
    follows nxt' s (l ++ [r]) := by
  induction l generalizing s with
  | nil => simp at ht
  | cons p ps ih =>
    obtain ⟨h1, h2⟩ := hf
    cases ps with
    | nil =>
      simp only [List.getLast?_singleton, Option.some.injEq] at ht
      subst ht
      exact ⟨h1, by rw [htr]; exact ⟨rfl, hr⟩⟩
    | cons q qs =>
      have ht2 : (q :: qs).getLast? = some t := by rw [List.getLast?_cons_cons] at ht; exact ht
      have hq : nxt p = some q := h2.1
      have hpt : p ≠ t := by
        intro hpt
        have := follows_last_none nxt (q :: qs) _ t h2 ht2
        rw [hpt, this] at hq
        exact Option.noConfusion hq
      have hpr : p ≠ r := fun hpr => hnew (by simp [hpr])
      refine ⟨h1, ?_⟩
      rw [hsame p hpt hpr]
      exact ih _ h2 ht2 (fun hmem => hnew (List.mem_cons_of_mem p hmem))

/-! ## Appending a row -/

theorem getElem?_mem_of_some (l : List Nat) (i p : Nat) (h : l[i]? = some p) : p ∈ l := by
  obtain ⟨hi, hp⟩ := List.getElem?_eq_some.mp h
  rw [← hp]
  exact List.getElem_mem hi

/-- Effect of `dataset_append_row` on a well-formed dataset with traversal `l` when the row
`r` is fresh (both links absent) and not in the dataset. -/
theorem append_row_spec (m : Heap) (d : dataset) (l : List Nat) (r : Nat)
    (hwf : well_formed m.rows d l) (hnext : (m.rows r).next = none)
    (hprev : (m.rows r).previous = none) (hnew : r ∉ l) :
    ∃ d1 m1, dataset_append_row (some d) (some r) m = (0, some d1, m1)
      ∧ well_formed m1.rows d1 (l ++ [r])
      ∧ d1.size = d.size + 1
      ∧ (∀ p, p ∉ l → p ≠ r → m1.rows p = m.rows p)
      ∧ (∀ p, (m1.rows p).inputs = (m.rows p).inputs ∧ (m1.rows p).outputs = (m.rows p).outputs)
      ∧ m1.brk = m.brk ∧ m1.alloc = m.alloc ∧ m1.junk = m.junk ∧ m1.live = m.live := by
  obtain ⟨⟨hfw, hsize, htail, hhead, hcons⟩, hlast⟩ := hwf
  obtain ⟨hfol, _⟩ := (forward_iff _ _ _ _).mp hfw
  cases hl : l.getLast? with
  | none =>
    have hnil : l = [] := List.getLast?_eq_none_iff.mp hl
    subst hnil
    have hlast0 : d.last = none := by rw [hlast]; rfl
    have hit : d.iterator = none := hfol
    refine ⟨⟨d.size + 1, some r, some r⟩, m, ?_, ⟨⟨?_, ?_, ?_, ?_, ?_⟩, ?_⟩, rfl, ?_, ?_, rfl,
      rfl, rfl, rfl⟩
    · simp [dataset_append_row, hlast0]
    · exact (forward_iff _ _ _ _).mpr ⟨⟨rfl, hnext⟩, le_refl _⟩
    · simp only [hsize]; rfl
    · intro t ht
      have : r = t := Option.some.inj ht
      subst this
      exact hnext
    · intro h hh
      have : r = h := Option.some.inj hh
      subst this
      exact hprev
    · intro i p q _ hq
      simp at hq
    · rfl
    · intro p _ _
      rfl
    · intro p
      exact ⟨rfl, rfl⟩
  | some t =>
    have hlast1 : d.last = some t := by rw [hlast, hl]
    have htl : t ∈ l := List.mem_of_getLast?_eq_some hl
    have hrt : r ≠ t := fun h => hnew (h ▸ htl)
    have htnone : (m.rows t).next = none :=
      follows_last_none (fun p => (m.rows p).next) l _ t hfol hl
    have hnx : ∀ p, ((Function.update
          (Function.update m.rows t { m.rows t with next := some r }) r
          { ((Function.update m.rows t { m.rows t with next := some r }) r) with
            previous := some t }) p).next = if p = t then some r else (m.rows p).next := by
      intro p
      by_cases hpr : p = r
      · subst hpr
        simp [Function.update_apply, hrt, hnext]
      · by_cases hpt : p = t
        · subst hpt
          simp [Function.update_apply, hpr]
        · simp [Function.update_apply, hpr, hpt]
    have hpv : ∀ p, ((Function.update
          (Function.update m.rows t { m.rows t with next := some r }) r
          { ((Function.update m.rows t { m.rows t with next := some r }) r) with
            previous := some t }) p).previous
        = if p = r then some t else (m.rows p).previous := by
      intro p
      by_cases hpr : p = r
      · subst hpr
        simp [Function.update_apply]
      · by_cases hpt : p = t
        · subst hpt
          simp [Function.update_apply, hpr]
        · simp [Function.update_apply, hpr, hpt]
    refine ⟨⟨d.size + 1, d.iterator, some r⟩,
      { m with rows := (Function.update
          (Function.update m.rows t { m.rows t with next := some r }) r
          { ((Function.update m.rows t { m.rows t with next := some r }) r) with
            previous := some t }) },
      ?_, ⟨⟨?_, ?_, ?_, ?_, ?_⟩, ?_⟩, rfl, ?_, ?_, rfl, rfl, rfl, rfl⟩
    · simp [dataset_append_row, hlast1]
    · refine (forward_iff _ _ _ _).mpr ⟨?_, le_refl _⟩
      refine follows_snoc (fun p => (m.rows p).next) _ l _ t r hfol hl ?_ ?_ ?_ hnew
      · intro p hpt _
        simp only [hnx, hpt, if_false]
      · simp only [hnx, if_true]
      · simp only [hnx, hrt, if_false, hnext]
    · simp only [hsize, List.length_append, List.length_singleton, Nat.cast_add, Nat.cast_one]
    · intro t2 ht2
      have : r = t2 := Option.some.inj ht2
      subst this
      simp only [hnx, hrt, if_false, hnext]
    · intro h hh
      have hmem : h ∈ l := by
        cases l with
        | nil => simp at hl
        | cons x xs =>
          have : d.iterator = some x := hfol.1
          rw [this] at hh
          have : x = h := Option.some.inj hh
          subst this
          exact List.mem_cons_self _ _
      have hhr : h ≠ r := fun e => hnew (e ▸ hmem)
      simp only [hpv, hhr, if_false]
      exact hhead h hh
    · intro i p q hp hq
      by_cases hi : i + 1 < l.length
      · have hp1 : l[i]? = some p := by
          rw [List.getElem?_append_left (by omega)] at hp
          exact hp
        have hq1 : l[i + 1]? = some q := by
          rw [List.getElem?_append_left hi] at hq
          exact hq
        obtain ⟨c1, c2⟩ := hcons i p q hp1 hq1
        have hqr : q ≠ r := fun e => hnew (e ▸ getElem?_mem_of_some l _ q hq1)
        have hpt : p ≠ t := by
          intro e
          rw [e, htnone] at c2
          exact Option.noConfusion c2
        simp only [hpv, hqr, if_false, hnx, hpt]
        exact ⟨c1, c2⟩
      · have hlen : i + 1 = l.length := by
          by_contra hne
          have : l.length < i + 1 := by omega
          rw [List.getElem?_eq_none (by simp; omega)] at hq
          exact Option.noConfusion hq
        have hq1 : q = r := by
          rw [List.getElem?_append_right (by omega)] at hq
          have : i + 1 - l.length = 0 := by omega
          rw [this] at hq
          simpa using hq.symm
        have hp1 : p = t := by
          rw [List.getElem?_append_left (by omega)] at hp
          rw [List.getLast?_eq_getElem?] at hl
          have : l.length - 1 = i := by omega
          rw [this, hp] at hl
          exact Option.some.inj hl
        subst hq1 hp1
        simp only [hpv, hnx, if_true, and_self]
    · simp
    · intro p hpl hpr
      have hpt : p ≠ t := fun e => hpl (e ▸ htl)
      simp [Function.update_apply, hpr, hpt]
    · intro p
      by_cases hpr : p = r
      · subst hpr
        simp [Function.update_apply, hrt]
      · by_cases hpt : p = t
        · subst hpt
          simp [Function.update_apply, hpr]
        · simp [Function.update_apply, hpr, hpt]

theorem follows_previous (prev : Nat → Option Nat) (l : List Nat)
    (hhead : ∀ h, l.head? = some h → prev h = none)
    (hcons : ∀ i p q, l[i]? = some p → l[i + 1]? = some q → prev q = some p) :
    follows prev l.getLast? l.reverse := by
  induction l using List.reverseRecOn with
  | nil => rfl
  | append_singleton l x ih =>
    have hx : prev x = l.getLast? := by
      cases hl : l.getLast? with
      | none =>
        have hnil : l = [] := List.getLast?_eq_none_iff.mp hl
        subst hnil
        exact hhead x rfl
      | some y =>
        have hlen : 0 < l.length := by
          cases l with
          | nil => simp at hl
          | cons a as => simp
        have hy : (l ++ [x])[l.length - 1]? = some y := by
          rw [List.getElem?_append_left (by omega), ← List.getLast?_eq_getElem?]
          exact hl
        have hxx : (l ++ [x])[l.length - 1 + 1]? = some x := by
          rw [List.getElem?_append_right (by omega)]
          have : l.length - 1 + 1 - l.length = 0 := by omega
          rw [this]
          rfl
        exact hcons _ y x hy hxx
    have ih2 := ih
      (by
        intro h hh
        apply hhead
        cases l with
        | nil => simp at hh
        | cons a as => simpa using hh)
      (by
        intro i p q hp hq
        have hi : i + 1 < l.length := by
          by_contra hcon
          rw [List.getElem?_eq_none (by omega)] at hq
          exact Option.noConfusion hq
        apply hcons i p q
        · rw [List.getElem?_append_left (by omega)]; exact hp
        · rw [List.getElem?_append_left hi]; exact hq)
    have hgl : (l ++ [x]).getLast? = some x := by simp
    rw [hgl, List.reverse_append, List.reverse_singleton, List.singleton_append]
    exact ⟨rfl, by rw [hx]; exact ih2⟩

theorem well_formed_backward (rows : Nat → data_row) (d : dataset) (l : List Nat)
    (hwf : well_formed rows d l) : backward rows l.length d.last = some l.reverse := by
  obtain ⟨⟨hfw, _, _, hhead, hcons⟩, hlast⟩ := hwf
  obtain ⟨hfol, _⟩ := (forward_iff _ _ _ _).mp hfw
  refine (backward_iff _ _ _ _).mpr ⟨?_, by simp⟩
  rw [hlast]
  apply follows_previous (fun p => (rows p).previous) l
  · intro h hh
    apply hhead
    cases l with
    | nil => simp at hh
    | cons a as =>
      have : a = h := by simpa using hh
      subst this
      exact hfol.1
  · intro i p q hp hq
    exact (hcons i p q hp hq).1

theorem append_rows_spec (rs : List Nat) (m : Heap) (d : dataset) (l : List Nat)
    (hwf : well_formed m.rows d l)
    (hfresh : ∀ r ∈ rs, (m.rows r).next = none ∧ (m.rows r).previous = none)
    (hnodup : rs.Nodup) (hnew : ∀ r ∈ rs, r ∉ l) :
    ∃ d1 m1, append_rows rs (some d) m = (some d1, m1)
      ∧ well_formed m1.rows d1 (l ++ rs)
      ∧ d1.size = d.size + (rs.length : Int)
      ∧ (∀ p, p ∉ l → p ∉ rs → m1.rows p = m.rows p)
      ∧ m1.brk = m.brk ∧ m1.alloc = m.alloc ∧ m1.junk = m.junk := by
  induction rs generalizing m d l with
  | nil =>
    refine ⟨d, m, rfl, by simpa using hwf, by simp, fun _ _ _ => rfl, rfl, rfl, rfl⟩
  | cons r rest ih =>
    obtain ⟨hr1, hr2⟩ := hfresh r (List.mem_cons_self r rest)
    obtain ⟨d1, m1, happ, hwf1, hsz1, hframe1, _, hb1, ha1, hj1, _⟩ :=
      append_row_spec m d l r hwf hr1 hr2 (hnew r (List.mem_cons_self r rest))
    have hnd := List.nodup_cons.mp hnodup
    have hfresh1 : ∀ x ∈ rest, (m1.rows x).next = none ∧ (m1.rows x).previous = none := by
      intro x hx
      have hxl : x ∉ l := hnew x (List.mem_cons_of_mem r hx)
      have hxr : x ≠ r := fun e => hnd.1 (e ▸ hx)
      rw [hframe1 x hxl hxr]
      exact hfresh x (List.mem_cons_of_mem r hx)
    have hnew1 : ∀ x ∈ rest, x ∉ l ++ [r] := by
      intro x hx hmem
      rcases List.mem_append.mp hmem with h | h
      · exact hnew x (List.mem_cons_of_mem r hx) h
      · have : x = r := by simpa using h
        exact hnd.1 (this ▸ hx)
    obtain ⟨d2, m2, happ2, hwf2, hsz2, hframe2, hb2, ha2, hj2⟩ :=
      ih m1 d1 (l ++ [r]) hwf1 hfresh1 hnd.2 hnew1
    refine ⟨d2, m2, ?_, ?_, ?_, ?_, by rw [hb2, hb1], by rw [ha2, ha1], by rw [hj2, hj1]⟩
    · simp only [append_rows, happ, happ2]
    · simpa using hwf2
    · rw [hsz2, hsz1]
      simp only [List.length_cons, Nat.cast_add, Nat.cast_one]
      omega
    · intro p hpl hprs
      have hpr : p ≠ r := fun e => hprs (by simp [e])
      have hprest : p ∉ rest := fun e => hprs (List.mem_cons_of_mem r e)
      rw [hframe2 p (by simp [hpl, hpr]) hprest, hframe1 p hpl hpr]

/-- Appending distinct fresh rows to the dataset `dataset_create` returns when the memory it
is given happens to hold `NULL` in the `last` field: the size is the number of rows, the
forward traversal yields them in insertion order and the backward traversal from the tail
yields them in reverse order. -/
theorem create_then_append_clean (m : Heap) (hj : m.junk = none) (ha : m.alloc = [])
    (rs : List Nat) (hnodup : rs.Nodup)
    (hfresh : ∀ r ∈ rs, (m.rows r).next = none ∧ (m.rows r).previous = none) :
    ∃ d0 m0 d1 m1, dataset_create m = (some d0, m0)
      ∧ append_rows rs (some d0) m0 = (some d1, m1)
      ∧ d1.size = (rs.length : Int)
      ∧ forward m1.rows rs.length d1.iterator = some rs
      ∧ backward m1.rows rs.length d1.last = some rs.reverse := by
  have hwf0 : well_formed m.rows ⟨0, none, none⟩ [] := by
    refine ⟨⟨rfl, rfl, ?_, ?_, ?_⟩, rfl⟩
    · intro t ht; exact Option.noConfusion ht
    · intro h hh; exact Option.noConfusion hh
    · intro i p q hp _; simp at hp
  obtain ⟨d1, m1, happ, hwf1, hsz, _, _, _, _⟩ :=
    append_rows_spec rs m ⟨0, none, none⟩ [] hwf0 hfresh hnodup (fun _ _ => by simp)
  rw [List.nil_append] at hwf1
  refine ⟨⟨0, none, none⟩, m, d1, m1, ?_, happ, ?_, hwf1.1.1, well_formed_backward _ _ _ hwf1⟩
  · cases m
    simp only at hj ha
    subst hj ha
    rfl
  · rw [hsz]; simp

/-! ## The dataset container: claims -/

/-- Claim C1, at the failing input.  `dataset_create` does not store the `last` field; when
the memory it receives holds the address of a row there (here row 0), the first
`dataset_append_row` takes the non-empty branch: the dataset has size 1, its head is still
absent and the forward traversal from the head visits no row, while the stale row 0 has
been linked to the appended row 1. -/
theorem create_then_append_dirty_tail :
    (dataset_create (blank_heap (some 0))).1 = some ⟨0, none, some 0⟩
      ∧ (append_rows [1] (dataset_create (blank_heap (some 0))).1
          (dataset_create (blank_heap (some 0))).2).1 = some ⟨1, none, some 1⟩
      ∧ forward (append_rows [1] (dataset_create (blank_heap (some 0))).1
          (dataset_create (blank_heap (some 0))).2).2.rows 1 none = some []
      ∧ ((append_rows [1] (dataset_create (blank_heap (some 0))).1
          (dataset_create (blank_heap (some 0))).2).2.rows 0).next = some 1 := by
  refine ⟨rfl, rfl, rfl, ?_⟩
  simp [append_rows, dataset_create, dataset_append_row, blank_heap, malloc, blank_row,
    Function.update_apply]

/-- Claim C2, counterexample.  The dataset with size 0, absent head and the tail reference on
row 0 satisfies the four listed conditions (its traversal is empty, the tail's forward link
and the head's backward link are absent); after appending the fresh row 1 the size is 1 but
the head is still absent, so no traversal satisfies the listed conditions any more. -/
theorem listed_invariant_not_preserved :
    listed_invariant (blank_heap none).rows ⟨0, none, some 0⟩ []
      ∧ ((blank_heap none).rows 1).next = none ∧ ((blank_heap none).rows 1).previous = none
      ∧ (dataset_append_row (some ⟨0, none, some 0⟩) (some 1) (blank_heap none)).1 = 0
      ∧ (dataset_append_row (some ⟨0, none, some 0⟩) (some 1) (blank_heap none)).2.1
        = some ⟨1, none, some 1⟩
      ∧ ¬ ∃ l, listed_invariant
          (dataset_append_row (some ⟨0, none, some 0⟩) (some 1) (blank_heap none)).2.2.rows
          ⟨1, none, some 1⟩ l := by
  refine ⟨⟨rfl, rfl, ?_, ?_, ?_⟩, rfl, rfl, rfl, rfl, ?_⟩
  · intro t _; rfl
  · intro h hh; exact Option.noConfusion hh
  · intro i p q hp _; simp at hp
  · rintro ⟨l, hfw, hsize, _⟩
    obtain ⟨hfol, _⟩ := (forward_iff _ _ _ _).mp hfw
    cases l with
    | nil => simp at hsize
    | cons p ps => exact Option.noConfusion hfol.1

/-- Claim C2, amended.  When the tail reference designates the last row of the forward
traversal (and is absent for an empty dataset) and the four listed conditions hold,
appending a fresh row that is not in the dataset succeeds and the dataset satisfies the
same conditions again, with the appended row at the end of the traversal. -/
theorem append_preserves_well_formed (m : Heap) (d : dataset) (l : List Nat) (r : Nat)
    (hwf : well_formed m.rows d l) (hnext : (m.rows r).next = none)
    (hprev : (m.rows r).previous = none) (hnew : r ∉ l) :
    ∃ d1 m1, dataset_append_row (some d) (some r) m = (0, some d1, m1)
      ∧ well_formed m1.rows d1 (l ++ [r]) := by
  obtain ⟨d1, m1, h1, h2, _⟩ := append_row_spec m d l r hwf hnext hprev hnew
  exact ⟨d1, m1, h1, h2⟩

/-- Witness for claim C2 as amended: the one-row dataset on row 0 of the blank
memory and the fresh row 1. -/
theorem append_preserves_well_formed_witness :
    (well_formed (blank_heap none).rows ⟨1, some 0, some 0⟩ [0]
        ∧ ((blank_heap none).rows 1).next = none ∧ ((blank_heap none).rows 1).previous = none
        ∧ 1 ∉ [0])
      ∧ ∃ d1 m1, dataset_append_row (some ⟨1, some 0, some 0⟩) (some 1) (blank_heap none)
          = (0, some d1, m1) ∧ well_formed m1.rows d1 ([0] ++ [1]) :=
  have hwf : well_formed (blank_heap none).rows ⟨1, some 0, some 0⟩ [0] := by
    refine ⟨⟨rfl, rfl, ?_, ?_, ?_⟩, rfl⟩
    · intro t _; rfl
    · intro h _; rfl
    · intro i p q _ hq; simp at hq
  ⟨⟨hwf, rfl, rfl, by decide⟩,
    append_preserves_well_formed (blank_heap none) ⟨1, some 0, some 0⟩ [0] 1 hwf rfl rfl
      (by decide)⟩

/-! ## The per-row transform -/

theorem row_outputs_eq (r : Option data_entry → Option data_entries) (row : data_row)
    (ins outs : data_entries) (hin : row.inputs = some ins) (hout : row.outputs = some outs) :
    row_outputs r row
      = match concat_outputs r ins.entries, concat_outputs r outs.entries with
        | some x, some y => some (⟨x⟩, ⟨y⟩)
        | _, _ => none := by
  simp only [row_outputs, hin, hout]

/-- What `data_row_encode` does on a row with both sides present when no allocation fails
and the per-entry results are given by `r`: the new row is the cell at `brk`. -/
theorem data_row_encode_eq (tokens : Option (List Char)) (n : Int) (enc : Encoder)
    (r : Option data_entry → Option data_entries) (m : Heap) (p : Nat)
    (ins outs : data_entries) (ha : m.alloc = []) (hp : p ≠ m.brk)
    (hin : (m.rows p).inputs = some ins) (hout : (m.rows p).outputs = some outs)
    (hr : ∀ e ∈ ins.entries ++ outs.entries, enc e tokens n [] = some (r e, [])) :
    data_row_encode (some p) tokens n enc m
      = some (match row_outputs r (m.rows p) with
        | some (x, y) =>
          (some m.brk,
            { m with
              rows := Function.update m.rows m.brk ⟨some x, some y, none, none⟩
              live := Function.update m.live m.brk true
              brk := m.brk + 1 })
        | none =>
          (none,
            { m with
              rows := Function.update m.rows m.brk blank_row
              live := Function.update m.live m.brk false
              brk := m.brk + 1 })) := by
  have hins := data_entries_encode_eq tokens n enc r ins
    (fun e he => hr e (List.mem_append_left _ he))
  have houts := data_entries_encode_eq tokens n enc r outs
    (fun e he => hr e (List.mem_append_right _ he))
  rw [row_outputs_eq r (m.rows p) ins outs hin hout]
  cases m with
  | mk rows live brk junk alloc =>
    simp only at ha hp hin hout
    subst ha
    simp only [data_row_encode, data_row_create, malloc, Function.update_noteq hp, hin, hins]
    cases hx : concat_outputs r ins.entries with
    | none =>
      simp [data_row_destroy, blank_row]
    | some x =>
      simp only [Option.map_some', Function.update_noteq hp, hout, houts]
      cases hy : concat_outputs r outs.entries with
      | none =>
        simp [data_row_destroy, blank_row]
      | some y =>
        simp [blank_row]

/-! ## The per-dataset transform -/

theorem follows_mem_head (nxt : Nat → Option Nat) (l : List Nat) (s : Option Nat) (h : Nat)
    (hf : follows nxt s l) (hs : s = some h) : h ∈ l := by
  cases l with
  | nil =>
    rw [hs] at hf
    exact Option.noConfusion hf
  | cons x xs =>
    have h1 : s = some x := hf.1
    rw [hs] at h1
    have : h = x := Option.some.inj h1
    subst this
    exact List.mem_cons_self _ _

theorem well_formed_congr (rows rows2 : Nat → data_row) (d : dataset) (l : List Nat)
    (h : ∀ p ∈ l, rows2 p = rows p) (hwf : well_formed rows d l) : well_formed rows2 d l := by
  obtain ⟨⟨hfw, hsize, htail, hhead, hcons⟩, hlast⟩ := hwf
  obtain ⟨hfol, hlen⟩ := (forward_iff _ _ _ _).mp hfw
  refine ⟨⟨?_, hsize, ?_, ?_, ?_⟩, hlast⟩
  · refine (forward_iff _ _ _ _).mpr ⟨?_, hlen⟩
    exact follows_congr _ _ l (fun p hp => by simp only [h p hp]) _ hfol
  · intro t ht
    have htl : t ∈ l := List.mem_of_getLast?_eq_some (by rw [← hlast]; exact ht)
    rw [h t htl]
    exact htail t ht
  · intro x hx
    rw [h x (follows_mem_head _ l _ x hfol hx)]
    exact hhead x hx
  · intro i p q hp hq
    rw [h p (getElem?_mem_of_some l i p hp), h q (getElem?_mem_of_some l (i + 1) q hq)]
    exact hcons i p q hp hq

theorem destroy_rows_spec (l : List Nat) (m : Heap) (cur : Option Nat) (fuel : Nat)
    (hf : follows (fun p => (m.rows p).next) cur l) (hlen : l.length ≤ fuel) :
    ∃ m1, destroy_rows fuel cur m = some m1 ∧ (∀ p, p ∉ l → m1.rows p = m.rows p)
      ∧ m1.alloc = m.alloc ∧ m1.brk = m.brk ∧ m1.junk = m.junk := by
  induction l generalizing m cur fuel with
  | nil =>
    have hc : cur = none := hf
    subst hc
    refine ⟨m, ?_, fun _ _ => rfl, rfl, rfl, rfl⟩
    cases fuel <;> rfl
  | cons p ps ih =>
    obtain ⟨hc, hrest⟩ := hf
    subst hc
    cases fuel with
    | zero => simp at hlen
    | succ fuel =>
      have hnext : ∀ q, ((data_row_destroy (some p) m).rows q).next = (m.rows q).next := by
        intro q
        by_cases hq : q = p
        · subst hq
          simp [data_row_destroy]
        · simp [data_row_destroy, Function.update_noteq hq]
      have hrest2 : follows (fun q => ((data_row_destroy (some p) m).rows q).next)
          (m.rows p).next ps :=
        follows_congr _ _ ps (fun q _ => (hnext q).symm) _ hrest
      obtain ⟨m1, h1, h2, h3, h4, h5⟩ :=
        ih (data_row_destroy (some p) m) (m.rows p).next fuel hrest2
          (by simpa using hlen)
      refine ⟨m1, ?_, ?_, ?_, ?_, ?_⟩
      · simp only [destroy_rows, h1]
      · intro q hq
        have hqp : q ≠ p := fun e => hq (by simp [e])
        have hqps : q ∉ ps := fun e => hq (List.mem_cons_of_mem p e)
        rw [h2 q hqps]
        simp [data_row_destroy, Function.update_noteq hqp]
      · rw [h3]; rfl
      · rw [h4]; rfl
      · rw [h5]; rfl

theorem encode_step (tokens : Option (List Char)) (n : Int) (enc : Encoder)
    (r : Option data_entry → Option data_entries) (orig : Nat → data_row) (b0 : Nat)
    (pre : List Nat) (d : dataset) (mk : Heap) (p : Nat) (x y : data_entries)
    (hinv : encoded_so_far r orig b0 pre d mk) (hp : encodable tokens n enc r orig b0 p)
    (hxy : row_outputs r (orig p) = some (x, y)) :
    ∃ m1 d1 m2, data_row_encode (some p) tokens n enc mk = some (some (b0 + pre.length), m1)
      ∧ dataset_append_row (some d) (some (b0 + pre.length)) m1 = (0, some d1, m2)
      ∧ encoded_so_far r orig b0 (pre ++ [p]) d1 m2 := by
  obtain ⟨ha, hb, hlow, hwf, hcont⟩ := hinv
  obtain ⟨hpb, ins, outs, hin, hout, hr⟩ := hp
  have hpo : mk.rows p = orig p := hlow p hpb
  have hpne : p ≠ mk.brk := by omega
  have henc := data_row_encode_eq tokens n enc r mk p ins outs ha hpne
    (by rw [hpo]; exact hin) (by rw [hpo]; exact hout) hr
  rw [hpo, hxy, hb] at henc
  simp only at henc
  have hwf1 : well_formed (Function.update mk.rows (b0 + pre.length) ⟨some x, some y, none, none⟩)
      d (List.range' b0 pre.length) := by
    apply well_formed_congr mk.rows _ d _ _ hwf
    intro q hq
    have hq2 := List.mem_range'_1.mp hq
    exact Function.update_noteq (by omega) _ _
  obtain ⟨d1, m2, happ, hwf2, _, hframe, hio, hb2, ha2, _, _⟩ :=
    append_row_spec
      { mk with
        rows := Function.update mk.rows (b0 + pre.length) ⟨some x, some y, none, none⟩
        live := Function.update mk.live (b0 + pre.length) true
        brk := b0 + pre.length + 1 }
      d (List.range' b0 pre.length) (b0 + pre.length) hwf1
      (by simp) (by simp)
      (by
        intro hmem
        have := List.mem_range'_1.mp hmem
        omega)
  refine ⟨_, d1, m2, henc, happ, ?_, ?_, ?_, ?_, ?_⟩
  · rw [ha2]; exact ha
  · rw [hb2]
    simp only [List.length_append, List.length_singleton]
    omega
  · intro q hq
    rw [hframe q (by
        intro hmem
        have := List.mem_range'_1.mp hmem
        omega) (by omega)]
    simp only
    rw [Function.update_noteq (by omega)]
    exact hlow q hq
  · have hr' : List.range' b0 (pre ++ [p]).length = List.range' b0 pre.length ++ [b0 + pre.length] := by
      simp only [List.length_append, List.length_singleton, List.range'_concat, Nat.one_mul]
    rw [hr']
    exact hwf2
  · intro i q hq
    by_cases hi : i < pre.length
    · rw [List.getElem?_append_left hi] at hq
      obtain ⟨x1, y1, h1, h2, h3⟩ := hcont i q hq
      refine ⟨x1, y1, h1, ?_, ?_⟩
      · rw [(hio (b0 + i)).1]
        simp only
        rw [Function.update_noteq (by omega)]
        exact h2
      · rw [(hio (b0 + i)).2]
        simp only
        rw [Function.update_noteq (by omega)]
        exact h3
    · have hi2 : i = pre.length := by
        by_contra hne
        rw [List.getElem?_eq_none (by simp; omega)] at hq
        exact Option.noConfusion hq
      subst hi2
      have hqp : q = p := by
        rw [List.getElem?_append_right (le_refl _)] at hq
        simpa using hq.symm
      subst hqp
      refine ⟨x, y, hxy, ?_, ?_⟩
      · rw [(hio _).1]
        simp
      · rw [(hio _).2]
        simp

/-- The loop of `dataset_encode` from a state in which the rows `pre` have been encoded and
the source rows `rest` remain: it returns, leaves the cells below `b0` as they were, yields
the encoded dataset when every remaining row encodes, and the absent result when one of
them does not. -/
theorem encode_loop_spec (tokens : Option (List Char)) (n : Int) (enc : Encoder)
    (r : Option data_entry → Option data_entries) (orig : Nat → data_row) (b0 : Nat)
    (rest : List Nat) (pre : List Nat) (d : dataset) (mk : Heap) (cur : Option Nat)
    (fuel dfuel : Nat)
    (hinv : encoded_so_far r orig b0 pre d mk)
    (hfol : follows (fun p => (orig p).next) cur rest)
    (hrows : ∀ p ∈ rest, encodable tokens n enc r orig b0 p)
    (hfuel : rest.length ≤ fuel) (hdfuel : pre.length + rest.length ≤ dfuel) :
    ∃ res m1, dataset_encode_loop tokens n enc dfuel fuel cur (some d) mk = some (res, m1)
      ∧ (∀ p, p < b0 → m1.rows p = orig p)
      ∧ ((∀ p ∈ rest, row_outputs r (orig p) ≠ none) →
          ∃ d1, res = some d1 ∧ encoded_so_far r orig b0 (pre ++ rest) d1 m1)
      ∧ ((∃ p ∈ rest, row_outputs r (orig p) = none) → res = none) := by
  induction rest generalizing pre d mk cur fuel with
  | nil =>
    have hc : cur = none := hfol
    subst hc
    refine ⟨some d, mk, ?_, hinv.2.2.1, ?_, ?_⟩
    · cases fuel <;> rfl
    · intro _
      exact ⟨d, rfl, by simpa using hinv⟩
    · rintro ⟨p, hp, _⟩
      simp at hp
  | cons p ps ih =>
    obtain ⟨hc, hfol2⟩ := hfol
    subst hc
    cases fuel with
    | zero => simp at hfuel
    | succ fuel =>
      have hp := hrows p (List.mem_cons_self p ps)
      cases hro : row_outputs r (orig p) with
      | none =>
        obtain ⟨ha, hb, hlow, hwf, _⟩ := hinv
        obtain ⟨hpb, ins, outs, hin, hout, hr⟩ := hp
        have hpo : mk.rows p = orig p := hlow p hpb
        have henc := data_row_encode_eq tokens n enc r mk p ins outs ha (by omega)
          (by rw [hpo]; exact hin) (by rw [hpo]; exact hout) hr
        rw [hpo, hro, hb] at henc
        simp only at henc
        obtain ⟨hfw, _⟩ := (forward_iff _ _ _ _).mp hwf.1.1
        have hfw2 : follows (fun q => ((Function.update mk.rows (b0 + pre.length) blank_row) q).next)
            d.iterator (List.range' b0 pre.length) := by
          apply follows_congr _ _ _ _ _ hfw
          intro q hq
          have hq2 := List.mem_range'_1.mp hq
          simp only [Function.update_noteq (show q ≠ b0 + pre.length by omega)]
        obtain ⟨m2, hd1, hd2, _, _, _⟩ := destroy_rows_spec (List.range' b0 pre.length)
          { mk with
            rows := Function.update mk.rows (b0 + pre.length) blank_row
            live := Function.update mk.live (b0 + pre.length) false
            brk := b0 + pre.length + 1 }
          d.iterator dfuel hfw2 (by simp only [List.length_range']; omega)
        refine ⟨none, m2, ?_, ?_, ?_, fun _ => rfl⟩
        · simp only [dataset_encode_loop, henc, dataset_destroy, hd1, Option.map_some']
        · intro q hq
          rw [hd2 q (by
            intro hmem
            have := List.mem_range'_1.mp hmem
            omega)]
          simp only
          rw [Function.update_noteq (by omega)]
          exact hlow q hq
        · intro hall
          exact absurd hro (hall p (List.mem_cons_self p ps))
      | some xy =>
        obtain ⟨x, y⟩ := xy
        have hlow := hinv.2.2.1
        obtain ⟨m1, d1, m2, henc, happ, hinv2⟩ :=
          encode_step tokens n enc r orig b0 pre d mk p x y hinv hp hro
        have hnext : (m2.rows p).next = (orig p).next := by
          rw [hinv2.2.2.1 p hp.1]
        obtain ⟨res, m3, hloop, hlow3, hsucc, hfail⟩ :=
          ih (pre ++ [p]) d1 m2 (orig p).next fuel hinv2 hfol2
            (fun q hq => hrows q (List.mem_cons_of_mem p hq))
            (by simpa using hfuel)
            (by
              have h1 : (pre ++ [p]).length = pre.length + 1 := by simp
              have h2 : (p :: ps).length = ps.length + 1 := rfl
              rw [h1]
              rw [h2] at hdfuel
              omega)
        refine ⟨res, m3, ?_, hlow3, ?_, ?_⟩
        · simp only [dataset_encode_loop, henc, happ, ne_eq, not_true_eq_false, if_false, hnext,
            hloop]
        · intro hall
          obtain ⟨d2, h1, h2⟩ := hsucc (fun q hq => hall q (List.mem_cons_of_mem p hq))
          exact ⟨d2, h1, by simpa using h2⟩
        · rintro ⟨q, hq, hqn⟩
          apply hfail
          rcases List.mem_cons.mp hq with h | h
          · subst h
            rw [hro] at hqn
            exact Option.noConfusion hqn
          · exact ⟨q, h, hqn⟩

theorem concat_outputs_none_iff (r : Option data_entry → Option data_entries)
    (l : List (Option data_entry)) : concat_outputs r l = none ↔ ∃ e ∈ l, r e = none := by
  induction l with
  | nil => simp [concat_outputs]
  | cons e rest ih =>
    cases hr : r e with
    | none =>
      simp only [concat_outputs, hr, true_iff]
      exact ⟨e, List.mem_cons_self e rest, hr⟩
    | some c =>
      cases hc : concat_outputs r rest with
      | none =>
        simp only [concat_outputs, hr, hc, true_iff]
        obtain ⟨x, hx, hxn⟩ := ih.mp hc
        exact ⟨x, List.mem_cons_of_mem e hx, hxn⟩
      | some tail =>
        simp only [concat_outputs, hr, hc]
        refine ⟨fun h => Option.noConfusion h, ?_⟩
        rintro ⟨x, hx, hxn⟩
        exfalso
        rcases List.mem_cons.mp hx with h | h
        · subst h
          rw [hr] at hxn
          exact Option.noConfusion hxn
        · have : concat_outputs r rest = none := ih.mpr ⟨x, h, hxn⟩
          rw [hc] at this
          exact Option.noConfusion this

theorem row_outputs_none_iff (r : Option data_entry → Option data_entries) (row : data_row)
    (ins outs : data_entries) (hin : row.inputs = some ins) (hout : row.outputs = some outs) :
    row_outputs r row = none ↔ ∃ e ∈ ins.entries ++ outs.entries, r e = none := by
  rw [row_outputs_eq r row ins outs hin hout]
  cases hx : concat_outputs r ins.entries with
  | none =>
    simp only [true_iff]
    obtain ⟨e, he, hen⟩ := (concat_outputs_none_iff r _).mp hx
    exact ⟨e, List.mem_append_left _ he, hen⟩
  | some x =>
    cases hy : concat_outputs r outs.entries with
    | none =>
      simp only [true_iff]
      obtain ⟨e, he, hen⟩ := (concat_outputs_none_iff r _).mp hy
      exact ⟨e, List.mem_append_right _ he, hen⟩
    | some y =>
      refine ⟨fun h => Option.noConfusion h, ?_⟩
      rintro ⟨e, he, hen⟩
      exfalso
      rcases List.mem_append.mp he with h | h
      · have := (concat_outputs_none_iff r _).mpr ⟨e, h, hen⟩
        rw [hx] at this
        exact Option.noConfusion this
      · have := (concat_outputs_none_iff r _).mpr ⟨e, h, hen⟩
        rw [hy] at this
        exact Option.noConfusion this

/-- What `dataset_encode` does on a source whose forward traversal is `src`, when no
allocation fails and the `last` field of the fresh dataset happens to read as `NULL`: it
returns; the source cells are untouched; the result is the encoded dataset when every row
encodes and the absent result when one does not. -/
theorem dataset_encode_clean (tokens : Option (List Char)) (n : Int) (enc : Encoder)
    (r : Option data_entry → Option data_entries) (m : Heap) (raw : dataset) (src : List Nat)
    (fuel : Nat) (hj : m.junk = none) (ha : m.alloc = [])
    (hsrc : forward m.rows src.length raw.iterator = some src)
    (hrows : ∀ p ∈ src, encodable tokens n enc r m.rows m.brk p)
    (hfuel : src.length ≤ fuel) :
    ∃ res m1, dataset_encode fuel (some raw) tokens n enc m = some (res, m1)
      ∧ (∀ p, p < m.brk → m1.rows p = m.rows p)
      ∧ ((∀ p ∈ src, row_outputs r (m.rows p) ≠ none) →
          ∃ d1, res = some d1 ∧ encoded_so_far r m.rows m.brk src d1 m1)
      ∧ ((∃ p ∈ src, row_outputs r (m.rows p) = none) → res = none) := by
  obtain ⟨hfol, _⟩ := (forward_iff _ _ _ _).mp hsrc
  have hinv0 : encoded_so_far r m.rows m.brk [] ⟨0, none, none⟩ m := by
    refine ⟨ha, rfl, fun _ _ => rfl, ⟨⟨rfl, rfl, ?_, ?_, ?_⟩, rfl⟩, ?_⟩
    · intro t ht; exact Option.noConfusion ht
    · intro h hh; exact Option.noConfusion hh
    · intro i p q hp _; simp at hp
    · intro i p hp; simp at hp
  obtain ⟨res, m1, hloop, hlow, hsucc, hfail⟩ :=
    encode_loop_spec tokens n enc r m.rows m.brk src [] ⟨0, none, none⟩ m raw.iterator fuel fuel
      hinv0 hfol hrows hfuel (by simpa using hfuel)
  refine ⟨res, m1, ?_, hlow, by simpa using hsucc, hfail⟩
  cases m with
  | mk rows live brk junk alloc =>
    simp only at hj ha
    subst hj ha
    simp only [dataset_encode, dataset_create, malloc]
    exact hloop

/-- With the fresh dataset's `last` field reading as `NULL` and no allocation failure, a
per-entry encoder that succeeds on every entry of every source row makes `dataset_encode`
return a dataset of as many rows as the source: its size is that number, its forward
traversal visits the encoded rows in source order, and the `i`-th encoded row holds the
row-encoding of the `i`-th source row. -/
theorem encode_rows_clean (tokens : Option (List Char)) (n : Int) (enc : Encoder)
    (r : Option data_entry → Option data_entries) (m : Heap) (raw : dataset) (src : List Nat)
    (fuel : Nat) (hj : m.junk = none) (ha : m.alloc = [])
    (hsrc : forward m.rows src.length raw.iterator = some src)
    (hrows : ∀ p ∈ src, encodable tokens n enc r m.rows m.brk p)
    (hok : ∀ p ∈ src, ∀ ins outs, (m.rows p).inputs = some ins → (m.rows p).outputs = some outs →
      ∀ e ∈ ins.entries ++ outs.entries, r e ≠ none)
    (hfuel : src.length ≤ fuel) :
    ∃ d1 m1, dataset_encode fuel (some raw) tokens n enc m = some (some d1, m1)
      ∧ d1.size = (src.length : Int)
      ∧ forward m1.rows src.length d1.iterator = some (List.range' m.brk src.length)
      ∧ (∀ i p, src[i]? = some p → ∃ x y, row_outputs r (m.rows p) = some (x, y)
          ∧ (m1.rows (m.brk + i)).inputs = some x ∧ (m1.rows (m.brk + i)).outputs = some y) := by
  obtain ⟨res, m1, henc, _, hsucc, _⟩ :=
    dataset_encode_clean tokens n enc r m raw src fuel hj ha hsrc hrows hfuel
  have hall : ∀ p ∈ src, row_outputs r (m.rows p) ≠ none := by
    intro p hp hnone
    obtain ⟨_, ins, outs, hin, hout, _⟩ := hrows p hp
    obtain ⟨e, he, hen⟩ := (row_outputs_none_iff r _ ins outs hin hout).mp hnone
    exact hok p hp ins outs hin hout e he hen
  obtain ⟨d1, hres, _, _, _, hwf, hcont⟩ := hsucc hall
  subst hres
  refine ⟨d1, m1, henc, ?_, ?_, hcont⟩
  · rw [hwf.1.2.1]; simp
  · have := hwf.1.1
    simpa using this

/-- With the fresh dataset's `last` field reading as `NULL`, no allocation failure and a
well-formed source, `dataset_encode` returns the absent result exactly when the per-entry
encoder fails on an entry of the inputs or outputs of some source row. -/
theorem encode_fails_iff_clean (tokens : Option (List Char)) (n : Int) (enc : Encoder)
    (r : Option data_entry → Option data_entries) (m : Heap) (raw : dataset) (src : List Nat)
    (fuel : Nat) (hj : m.junk = none) (ha : m.alloc = [])
    (hsrc : forward m.rows src.length raw.iterator = some src)
    (hrows : ∀ p ∈ src, encodable tokens n enc r m.rows m.brk p)
    (hfuel : src.length ≤ fuel) :
    ∃ res m1, dataset_encode fuel (some raw) tokens n enc m = some (res, m1)
      ∧ (res = none ↔ ∃ p ∈ src, ∃ ins outs, (m.rows p).inputs = some ins
          ∧ (m.rows p).outputs = some outs ∧ ∃ e ∈ ins.entries ++ outs.entries, r e = none) := by
  obtain ⟨res, m1, henc, _, hsucc, hfail⟩ :=
    dataset_encode_clean tokens n enc r m raw src fuel hj ha hsrc hrows hfuel
  refine ⟨res, m1, henc, ?_, ?_⟩
  · intro hres
    by_contra hcon
    have hall : ∀ p ∈ src, row_outputs r (m.rows p) ≠ none := by
      intro p hp hnone
      obtain ⟨_, ins, outs, hin, hout, _⟩ := hrows p hp
      exact hcon ⟨p, hp, ins, outs, hin, hout,
        (row_outputs_none_iff r _ ins outs hin hout).mp hnone⟩
    obtain ⟨d1, hd1, _⟩ := hsucc hall
    rw [hres] at hd1
    exact Option.noConfusion hd1
  · rintro ⟨p, hp, ins, outs, hin, hout, hex⟩
    exact hfail ⟨p, hp, (row_outputs_none_iff r _ ins outs hin hout).mpr hex⟩

/-- Per-entry results of `keep_zero` when no allocation fails. -/
theorem keep_zero_nil (e : Option data_entry) :
    keep_zero e none 0 []
      = some ((match e with
          | some ⟨some (Value.int v)⟩ =>
            if v = 0 then some ⟨[some ⟨some (Value.int 0)⟩]⟩ else none
          | _ => none), []) := by
  unfold keep_zero
  split
  · split <;> rfl
  · rfl

theorem encode_loop_step (tokens : Option (List Char)) (n : Int) (enc : Encoder)
    (dfuel fuel c e : Nat) (d d1 : Option dataset) (m m1 m2 : Heap) (nx : Option Nat)
    (h1 : data_row_encode (some c) tokens n enc m = some (some e, m1))
    (h2 : dataset_append_row d (some e) m1 = (0, d1, m2)) (h3 : (m2.rows c).next = nx) :
    dataset_encode_loop tokens n enc dfuel (fuel + 1) (some c) d m
      = dataset_encode_loop tokens n enc dfuel fuel nx d1 m2 := by
  simp only [dataset_encode_loop, h1, h2, h3, ne_eq, not_true_eq_false, if_false]

/-- When the tail reference of the encoded dataset designates the row the loop is about to
encode, and `keep_zero` succeeds on that row, the loop of `dataset_encode` never reaches
`NULL`: each appended row becomes the next row to encode. -/
theorem encode_loop_chases_tail (fuel dfuel : Nat) (c : Nat) (d : dataset) (m : Heap)
    (ha : m.alloc = []) (hc : c < m.brk) (hlast : d.last = some c)
    (hin : (m.rows c).inputs = some ⟨[some ⟨some (Value.int 0)⟩]⟩)
    (hout : (m.rows c).outputs = some ⟨[]⟩) :
    dataset_encode_loop none 0 keep_zero dfuel fuel (some c) (some d) m = none := by
  induction fuel generalizing c d m with
  | zero => rfl
  | succ fuel ih =>
    have henc := data_row_encode_eq none 0 keep_zero
      (fun e => match e with
        | some ⟨some (Value.int v)⟩ =>
          if v = 0 then some ⟨[some ⟨some (Value.int 0)⟩]⟩ else none
        | _ => none)
      m c ⟨[some ⟨some (Value.int 0)⟩]⟩ ⟨[]⟩ ha (by omega) hin hout
      (fun e _ => keep_zero_nil e)
    have hro : row_outputs
        (fun e => match e with
          | some ⟨some (Value.int v)⟩ =>
            if v = 0 then some ⟨[some ⟨some (Value.int 0)⟩]⟩ else none
          | _ => none) (m.rows c)
        = some (⟨[some ⟨some (Value.int 0)⟩]⟩, ⟨[]⟩) := by
      simp [row_outputs, hin, hout, concat_outputs]
    rw [hro] at henc
    simp only at henc
    have hcb : c ≠ m.brk := by omega
    have happ : dataset_append_row (some d) (some m.brk)
        { m with
          rows := Function.update m.rows m.brk
            ⟨some ⟨[some ⟨some (Value.int 0)⟩]⟩, some ⟨[]⟩, none, none⟩
          live := Function.update m.live m.brk true
          brk := m.brk + 1 }
        = (0, some ⟨d.size + 1, d.iterator, some m.brk⟩,
            { m with
              rows := Function.update
                (Function.update m.rows m.brk
                  ⟨some ⟨[some ⟨some (Value.int 0)⟩]⟩, some ⟨[]⟩, none, none⟩)
                c ⟨(m.rows c).inputs, (m.rows c).outputs, (m.rows c).previous, some m.brk⟩
                |> (fun rows1 => Function.update rows1 m.brk
                  ⟨some ⟨[some ⟨some (Value.int 0)⟩]⟩, some ⟨[]⟩, some c, none⟩)
              live := Function.update m.live m.brk true
              brk := m.brk + 1 }) := by
      simp [dataset_append_row, hlast, Function.update_apply, hcb, hcb.symm]
    rw [encode_loop_step none 0 keep_zero dfuel fuel c m.brk _ _ m _ _ (some m.brk) henc happ
      (by simp [Function.update_apply, hcb])]
    apply ih
    · exact ha
    · show m.brk < m.brk + 1
      omega
    · rfl
    · simp [Function.update_apply]
    · simp [Function.update_apply]

/-- Claim C8, at the failing input.  The two-row source of `sample_heap` is well formed and
`data_entry_string_encode` succeeds on each of its entries; with the `last` field of the
fresh dataset holding the address of the stale row 2, `dataset_string_encode` returns a
dataset of size 2 whose head is absent: the forward traversal of the result visits no row.
With that field reading as `NULL` the traversal visits the two encoded rows. -/
theorem encode_dirty_tail_loses_rows :
    forward (sample_heap (some 2)).rows 2 sample_source.iterator = some [0, 1]
      ∧ (dataset_string_encode 2 (some sample_source) (sample_heap (some 2))).map (fun x => x.1)
        = some (some ⟨2, none, some 4⟩)
      ∧ (dataset_string_encode 2 (some sample_source) (sample_heap (some 2))).bind
          (fun x => x.1.bind (fun d => forward x.2.rows 2 d.iterator)) = some []
      ∧ (dataset_string_encode 2 (some sample_source) (sample_heap none)).bind
          (fun x => x.1.bind (fun d => forward x.2.rows 2 d.iterator)) = some [3, 4] := by
  refine ⟨by decide, by decide, by decide, by decide⟩

/-- Claim C10, at the failing input.  `keep_zero` fails on the entry of source row 1.  With
the `last` field of the fresh dataset reading as `NULL`, `dataset_encode` returns the absent
result; with that field holding the address of source row 0, the first append links the
encoded row after source row 0, the traversal follows it, and the call does not return for
any amount of fuel. -/
theorem encode_dirty_tail_no_return :
    forward (sample_heap (some 0)).rows 2 sample_source.iterator = some [0, 1]
      ∧ (keep_zero (some ⟨some (Value.int 5)⟩) none 0 [] = some (none, []))
      ∧ (dataset_encode 2 (some sample_source) none 0 keep_zero (sample_heap none)).map
          (fun x => x.1) = some none
      ∧ ∀ fuel : Nat,
          dataset_encode fuel (some sample_source) none 0 keep_zero (sample_heap (some 0))
            = none := by
  refine ⟨by decide, by decide, by decide, ?_⟩
  intro fuel
  simp only [dataset_encode, dataset_create, sample_heap, malloc, sample_source]
  apply encode_loop_chases_tail
  · rfl
  · decide
  · rfl
  · rfl
  · rfl

/-! ## The clean path on the sample source -/

/-- The hypotheses of `create_then_append_clean` hold for the rows 0 and 1 of the blank
memory. -/
theorem create_then_append_clean_example :
    ∃ d0 m0 d1 m1, dataset_create (blank_heap none) = (some d0, m0)
      ∧ append_rows [0, 1] (some d0) m0 = (some d1, m1)
      ∧ d1.size = 2
      ∧ forward m1.rows 2 d1.iterator = some [0, 1]
      ∧ backward m1.rows 2 d1.last = some [1, 0] :=
  create_then_append_clean (blank_heap none) rfl rfl [0, 1] (by decide)
    (fun _ _ => ⟨rfl, rfl⟩)

/-- The rows of the sample source are encodable by `keep_zero`. -/
theorem sample_rows_encodable (junk : Option Nat) :
    ∀ p ∈ [0, 1], encodable none 0 keep_zero
      (fun e => match e with
        | some ⟨some (Value.int v)⟩ =>
          if v = 0 then some ⟨[some ⟨some (Value.int 0)⟩]⟩ else none
        | _ => none)
      (sample_heap junk).rows (sample_heap junk).brk p := by
  intro p hp
  have h01 : p = 0 ∨ p = 1 := by simpa using hp
  rcases h01 with h | h
  · subst h
    exact ⟨show 0 < 3 by decide, ⟨[some ⟨some (Value.int 0)⟩]⟩, ⟨[]⟩, rfl, rfl,
      fun e _ => keep_zero_nil e⟩
  · subst h
    exact ⟨show 1 < 3 by decide, ⟨[some ⟨some (Value.int 5)⟩]⟩, ⟨[]⟩, rfl, rfl,
      fun e _ => keep_zero_nil e⟩

/-- The hypotheses of `encode_fails_iff_clean` hold for the sample source and `keep_zero`. -/
theorem encode_fails_iff_clean_example :
    ∃ res m1, dataset_encode 2 (some sample_source) none 0 keep_zero (sample_heap none)
        = some (res, m1)
      ∧ (res = none ↔ ∃ p ∈ [0, 1], ∃ ins outs, ((sample_heap none).rows p).inputs = some ins
          ∧ ((sample_heap none).rows p).outputs = some outs
          ∧ ∃ e ∈ ins.entries ++ outs.entries,
              (match e with
                | some ⟨some (Value.int v)⟩ =>
                  if v = 0 then some (data_entries.mk [some ⟨some (Value.int 0)⟩]) else none
                | _ => none) = none) :=
  encode_fails_iff_clean none 0 keep_zero _ (sample_heap none) sample_source [0, 1] 2 rfl rfl
    (by decide) (sample_rows_encodable none) (by decide)

theorem data_entry_string_encode_eq (tokens : Option (List Char)) (n v : Int) :
    data_entry_string_encode (some ⟨some (Value.int v)⟩) tokens n []
      = some (some ⟨[some ⟨some (Value.text (itos_text v))⟩]⟩, []) := rfl

/-- The hypotheses of `encode_rows_clean` hold for the sample source and the decimal-string
encoder: the result has the two encoded rows at the addresses 3 and 4. -/
theorem encode_rows_clean_example :
    ∃ d1 m1, dataset_string_encode 2 (some sample_source) (sample_heap none) = some (some d1, m1)
      ∧ d1.size = 2
      ∧ forward m1.rows 2 d1.iterator = some [3, 4]
      ∧ (m1.rows 3).inputs = some ⟨[some ⟨some (Value.text ['0'])⟩]⟩
      ∧ (m1.rows 4).inputs = some ⟨[some ⟨some (Value.text ['5'])⟩]⟩ := by
  obtain ⟨d1, m1, h1, h2, h3, h4⟩ :=
    encode_rows_clean none 0 data_entry_string_encode
      (fun e => match e with
        | some ⟨some (Value.int v)⟩ => some ⟨[some ⟨some (Value.text (itos_text v))⟩]⟩
        | _ => none)
      (sample_heap none) sample_source [0, 1] 2 rfl rfl (by decide)
      (by
        intro p hp
        have h01 : p = 0 ∨ p = 1 := by simpa using hp
        rcases h01 with h | h
        · subst h
          refine ⟨show 0 < 3 by decide, ⟨[some ⟨some (Value.int 0)⟩]⟩, ⟨[]⟩, rfl, rfl, ?_⟩
          intro e he
          have : e = some ⟨some (Value.int 0)⟩ := by simpa using he
          subst this
          rfl
        · subst h
          refine ⟨show 1 < 3 by decide, ⟨[some ⟨some (Value.int 5)⟩]⟩, ⟨[]⟩, rfl, rfl, ?_⟩
          intro e he
          have : e = some ⟨some (Value.int 5)⟩ := by simpa using he
          subst this
          rfl)
      (by
        intro p hp ins outs hin hout e he
        have h01 : p = 0 ∨ p = 1 := by simpa using hp
        rcases h01 with h | h
        · subst h
          have hi : ins = ⟨[some ⟨some (Value.int 0)⟩]⟩ := (Option.some.inj hin).symm
          have ho : outs = ⟨[]⟩ := (Option.some.inj hout).symm
          subst hi ho
          have : e = some ⟨some (Value.int 0)⟩ := by simpa using he
          subst this
          simp
        · subst h
          have hi : ins = ⟨[some ⟨some (Value.int 5)⟩]⟩ := (Option.some.inj hin).symm
          have ho : outs = ⟨[]⟩ := (Option.some.inj hout).symm
          subst hi ho
          have : e = some ⟨some (Value.int 5)⟩ := by simpa using he
          subst this
          simp)
      (by decide)
  refine ⟨d1, m1, h1, h2, h3, ?_, ?_⟩
  · obtain ⟨x, y, hxy, hx, _⟩ := h4 0 0 rfl
    rw [show (sample_heap none).brk + 0 = 3 from rfl] at hx
    rw [hx]
    have : row_outputs _ ((sample_heap none).rows 0) = some (x, y) := hxy
    simp [row_outputs, sample_heap, concat_outputs] at this
    rw [← this.1]
    rfl
  · obtain ⟨x, y, hxy, hx, _⟩ := h4 1 1 rfl
    rw [show (sample_heap none).brk + 1 = 4 from rfl] at hx
    rw [hx]
    have : row_outputs _ ((sample_heap none).rows 1) = some (x, y) := hxy
    simp [row_outputs, sample_heap, concat_outputs] at this
    rw [← this.1]
    rfl

/-! ## Appending: return codes and frame -/

/-- Claim C14.  `dataset_append_row` returns -1 if and only if the dataset or the row is
absent and returns 0 otherwise; when it returns -1 the dataset and the whole row memory are
as before the call. -/
theorem append_row_return_code (data : Option dataset) (row : Option Nat) (m : Heap) :
    ((dataset_append_row data row m).1 = -1 ↔ (data = none ∨ row = none))
      ∧ ((dataset_append_row data row m).1 = 0 ↔ (data ≠ none ∧ row ≠ none))
      ∧ ((data = none ∨ row = none) → dataset_append_row data row m = (-1, data, m)) := by
  cases data with
  | none => simp [dataset_append_row]
  | some d =>
    cases row with
    | none => simp [dataset_append_row]
    | some r =>
      cases hl : d.last with
      | none => simp [dataset_append_row, hl]
      | some l => simp [dataset_append_row, hl]

/-- Claim C15, at the failing input.  `dataset_create` stores `size` and `iterator` and
leaves `last` as the allocated memory held it: whatever the memory, a successful call returns
size 0, an absent head and the indeterminate tail `junk`; on memory that holds the address of
row 0 there, the tail of the fresh dataset is row 0, not absent. -/
theorem create_leaves_tail_unset :
    (∀ m : Heap, m.alloc = [] → (dataset_create m).1 = some ⟨0, none, m.junk⟩)
      ∧ (dataset_create (blank_heap (some 0))).1 = some ⟨0, none, some 0⟩
      ∧ (dataset_create (blank_heap none)).1 = some ⟨0, none, none⟩ := by
  refine ⟨?_, rfl, rfl⟩
  intro m ha
  simp [dataset_create, ha, malloc]

/-- Claim C18.  For every `size ≥ 0`, a successful `data_entries_create size` returns a
collection whose size is `size` and whose slots at the indices `0 .. size - 1` are all
absent; without allocation failure the call succeeds. -/
theorem entries_create_blank (size : Int) (h : 0 ≤ size) :
    (∀ a c a1, data_entries_create size a = (some c, a1) →
        c.size = size ∧ ∀ i : Nat, (i : Int) < size → c.entries[i]? = some none)
      ∧ ∃ c, data_entries_create size [] = (some c, []) := by
  refine ⟨?_, ⟨_, data_entries_create_nil size h⟩⟩
  intro a c a1 hc
  have hneg : ¬ size < 0 := not_lt.mpr h
  unfold data_entries_create at hc
  split at hc
  · simp at hc
  · split at hc
    · simp at hc
    · simp only [hneg, if_false, Prod.mk.injEq, Option.some.injEq] at hc
      obtain ⟨hc1, _⟩ := hc
      subst hc1
      refine ⟨?_, ?_⟩
      · simp only [data_entries.size, List.length_replicate]
        omega
      · intro i hi
        have hi2 : i < size.toNat := by omega
        simp [List.getElem?_replicate, hi2]

/-- Witness for claim C18: size 3. -/
theorem entries_create_blank_witness :
    ((0 : Int) ≤ 3)
      ∧ data_entries_create 3 [] = (some ⟨[none, none, none]⟩, [])
      ∧ ((∀ a c a1, data_entries_create 3 a = (some c, a1) →
          c.size = 3 ∧ ∀ i : Nat, (i : Int) < 3 → c.entries[i]? = some none)
        ∧ ∃ c, data_entries_create 3 [] = (some c, [])) :=
  ⟨by decide, rfl, entries_create_blank 3 (by decide)⟩

/-! ## Failure of the per-collection transform -/

theorem encode_each_failed (tokens : Option (List Char)) (n : Int) (enc : Encoder)
    (l : List (Option data_entry)) (i : Nat) (acc acc1 : EncodeAcc)
    (h : (∃ e ∈ l, ∀ a, ∃ a1, enc e tokens n a = some (none, a1)) ∨ acc.failed = true)
    (hrun : encode_each tokens n enc l i acc = some acc1) : acc1.failed = true := by
  induction l generalizing i acc with
  | nil =>
    simp only [encode_each, Option.some.injEq] at hrun
    subst hrun
    rcases h with ⟨e, he, _⟩ | h
    · simp at he
    · exact h
  | cons e rest ih =>
    unfold encode_each at hrun
    cases hr : enc e tokens n acc.alloc with
    | none =>
      rw [hr] at hrun
      exact Option.noConfusion hrun
    | some res =>
      obtain ⟨out, a1⟩ := res
      rw [hr] at hrun
      cases out with
      | none =>
        exact ih (i + 1) _ (Or.inr rfl) hrun
      | some c =>
        apply ih (i + 1) _ _ hrun
        rcases h with ⟨x, hx, hxf⟩ | h
        · rcases List.mem_cons.mp hx with hxe | hxr
          · subst hxe
            obtain ⟨a2, ha2⟩ := hxf acc.alloc
            rw [hr] at ha2
            simp at ha2
          · exact Or.inl ⟨x, hxr, hxf⟩
        · exact Or.inr h

theorem data_entries_encode_no_partial (tokens : Option (List Char)) (n : Int) (enc : Encoder)
    (raw : data_entries) (h : ∃ e ∈ raw.entries, ∀ a, ∃ a1, enc e tokens n a = some (none, a1))
    (a : Alloc) (c : data_entries) (a1 : Alloc) :
    data_entries_encode (some raw) tokens n enc a ≠ some (some c, a1) := by
  intro hrun
  unfold data_entries_encode at hrun
  simp only at hrun
  split at hrun
  · simp at hrun
  · split at hrun
    · exact Option.noConfusion hrun
    · rename_i acc hacc
      have hf := encode_each_failed tokens n enc raw.entries 0 _ acc (Or.inl h) hacc
      simp [hf] at hrun

/-- Claim C11.  Let `r e` be what the per-entry encoder returns on each source entry `e`
when no allocation fails.  Then `data_entries_encode` returns the absent result exactly when
at least one application fails, and a collection exactly when none fails.  Moreover, when
the encoder fails on some source entry whatever the allocator does, `data_entries_encode`
never returns a collection, under any allocation schedule. -/
theorem entries_encode_fails_iff (tokens : Option (List Char)) (n : Int) (enc : Encoder)
    (r : Option data_entry → Option data_entries) (raw : data_entries)
    (h : ∀ e ∈ raw.entries, enc e tokens n [] = some (r e, [])) :
    (data_entries_encode (some raw) tokens n enc [] = some (none, [])
        ↔ ∃ e ∈ raw.entries, r e = none)
      ∧ ((∃ c, data_entries_encode (some raw) tokens n enc [] = some (some c, []))
        ↔ ∀ e ∈ raw.entries, r e ≠ none)
      ∧ ((∃ e ∈ raw.entries, ∀ a, ∃ a1, enc e tokens n a = some (none, a1)) →
          ∀ a c a1, data_entries_encode (some raw) tokens n enc a ≠ some (some c, a1)) := by
  have heq := data_entries_encode_eq tokens n enc r raw h
  refine ⟨?_, ?_, fun hx a c a1 => data_entries_encode_no_partial tokens n enc raw hx a c a1⟩
  · rw [heq, ← concat_outputs_none_iff]
    cases concat_outputs r raw.entries <;> simp
  · rw [heq]
    constructor
    · rintro ⟨c, hc⟩ e he hen
      have hnone := (concat_outputs_none_iff r raw.entries).mpr ⟨e, he, hen⟩
      rw [hnone] at hc
      simp at hc
    · intro hall
      cases hcat : concat_outputs r raw.entries with
      | none =>
        obtain ⟨e, he, hen⟩ := (concat_outputs_none_iff r raw.entries).mp hcat
        exact absurd hen (hall e he)
      | some flat => exact ⟨⟨flat⟩, rfl⟩

/-- Witness for claim C11: `keep_zero` on the collection of the integers 0, 5, 0 fails on
the middle entry, and the transform returns the absent result. -/
theorem entries_encode_fails_iff_witness :
    (∀ e ∈ [some (data_entry.mk (some (Value.int 0))), some (data_entry.mk (some (Value.int 5))),
          some (data_entry.mk (some (Value.int 0)))],
        keep_zero e none 0 [] = some ((match e with
          | some ⟨some (Value.int v)⟩ =>
            if v = 0 then some (data_entries.mk [some ⟨some (Value.int 0)⟩]) else none
          | _ => none), []))
      ∧ data_entries_encode
          (some ⟨[some ⟨some (Value.int 0)⟩, some ⟨some (Value.int 5)⟩, some ⟨some (Value.int 0)⟩]⟩)
          none 0 keep_zero [] = some (none, []) :=
  ⟨fun e _ => keep_zero_nil e,
    (entries_encode_fails_iff none 0 keep_zero _
      ⟨[some ⟨some (Value.int 0)⟩, some ⟨some (Value.int 5)⟩, some ⟨some (Value.int 0)⟩]⟩
      (fun e _ => keep_zero_nil e)).1.mpr
      ⟨some ⟨some (Value.int 5)⟩, by simp, by decide⟩⟩

/-! ## The per-row transform: claim -/

/-- Claim C12.  For a source row with both sides present, when no allocation fails and
`data_entries_encode` returns `ri` on the source inputs and `ro` on the source outputs,
`data_row_encode` returns a row exactly when both are present; the row is the freshly
allocated cell, its inputs are `ri`, its outputs are `ro`, and its previous and next links
are absent.  When either side fails it returns the absent result.  No other cell changes. -/
theorem row_encode_sides (tokens : Option (List Char)) (n : Int) (enc : Encoder) (m : Heap)
    (p : Nat) (ins outs : data_entries) (ri ro : Option data_entries)
    (ha : m.alloc = []) (hp : p < m.brk)
    (hin : (m.rows p).inputs = some ins) (hout : (m.rows p).outputs = some outs)
    (hi : data_entries_encode (some ins) tokens n enc [] = some (ri, []))
    (ho : data_entries_encode (some outs) tokens n enc [] = some (ro, [])) :
    ∃ res m1, data_row_encode (some p) tokens n enc m = some (res, m1)
      ∧ (res ≠ none ↔ (ri ≠ none ∧ ro ≠ none))
      ∧ (∀ x y, ri = some x → ro = some y →
          res = some m.brk ∧ m1.rows m.brk = ⟨some x, some y, none, none⟩)
      ∧ (∀ q, q ≠ m.brk → m1.rows q = m.rows q) := by
  have hpb : p ≠ m.brk := by omega
  cases m with
  | mk rows live brk junk alloc =>
    simp only at ha hp hin hout hpb
    subst ha
    cases ri with
    | none =>
      simp only [data_row_encode, data_row_create, malloc, Function.update_noteq hpb, hin, hi]
      refine ⟨_, _, rfl, ?_, ?_, ?_⟩
      · simp
      · intro x y hx
        exact Option.noConfusion hx
      · intro q hq
        simp [data_row_destroy, Function.update_noteq hq]
    | some x =>
      cases ro with
      | none =>
        simp only [data_row_encode, data_row_create, malloc, Function.update_noteq hpb, hin,
          hi, hout, ho]
        refine ⟨_, _, rfl, ?_, ?_, ?_⟩
        · simp
        · intro x1 y hx hy
          exact Option.noConfusion hy
        · intro q hq
          simp [data_row_destroy, Function.update_noteq hq]
      | some y =>
        simp only [data_row_encode, data_row_create, malloc, Function.update_noteq hpb, hin,
          hi, hout, ho]
        refine ⟨_, _, rfl, ?_, ?_, ?_⟩
        · simp
        · intro x1 y1 hx hy
          have hx1 : x = x1 := Option.some.inj hx
          have hy1 : y = y1 := Option.some.inj hy
          subst hx1 hy1
          simp [blank_row]
        · intro q hq
          simp [Function.update_noteq hq]

/-- Witness for claim C12: row 0 of the sample source under `keep_zero`. -/
theorem row_encode_sides_witness :
    ∃ res m1, data_row_encode (some 0) none 0 keep_zero (sample_heap none) = some (res, m1)
      ∧ (res ≠ none ↔ (some (data_entries.mk [some ⟨some (Value.int 0)⟩]) ≠ none
          ∧ some (data_entries.mk []) ≠ none))
      ∧ (∀ x y, some (data_entries.mk [some ⟨some (Value.int 0)⟩]) = some x
          → some (data_entries.mk []) = some y →
          res = some (sample_heap none).brk
            ∧ m1.rows (sample_heap none).brk = ⟨some x, some y, none, none⟩)
      ∧ (∀ q, q ≠ (sample_heap none).brk → m1.rows q = (sample_heap none).rows q) :=
  row_encode_sides none 0 keep_zero (sample_heap none) 0 ⟨[some ⟨some (Value.int 0)⟩]⟩ ⟨[]⟩
    (some ⟨[some ⟨some (Value.int 0)⟩]⟩) (some ⟨[]⟩) rfl (by decide) rfl rfl (by decide)
    (by decide)

/-! ## The alphabet: symbol to index and back -/

theorem find_token_scan_window (token : Char) (l pre suf : List Char) :
    find_token_scan token (pre ++ l ++ suf) l.length pre.length
      = some (if token ∈ l then ((pre.length + l.indexOf token : Nat) : Int) else -1) := by
  induction l generalizing pre with
  | nil => simp [find_token_scan]
  | cons c rest ih =>
    simp only [List.length_cons, find_token_scan]
    have hget : (pre ++ c :: rest ++ suf)[pre.length]? = some c := by
      rw [List.append_assoc, List.getElem?_append_right (le_refl _)]
      simp
    rw [hget]
    by_cases hc : c = token
    · subst hc
      simp
    · have h1 : find_token_scan token (pre ++ c :: rest ++ suf) rest.length (pre.length + 1)
          = some (if token ∈ rest then ((pre.length + 1 + rest.indexOf token : Nat) : Int)
              else -1) := by
        have h0 := ih (pre ++ [c])
        simpa using h0
      have hc2 : ¬ token = c := fun h => hc h.symm
      simp only [hc, if_false, h1, List.mem_cons, hc2, false_or]
      split_ifs with hm
      · simp [List.indexOf_cons, hc]
        omega
      · rfl

theorem getElem?_mem_char (l : List Char) (i : Nat) (c : Char) (h : l[i]? = some c) : c ∈ l := by
  obtain ⟨hi, hp⟩ := List.getElem?_eq_some.mp h
  rw [← hp]
  exact List.getElem_mem hi

/-- What `find_token_index` returns for a token array `ts` of which the first `n` elements
form the alphabet: the first position of the token among them, or -1. -/
theorem find_token_index_take (token : Char) (ts : List Char) (n : Nat) (hn : n ≤ ts.length) :
    find_token_index token (some ts) (n : Int)
      = some (if token ∈ ts.take n then (((ts.take n).indexOf token : Nat) : Int) else -1) := by
  unfold find_token_index
  by_cases h0 : n = 0
  · subst h0; simp
  · have hpos : ¬ ((n : Int) ≤ 0) := by omega
    have h := find_token_scan_window token (ts.take n) [] (ts.drop n)
    simp only [List.nil_append, List.length_nil, Nat.zero_add, List.take_append_drop,
      List.length_take, Nat.min_eq_left hn] at h
    simp only [hpos, if_false, Int.toNat_ofNat, h]

/-- Claim C16.  For a token array `ts` whose first `n` elements form the alphabet: every
character `c` of the alphabet is mapped by `find_token_index` to an index `i` with
`0 ≤ i < n` and `ts[i] = c`; when the alphabet has pairwise-distinct symbols, the symbol at
each index `i < n` is mapped back to `i`; and for every text over the alphabet, reading the
integers produced by index-encoding back through `ts` recovers the text. -/
theorem alphabet_duality (ts : List Char) (n : Nat) (hn : n ≤ ts.length) :
    (∀ c ∈ ts.take n, ∃ i : Nat, find_token_index c (some ts) (n : Int) = some (i : Int)
        ∧ i < n ∧ ts[i]? = some c)
      ∧ ((ts.take n).Nodup → ∀ (i : Nat) (c : Char), i < n → ts[i]? = some c →
          find_token_index c (some ts) (n : Int) = some (i : Int))
      ∧ (∀ t : List Char, (∀ c ∈ t, c ∈ ts.take n) →
          ∃ out, data_entry_int_encode (some ⟨some (Value.text t)⟩) (some ts) (n : Int) []
              = some (some out, [])
            ∧ out.entries.map (token_at ts) = t.map some) := by
  have hfirst : ∀ c ∈ ts.take n, ((ts.take n).indexOf c) < n ∧ ts[(ts.take n).indexOf c]? = some c := by
    intro c hc
    have hlt : (ts.take n).indexOf c < (ts.take n).length := List.indexOf_lt_length.mpr hc
    have hlen : (ts.take n).length = n := by simp [hn]
    have hget : (ts.take n)[(ts.take n).indexOf c]? = some c := by
      rw [List.getElem?_eq_getElem hlt]
      simp
    rw [List.getElem?_take_of_lt (by omega)] at hget
    exact ⟨by omega, hget⟩
  refine ⟨?_, ?_, ?_⟩
  · intro c hc
    refine ⟨(ts.take n).indexOf c, ?_, (hfirst c hc).1, (hfirst c hc).2⟩
    rw [find_token_index_take c ts n hn, if_pos hc]
  · intro hnd i c hi hget
    have hlen : (ts.take n).length = n := by simp [hn]
    have hget2 : (ts.take n)[i]? = some c := by
      rw [List.getElem?_take_of_lt hi]
      exact hget
    have hmem : c ∈ ts.take n := getElem?_mem_char (ts.take n) i c hget2
    rw [find_token_index_take c ts n hn, if_pos hmem]
    have hi2 : i < (ts.take n).length := by omega
    have hci : (ts.take n)[i] = c := by
      rw [List.getElem?_eq_getElem hi2] at hget2
      exact Option.some.inj hget2
    have hidx : (ts.take n).indexOf c < (ts.take n).length := List.indexOf_lt_length.mpr hmem
    have hc2 : (ts.take n)[(ts.take n).indexOf c] = c := by simp
    have := (List.Nodup.getElem_inj_iff hnd).mp (hc2.trans hci.symm)
    rw [this]
  · intro t ht
    refine ⟨_, data_entry_int_encode_eq (some ts) (n : Int)
      (fun c => if c ∈ ts.take n then (((ts.take n).indexOf c : Nat) : Int) else -1) t
      (fun c _ => find_token_index_take c ts n hn), ?_⟩
    simp only [List.map_map]
    apply List.map_congr_left
    intro c hc
    have hmem := ht c hc
    simp only [Function.comp, token_at, hmem, if_true, Int.natCast_nonneg, Int.toNat_ofNat]
    exact (hfirst c hmem).2

/-- Witness for claim C16: the token array of the test driver, twelve symbols followed by
the terminator, with the text "1+2". -/
theorem alphabet_duality_witness :
    (12 ≤ ['0', '1', '2', '3', '4', '5', '6', '7', '8', '9', '+', ' ', Char.ofNat 0].length)
      ∧ find_token_index '+' (some ['0', '1', '2', '3', '4', '5', '6', '7', '8', '9', '+', ' ',
          Char.ofNat 0]) 12 = some 10
      ∧ ((∀ c ∈ (['0', '1', '2', '3', '4', '5', '6', '7', '8', '9', '+', ' ',
            Char.ofNat 0]).take 12,
          ∃ i : Nat, find_token_index c (some ['0', '1', '2', '3', '4', '5', '6', '7', '8', '9',
              '+', ' ', Char.ofNat 0]) ((12 : Nat) : Int) = some (i : Int)
            ∧ i < 12 ∧ (['0', '1', '2', '3', '4', '5', '6', '7', '8', '9', '+', ' ',
              Char.ofNat 0])[i]? = some c)) :=
  ⟨by decide, by decide,
    (alphabet_duality ['0', '1', '2', '3', '4', '5', '6', '7', '8', '9', '+', ' ', Char.ofNat 0]
      12 (by decide)).1⟩

/-! ## Appending: what changes and what does not -/

/-- Claim C20.  Let `d` be a well-formed dataset with traversal `l` and `r` a row that is not
in it.  When `l` is empty, appending `r` makes it both head and tail, the size grows by one
and the row memory is untouched.  When `l` ends in the tail `t`, appending `r` keeps the
head, sets the tail reference to `r` and grows the size by one; in the row memory only the
forward link of `t` (now `r`) and the backward link of `r` (now `t`) change: every row keeps
its inputs and outputs, every row but `r` keeps its backward link, every row but `t` keeps
its forward link. -/
theorem append_row_frame (m : Heap) (d : dataset) (l : List Nat) (r : Nat)
    (hwf : well_formed m.rows d l) (hnew : r ∉ l) :
    (l = [] →
        dataset_append_row (some d) (some r) m = (0, some ⟨d.size + 1, some r, some r⟩, m))
      ∧ (∀ t, l.getLast? = some t →
          ∃ m1, dataset_append_row (some d) (some r) m
              = (0, some ⟨d.size + 1, d.iterator, some r⟩, m1)
            ∧ (m1.rows t).next = some r ∧ (m1.rows r).previous = some t
            ∧ (∀ p, (m1.rows p).inputs = (m.rows p).inputs
                ∧ (m1.rows p).outputs = (m.rows p).outputs)
            ∧ (∀ p, p ≠ r → (m1.rows p).previous = (m.rows p).previous)
            ∧ (∀ p, p ≠ t → (m1.rows p).next = (m.rows p).next)
            ∧ m1.live = m.live ∧ m1.brk = m.brk ∧ m1.junk = m.junk ∧ m1.alloc = m.alloc) := by
  obtain ⟨_, hlast⟩ := hwf
  constructor
  · intro hl
    subst hl
    have hlast0 : d.last = none := by rw [hlast]; rfl
    simp [dataset_append_row, hlast0]
  · intro t ht
    have hlast1 : d.last = some t := by rw [hlast, ht]
    have htl : t ∈ l := List.mem_of_getLast?_eq_some ht
    have hrt : r ≠ t := fun h => hnew (h ▸ htl)
    simp only [dataset_append_row, hlast1]
    refine ⟨_, rfl, ?_, ?_, ?_, ?_, ?_, rfl, rfl, rfl, rfl⟩
    · simp [Function.update_apply, hrt.symm]
    · simp [Function.update_apply]
    · intro p
      by_cases hpr : p = r
      · subst hpr
        simp [Function.update_apply, hrt]
      · by_cases hpt : p = t
        · subst hpt
          simp [Function.update_apply, hpr]
        · simp [Function.update_apply, hpr, hpt]
    · intro p hpr
      by_cases hpt : p = t
      · subst hpt
        simp [Function.update_apply, hpr]
      · simp [Function.update_apply, hpr, hpt]
    · intro p hpt
      by_cases hpr : p = r
      · subst hpr
        simp [Function.update_apply, hpt]
      · simp [Function.update_apply, hpr, hpt]

/-- Witness for claim C20: the one-row dataset on row 0 of the blank memory and the fresh
row 1. -/
theorem append_row_frame_witness :
    (well_formed (blank_heap none).rows ⟨1, some 0, some 0⟩ [0] ∧ 1 ∉ [0])
      ∧ ∃ m1, dataset_append_row (some ⟨1, some 0, some 0⟩) (some 1) (blank_heap none)
          = (0, some ⟨1 + 1, some 0, some 1⟩, m1)
        ∧ (m1.rows 0).next = some 1 ∧ (m1.rows 1).previous = some 0 :=
  have hwf : well_formed (blank_heap none).rows ⟨1, some 0, some 0⟩ [0] := by
    refine ⟨⟨rfl, rfl, ?_, ?_, ?_⟩, rfl⟩
    · intro t _; rfl
    · intro h _; rfl
    · intro i p q _ hq; simp at hq
  ⟨⟨hwf, by decide⟩,
    match (append_row_frame (blank_heap none) ⟨1, some 0, some 0⟩ [0] 1 hwf (by decide)).2 0 rfl with
    | ⟨m1, h1, h2, h3, _⟩ => ⟨m1, h1, h2, h3⟩⟩

/-! ## The encode pipeline at its failing inputs -/

/-- Claim C13, at the failing input.  The two-row source of `sample_heap` is well formed and
the forward link of its last row, row 1, is absent.  `dataset_one_hot_encode` with alphabet
size 1 encodes row 0 and fails on row 1 (value 5).  With the `last` field of the fresh
dataset holding the address of source row 1, the call returns the absent result and leaves
the forward link of source row 1 on the encoded row at address 3: the source has been
mutated, and its forward traversal no longer ends after its two rows.  With that field
reading as `NULL` the link is still absent. -/
theorem encode_dirty_tail_mutates_source :
    forward (sample_heap (some 1)).rows 2 sample_source.iterator = some [0, 1]
      ∧ ((sample_heap (some 1)).rows 1).next = none
      ∧ (dataset_one_hot_encode 2 (some sample_source) 1 (sample_heap (some 1))).map
          (fun x => (x.1, (x.2.rows 1).next)) = some (none, some 3)
      ∧ (dataset_one_hot_encode 2 (some sample_source) 1 (sample_heap (some 1))).bind
          (fun x => forward x.2.rows 2 sample_source.iterator) = none
      ∧ (dataset_one_hot_encode 2 (some sample_source) 1 (sample_heap none)).map
          (fun x => (x.1, (x.2.rows 1).next)) = some (none, none) := by
  refine ⟨by decide, rfl, by decide, by decide, by decide⟩

/-- Claim C17, at the failing input.  Index-encoding the text "a" when the allocation of the
output entry fails (third allocation of the call) returns a collection whose only slot is
absent, and decimal-string-encoding 42 when the allocation of the wrapping entry fails
(fourth allocation) does the same: both report success.  `dataset_int_encode` of the
one-row text source then returns a dataset whose row holds that collection.  The one-hot
encoder, which checks the entry it creates, returns the absent result in the same
situation. -/
theorem encode_unchecked_entry_alloc :
    data_entry_int_encode (some ⟨some (Value.text ['a'])⟩) (some ['a']) 1 [true, true, false]
        = some (some ⟨[none]⟩, [])
      ∧ data_entry_string_encode (some ⟨some (Value.int 42)⟩) none 0 [true, true, true, false]
        = some (some ⟨[none]⟩, [])
      ∧ (dataset_int_encode 1 (some text_source) (some ['a']) 1
            (text_heap [true, true, true, true, true, false])).map
          (fun x => (x.1, (x.2.rows 1).inputs))
        = some (some ⟨1, some 1, some 1⟩, some ⟨[none]⟩)
      ∧ data_entry_one_hot_encode (some ⟨some (Value.int 0)⟩) none 1 [true, true, true, false]
        = some (none, []) := by
  refine ⟨by decide, by decide, by decide, by decide⟩

/-- Claim C19, at the failing input.  `dataset_one_hot_encode` with alphabet size 1 encodes
row 0 of the sample source into the row at address 3 and fails on row 1.  With the `last`
field of the fresh dataset holding the address of the stale row 2, the head of the encoded
dataset is never set, so the `dataset_destroy` of the failure path visits no row: the call
returns the absent result while the row at address 3 is still allocated and still holds
its encoded collection.  With that field reading as `NULL` the row has been released. -/
theorem encode_dirty_tail_leaks_rows :
    (dataset_one_hot_encode 2 (some sample_source) 1 (sample_heap (some 2))).map
          (fun x => (x.1, x.2.live 3, (x.2.rows 3).inputs))
        = some (none, true, some ⟨[some ⟨some (Value.vector [1])⟩]⟩)
      ∧ (sample_heap (some 2)).live 3 = false
      ∧ (dataset_one_hot_encode 2 (some sample_source) 1 (sample_heap none)).map
          (fun x => (x.1, x.2.live 3, (x.2.rows 3).inputs))
        = some (none, false, none) := by
  refine ⟨by decide, by decide, by decide⟩

/-! ## Release of the encoded rows on the failure path -/

theorem append_row_live (d : Option dataset) (r : Option Nat) (m : Heap) :
    (dataset_append_row d r m).2.2.live = m.live := by
  cases d with
  | none => rfl
  | some d0 =>
    cases r with
    | none => rfl
    | some r0 =>
      cases hl : d0.last with
      | none => simp [dataset_append_row, hl]
      | some l => simp [dataset_append_row, hl]

theorem destroy_rows_live (l : List Nat) (m : Heap) (cur : Option Nat) (fuel : Nat)
    (hf : follows (fun p => (m.rows p).next) cur l) (hlen : l.length ≤ fuel) :
    ∃ m1, destroy_rows fuel cur m = some m1 ∧ (∀ p, p ∈ l → m1.live p = false)
      ∧ (∀ p, p ∉ l → m1.live p = m.live p) := by
  induction l generalizing m cur fuel with
  | nil =>
    have hc : cur = none := hf
    subst hc
    refine ⟨m, ?_, fun p hp => by simp at hp, fun _ _ => rfl⟩
    cases fuel <;> rfl
  | cons p ps ih =>
    obtain ⟨hc, hrest⟩ := hf
    subst hc
    cases fuel with
    | zero => simp at hlen
    | succ fuel =>
      have hnext : ∀ q, ((data_row_destroy (some p) m).rows q).next = (m.rows q).next := by
        intro q
        by_cases hq : q = p
        · subst hq
          simp [data_row_destroy]
        · simp [data_row_destroy, Function.update_noteq hq]
      have hrest2 : follows (fun q => ((data_row_destroy (some p) m).rows q).next)
          (m.rows p).next ps :=
        follows_congr _ _ ps (fun q _ => (hnext q).symm) _ hrest
      obtain ⟨m1, h1, h2, h3⟩ :=
        ih (data_row_destroy (some p) m) (m.rows p).next fuel hrest2 (by simpa using hlen)
      refine ⟨m1, ?_, ?_, ?_⟩
      · simp only [destroy_rows, h1]
      · intro q hq
        by_cases hqps : q ∈ ps
        · exact h2 q hqps
        · have hqp : q = p := by
            rcases List.mem_cons.mp hq with h | h
            · exact h
            · exact absurd h hqps
          subst hqp
          rw [h3 q hqps]
          simp [data_row_destroy]
      · intro q hq
        have hqp : q ≠ p := fun e => hq (by simp [e])
        have hqps : q ∉ ps := fun e => hq (List.mem_cons_of_mem p e)
        rw [h3 q hqps]
        simp [data_row_destroy, Function.update_noteq hqp]

/-- The loop of `dataset_encode` when one of the remaining rows does not encode: it returns
the absent result, and no row cell from `b0` on is still allocated afterwards. -/
theorem encode_loop_released (tokens : Option (List Char)) (n : Int) (enc : Encoder)
    (r : Option data_entry → Option data_entries) (orig : Nat → data_row) (b0 : Nat)
    (rest : List Nat) (pre : List Nat) (d : dataset) (mk : Heap) (cur : Option Nat)
    (fuel dfuel : Nat)
    (hinv : encoded_so_far r orig b0 pre d mk)
    (hlive : ∀ p, b0 + pre.length ≤ p → mk.live p = false)
    (hfol : follows (fun p => (orig p).next) cur rest)
    (hrows : ∀ p ∈ rest, encodable tokens n enc r orig b0 p)
    (hfuel : rest.length ≤ fuel) (hdfuel : pre.length + rest.length ≤ dfuel)
    (hfail : ∃ p ∈ rest, row_outputs r (orig p) = none) :
    ∃ m1, dataset_encode_loop tokens n enc dfuel fuel cur (some d) mk = some (none, m1)
      ∧ ∀ p, b0 ≤ p → m1.live p = false := by
  induction rest generalizing pre d mk cur fuel with
  | nil =>
    obtain ⟨p, hp, _⟩ := hfail
    simp at hp
  | cons p ps ih =>
    obtain ⟨hc, hfol2⟩ := hfol
    subst hc
    cases fuel with
    | zero => simp at hfuel
    | succ fuel =>
      have hp := hrows p (List.mem_cons_self p ps)
      obtain ⟨ha, hb, hlow, hwf, _⟩ := hinv
      obtain ⟨hpb, ins, outs, hin, hout, hr⟩ := hp
      have hpo : mk.rows p = orig p := hlow p hpb
      have henc := data_row_encode_eq tokens n enc r mk p ins outs ha (by omega)
        (by rw [hpo]; exact hin) (by rw [hpo]; exact hout) hr
      cases hro : row_outputs r (orig p) with
      | none =>
        rw [hpo, hro, hb] at henc
        simp only at henc
        obtain ⟨hfw, _⟩ := (forward_iff _ _ _ _).mp hwf.1.1
        have hfw2 : follows (fun q => ((Function.update mk.rows (b0 + pre.length) blank_row) q).next)
            d.iterator (List.range' b0 pre.length) := by
          apply follows_congr _ _ _ _ _ hfw
          intro q hq
          have hq2 := List.mem_range'_1.mp hq
          simp only [Function.update_noteq (show q ≠ b0 + pre.length by omega)]
        obtain ⟨m2, hd1, hd2, hd3⟩ := destroy_rows_live (List.range' b0 pre.length)
          { mk with
            rows := Function.update mk.rows (b0 + pre.length) blank_row
            live := Function.update mk.live (b0 + pre.length) false
            brk := b0 + pre.length + 1 }
          d.iterator dfuel hfw2 (by simp only [List.length_range']; omega)
        refine ⟨m2, ?_, ?_⟩
        · simp only [dataset_encode_loop, henc, dataset_destroy, hd1, Option.map_some']
        · intro q hq
          by_cases hmem : q ∈ List.range' b0 pre.length
          · exact hd2 q hmem
          · rw [hd3 q hmem]
            simp only
            by_cases hqk : q = b0 + pre.length
            · subst hqk
              simp
            · rw [Function.update_noteq hqk]
              apply hlive
              have : ¬ (b0 ≤ q ∧ q < b0 + 1 * pre.length) := fun h => hmem (List.mem_range'.mpr
                ⟨q - b0, by omega, by omega⟩)
              omega
      | some xy =>
        obtain ⟨x, y⟩ := xy
        rw [hpo, hro, hb] at henc
        simp only at henc
        obtain ⟨m1, d1, m2, henc2, happ, hinv2⟩ :=
          encode_step tokens n enc r orig b0 pre d mk p x y ⟨ha, hb, hlow, hwf, by assumption⟩
            ⟨hpb, ins, outs, hin, hout, hr⟩ hro
        have hm1 : m1 = { mk with
            rows := Function.update mk.rows (b0 + pre.length) ⟨some x, some y, none, none⟩
            live := Function.update mk.live (b0 + pre.length) true
            brk := b0 + pre.length + 1 } := by
          have := henc2.symm.trans henc
          simp only [Option.some.injEq, Prod.mk.injEq, true_and] at this
          exact this
        have hm2 : m2.live = m1.live := by
          have := append_row_live (some d) (some (b0 + pre.length)) m1
          rw [happ] at this
          exact this
        have hlive2 : ∀ q, b0 + (pre ++ [p]).length ≤ q → m2.live q = false := by
          intro q hq
          have hq1 : (pre ++ [p]).length = pre.length + 1 := by simp
          rw [hq1] at hq
          rw [hm2, hm1]
          simp only
          rw [Function.update_noteq (by omega)]
          exact hlive q (by omega)
        have hnext : (m2.rows p).next = (orig p).next := by
          rw [hinv2.2.2.1 p hpb]
        have hfail2 : ∃ q ∈ ps, row_outputs r (orig q) = none := by
          obtain ⟨q, hq, hqn⟩ := hfail
          rcases List.mem_cons.mp hq with h | h
          · subst h
            rw [hro] at hqn
            exact Option.noConfusion hqn
          · exact ⟨q, h, hqn⟩
        obtain ⟨m3, hloop, hrel⟩ :=
          ih (pre ++ [p]) d1 m2 (orig p).next fuel hinv2 hlive2 hfol2
            (fun q hq => hrows q (List.mem_cons_of_mem p hq))
            (by simpa using hfuel)
            (by
              have h1 : (pre ++ [p]).length = pre.length + 1 := by simp
              have h2 : (p :: ps).length = ps.length + 1 := rfl
              rw [h1]
              rw [h2] at hdfuel
              omega)
            hfail2
        refine ⟨m3, ?_, hrel⟩
        rw [encode_loop_step tokens n enc dfuel fuel p (b0 + pre.length) (some d) (some d1) mk m1
          m2 (orig p).next henc2 happ hnext]
        exact hloop

/-- With the fresh dataset's `last` field reading as `NULL` and no allocation failure, a
`dataset_encode` that fails on some source row returns the absent result with every row cell
it allocated released: no cell from the initial `brk` on is still allocated. -/
theorem encode_failure_releases_rows_clean (tokens : Option (List Char)) (n : Int)
    (enc : Encoder) (r : Option data_entry → Option data_entries) (m : Heap) (raw : dataset)
    (src : List Nat) (fuel : Nat) (hj : m.junk = none) (ha : m.alloc = [])
    (hlive : ∀ p, m.brk ≤ p → m.live p = false)
    (hsrc : forward m.rows src.length raw.iterator = some src)
    (hrows : ∀ p ∈ src, encodable tokens n enc r m.rows m.brk p)
    (hfuel : src.length ≤ fuel)
    (hfail : ∃ p ∈ src, row_outputs r (m.rows p) = none) :
    ∃ m1, dataset_encode fuel (some raw) tokens n enc m = some (none, m1)
      ∧ ∀ p, m.brk ≤ p → m1.live p = false := by
  obtain ⟨hfol, _⟩ := (forward_iff _ _ _ _).mp hsrc
  have hinv0 : encoded_so_far r m.rows m.brk [] ⟨0, none, none⟩ m := by
    refine ⟨ha, rfl, fun _ _ => rfl, ⟨⟨rfl, rfl, ?_, ?_, ?_⟩, rfl⟩, ?_⟩
    · intro t ht; exact Option.noConfusion ht
    · intro h hh; exact Option.noConfusion hh
    · intro i p q hp _; simp at hp
    · intro i p hp; simp at hp
  obtain ⟨m1, hloop, hrel⟩ :=
    encode_loop_released tokens n enc r m.rows m.brk src [] ⟨0, none, none⟩ m raw.iterator
      fuel fuel hinv0 (by simpa using hlive) hfol hrows hfuel (by simpa using hfuel) hfail
  refine ⟨m1, ?_, hrel⟩
  cases m with
  | mk rows live brk junk alloc =>
    simp only at hj ha
    subst hj ha
    simp only [dataset_encode, dataset_create, malloc]
    exact hloop

/-- With the fresh dataset's `last` field reading as `NULL` and no allocation failure,
`dataset_encode` returns and leaves every cell below the initial `brk`, hence every source
row, as it was, whether it succeeds or fails. -/
theorem encode_source_untouched_clean (tokens : Option (List Char)) (n : Int) (enc : Encoder)
    (r : Option data_entry → Option data_entries) (m : Heap) (raw : dataset) (src : List Nat)
    (fuel : Nat) (hj : m.junk = none) (ha : m.alloc = [])
    (hsrc : forward m.rows src.length raw.iterator = some src)
    (hrows : ∀ p ∈ src, encodable tokens n enc r m.rows m.brk p)
    (hfuel : src.length ≤ fuel) :
    ∃ res m1, dataset_encode fuel (some raw) tokens n enc m = some (res, m1)
      ∧ ∀ p, p < m.brk → m1.rows p = m.rows p := by
  obtain ⟨res, m1, h1, h2, _⟩ :=
    dataset_encode_clean tokens n enc r m raw src fuel hj ha hsrc hrows hfuel
  exact ⟨res, m1, h1, h2⟩

/-- The one-hot encoder never reports success with an absent slot or an absent value,
whatever the allocator does. -/
theorem one_hot_slots_present (entry : Option data_entry) (tokens : Option (List Char))
    (n : Int) (a a1 : Alloc) (c : data_entries)
    (h : data_entry_one_hot_encode entry tokens n a = some (some c, a1)) :
    ∀ s ∈ c.entries, ∃ v, s = some ⟨some v⟩ := by
  cases entry with
  | none => simp [data_entry_one_hot_encode] at h
  | some e =>
    obtain ⟨data⟩ := e
    cases data with
    | none => simp [data_entry_one_hot_encode] at h
    | some payload =>
      by_cases hn : n ≤ 0
      · simp [data_entry_one_hot_encode, hn] at h
      · cases payload with
        | text t => simp [data_entry_one_hot_encode, hn] at h
        | vector xs => simp [data_entry_one_hot_encode, hn] at h
        | int v =>
          by_cases hv : v < 0 ∨ v ≥ n
          · simp [data_entry_one_hot_encode, hn, hv] at h
          · simp only [data_entry_one_hot_encode, hn, hv, if_false] at h
            cases hvc : vector_create n a with
            | mk ov b1 =>
              rw [hvc] at h
              cases ov with
              | none => simp at h
              | some vec =>
                simp only at h
                cases hfill : one_hot_fill v n.toNat 0 vec with
                | none =>
                  rw [hfill] at h
                  simp at h
                | some filled =>
                  rw [hfill] at h
                  simp only at h
                  cases hec : data_entries_create 1 b1 with
                  | mk oc b2 =>
                    rw [hec] at h
                    cases oc with
                    | none => simp at h
                    | some encoded_entries =>
                      simp only at h
                      cases hdc : data_entry_create (some (Value.vector filled)) b2 with
                      | mk oe b3 =>
                        rw [hdc] at h
                        cases oe with
                        | none => simp at h
                        | some slot =>
                          simp only [Option.some.injEq, Prod.mk.injEq] at h
                          obtain ⟨hc, _⟩ := h
                          subst hc
                          have hslot : slot = ⟨some (Value.vector filled)⟩ := by
                            unfold data_entry_create at hdc
                            split at hdc
                            · simp at hdc
                            · simp only [Prod.mk.injEq, Option.some.injEq] at hdc
                              exact hdc.1.symm
                          have hlen : encoded_entries.entries = [none] := by
                            unfold data_entries_create at hec
                            split at hec
                            · simp at hec
                            · split at hec
                              · simp at hec
                              · simp only [show ¬ ((1 : Int) < 0) by decide, if_false,
                                  Prod.mk.injEq, Option.some.injEq] at hec
                                rw [← hec.1]
                                rfl
                          intro s hs
                          rw [hlen] at hs
                          simp only [List.set_cons_zero, List.mem_singleton] at hs
                          exact ⟨Value.vector filled, by rw [hs, hslot]⟩

/-! ## The token scan: range and first match -/

theorem indexOf_first (l : List Char) (c : Char) (i : Nat) (h : i < l.indexOf c) :
    l[i]? ≠ some c := by
  induction l generalizing i with
  | nil => simp at h
  | cons x xs ih =>
    by_cases hx : x = c
    · subst hx
      simp at h
    · rw [List.indexOf_cons_ne _ hx] at h
      cases i with
      | zero =>
        simp only [List.getElem?_cons_zero, ne_eq, Option.some.injEq]
        exact hx
      | succ j =>
        simp only [List.getElem?_cons_succ]
        exact ih j (by omega)

/-- Claim C26.  For a token array `ts` holding at least `tokens_size` elements,
`find_token_index` returns a value `r` with `-1 ≤ r < tokens_size`, or `-1` when
`tokens_size ≤ 0`; no position below `r` holds the character and, when `r ≥ 0`, position `r`
does; `r = -1` exactly when no position in `[0, tokens_size)` holds the character.  With an
absent array it returns `-1`. -/
theorem find_token_index_range (c : Char) (ts : List Char) (tokens_size : Int)
    (hsz : tokens_size ≤ (ts.length : Int)) :
    (∃ r : Int, find_token_index c (some ts) tokens_size = some r
        ∧ -1 ≤ r ∧ (r < tokens_size ∨ (tokens_size ≤ 0 ∧ r = -1))
        ∧ (∀ i : Nat, (i : Int) < r → ts[i]? ≠ some c)
        ∧ (0 ≤ r → ts[r.toNat]? = some c)
        ∧ (r = -1 ↔ ∀ i : Nat, (i : Int) < tokens_size → ts[i]? ≠ some c))
      ∧ find_token_index c none tokens_size = some (-1) := by
  refine ⟨?_, rfl⟩
  by_cases h0 : tokens_size ≤ 0
  · refine ⟨-1, by simp [find_token_index, h0], le_refl _, Or.inr ⟨h0, rfl⟩, ?_, ?_, ?_⟩
    · intro i hi; omega
    · intro h; omega
    · simp only [true_iff]
      intro i hi; omega
  · obtain ⟨n, rfl⟩ := Int.eq_ofNat_of_zero_le (show 0 ≤ tokens_size by omega)
    have hn : n ≤ ts.length := by omega
    have hlen : (ts.take n).length = n := by simp [hn]
    rw [find_token_index_take c ts n hn]
    by_cases hmem : c ∈ ts.take n
    · have hlt : (ts.take n).indexOf c < n := by
        have := List.indexOf_lt_length.mpr hmem
        omega
      have hget : (ts.take n)[(ts.take n).indexOf c]? = some c := by
        rw [List.getElem?_eq_getElem (by omega)]
        simp
      refine ⟨_, by rw [if_pos hmem], by omega, Or.inl (by omega), ?_, ?_, ?_⟩
      · intro i hi
        have hi2 : i < (ts.take n).indexOf c := by omega
        have := indexOf_first (ts.take n) c i hi2
        rw [List.getElem?_take_of_lt (by omega)] at this
        exact this
      · intro _
        rw [Int.toNat_ofNat, ← List.getElem?_take_of_lt hlt]
        exact hget
      · constructor
        · intro h; omega
        · intro hall
          exfalso
          apply hall ((ts.take n).indexOf c) (by omega)
          rw [← List.getElem?_take_of_lt hlt]
          exact hget
    · refine ⟨-1, by rw [if_neg hmem], le_refl _, Or.inl (by omega), ?_, ?_, ?_⟩
      · intro i hi; omega
      · intro h; omega
      · simp only [true_iff]
        intro i hi hget
        apply hmem
        have hi2 : i < n := by omega
        rw [← List.getElem?_take_of_lt hi2] at hget
        exact getElem?_mem_char _ i c hget

/-- Witness for claim C26: the character 'b' occurs twice in "abcb"; the scan returns its
lowest position, 1. -/
theorem find_token_index_range_witness :
    ((4 : Int) ≤ ((['a', 'b', 'c', 'b'] : List Char).length : Int))
      ∧ find_token_index 'b' (some ['a', 'b', 'c', 'b']) 4 = some 1
      ∧ ∃ r : Int, find_token_index 'b' (some ['a', 'b', 'c', 'b']) 4 = some r
        ∧ -1 ≤ r ∧ (r < 4 ∨ ((4 : Int) ≤ 0 ∧ r = -1))
        ∧ (∀ i : Nat, (i : Int) < r → (['a', 'b', 'c', 'b'] : List Char)[i]? ≠ some 'b')
        ∧ (0 ≤ r → (['a', 'b', 'c', 'b'] : List Char)[r.toNat]? = some 'b')
        ∧ (r = -1 ↔ ∀ i : Nat, (i : Int) < 4 → (['a', 'b', 'c', 'b'] : List Char)[i]? ≠ some 'b') :=
  ⟨by decide, by decide, (find_token_index_range 'b' ['a', 'b', 'c', 'b'] 4 (by decide)).1⟩

/-- Claim C27.  With an absent alphabet or with `tokens_size ≤ 0`, index-encoding a text `t`
(no allocation failure) does not fail: it returns a collection of `length t` integer entries
all equal to `-1`, the same collection as for an alphabet that holds none of the characters
of `t`. -/
theorem int_encode_invalid_alphabet (tokens : Option (List Char)) (tokens_size : Int)
    (t : List Char) (h : tokens = none ∨ tokens_size ≤ 0) :
    data_entry_int_encode (some ⟨some (Value.text t)⟩) tokens tokens_size []
        = some (some ⟨t.map (fun _ => some ⟨some (Value.int (-1))⟩)⟩, [])
      ∧ (t.map (fun _ => some (data_entry.mk (some (Value.int (-1)))))).length = t.length
      ∧ ∀ A : List Char, (∀ c ∈ t, c ∉ A) →
          data_entry_int_encode (some ⟨some (Value.text t)⟩) (some A) (A.length : Int) []
            = data_entry_int_encode (some ⟨some (Value.text t)⟩) tokens tokens_size [] := by
  have hfirst : data_entry_int_encode (some ⟨some (Value.text t)⟩) tokens tokens_size []
      = some (some ⟨t.map (fun _ => some ⟨some (Value.int (-1))⟩)⟩, []) := by
    apply data_entry_int_encode_eq tokens tokens_size (fun _ => -1) t
    intro c _
    rcases h with h | h
    · subst h; rfl
    · cases tokens with
      | none => rfl
      | some ts => simp [find_token_index, h]
  refine ⟨hfirst, by simp, ?_⟩
  intro A hA
  rw [hfirst, data_entry_int_encode_eq (some A) (A.length : Int)
    (fun c => if c ∈ A then ((A.indexOf c : Nat) : Int) else -1) t
    (fun c _ => find_token_index_eq c A)]
  congr 4
  apply List.map_congr_left
  intro c hc
  simp [hA c hc]

/-- Witness for claim C27: the text "ab" with an absent alphabet and with alphabet size 0. -/
theorem int_encode_invalid_alphabet_witness :
    ((none : Option (List Char)) = none ∨ (3 : Int) ≤ 0)
      ∧ data_entry_int_encode (some ⟨some (Value.text ['a', 'b'])⟩) none 3 []
        = some (some ⟨[some ⟨some (Value.int (-1))⟩, some ⟨some (Value.int (-1))⟩]⟩, [])
      ∧ data_entry_int_encode (some ⟨some (Value.text ['a', 'b'])⟩) (some ['a', 'b']) 0 []
        = some (some ⟨[some ⟨some (Value.int (-1))⟩, some ⟨some (Value.int (-1))⟩]⟩, []) :=
  ⟨Or.inl rfl, (int_encode_invalid_alphabet none 3 ['a', 'b'] (Or.inl rfl)).1,
    (int_encode_invalid_alphabet (some ['a', 'b']) 0 ['a', 'b'] (Or.inr (by decide))).1⟩

/-! ## Encoding an empty dataset -/

/-- Claim C28.  For every per-entry encoder, alphabet and alphabet size, `dataset_encode` of
a dataset whose head is absent (no allocation failure) returns a dataset of size 0 with an
absent head, from which the forward traversal visits no row, and leaves the memory as it
was.  The encoder is never applied: the result is the same for an encoder whose every
application is undefined. -/
theorem encode_empty_source (fuel : Nat) (tokens : Option (List Char)) (n : Int)
    (enc : Encoder) (raw : dataset) (m : Heap) (hit : raw.iterator = none)
    (ha : m.alloc = []) :
    dataset_encode fuel (some raw) tokens n enc m = some (some ⟨0, none, m.junk⟩, m)
      ∧ forward m.rows fuel (dataset.iterator ⟨0, none, m.junk⟩) = some [] := by
  constructor
  · cases m with
    | mk rows live brk junk alloc =>
      simp only at ha
      subst ha
      simp only [dataset_encode, dataset_create, malloc, hit]
      cases fuel <;> rfl
  · cases fuel <;> rfl

/-- Witness for claim C28: the empty dataset, alphabet size -5, and an encoder whose every
application is undefined, also for `dataset_one_hot_encode` with alphabet size 0. -/
theorem encode_empty_source_witness :
    ((dataset.mk 0 none none).iterator = none ∧ (blank_heap (some 0)).alloc = [])
      ∧ (dataset_encode 0 (some ⟨0, none, none⟩) none (-5) (fun _ _ _ _ => none)
            (blank_heap (some 0))).map (fun x => x.1) = some (some ⟨0, none, some 0⟩)
      ∧ (dataset_one_hot_encode 0 (some ⟨0, none, none⟩) 0 (blank_heap none)).map
          (fun x => x.1) = some (some ⟨0, none, none⟩) :=
  ⟨⟨rfl, rfl⟩,
    by rw [(encode_empty_source 0 none (-5) (fun _ _ _ _ => none) ⟨0, none, none⟩
      (blank_heap (some 0)) rfl rfl).1]; rfl,
    by
      unfold dataset_one_hot_encode
      rw [(encode_empty_source 0 none 0 data_entry_one_hot_encode ⟨0, none, none⟩
        (blank_heap none) rfl rfl).1]
      rfl⟩

/-! ## Appending a row that is already linked -/

/-- Claim C25.  `dataset_append_row` on a present dataset and row always returns 0 and makes
the row the tail.  It has no statement that writes the row's forward link: the link is as
before the call unless the row is the current tail, in which case it now designates the
row itself.  Hence a row whose forward link was not absent has a non-absent forward link as
the new tail, and in either case no traversal satisfies the listed conditions of the
dataset invariant after the call. -/
theorem append_linked_row (d : dataset) (r : Nat) (m : Heap) :
    ∃ d1 m1, dataset_append_row (some d) (some r) m = (0, some d1, m1)
      ∧ d1.last = some r
      ∧ (d.last ≠ some r → (m1.rows r).next = (m.rows r).next)
      ∧ (d.last = some r → (m1.rows r).next = some r)
      ∧ ((m.rows r).next ≠ none → (m1.rows r).next ≠ none)
      ∧ (((m.rows r).next ≠ none ∨ d.last = some r) →
          ∀ l, ¬ listed_invariant m1.rows d1 l) := by
  have key : ∃ d1 m1, dataset_append_row (some d) (some r) m = (0, some d1, m1)
      ∧ d1.last = some r
      ∧ (d.last ≠ some r → (m1.rows r).next = (m.rows r).next)
      ∧ (d.last = some r → (m1.rows r).next = some r) := by
    cases hl : d.last with
    | none =>
      refine ⟨⟨d.size + 1, some r, some r⟩, m, by simp [dataset_append_row, hl], rfl,
        fun _ => rfl, fun h => Option.noConfusion h⟩
    | some t =>
      simp only [dataset_append_row, hl]
      refine ⟨_, _, rfl, rfl, ?_, ?_⟩
      · intro hne
        have hrt : r ≠ t := fun e => hne (by rw [e])
        simp [Function.update_apply, hrt]
      · intro he
        have hrt : t = r := Option.some.inj he
        subst hrt
        simp [Function.update_apply]
  obtain ⟨d1, m1, happ, hlast, hkeep, hself⟩ := key
  have hnon : (m.rows r).next ≠ none → (m1.rows r).next ≠ none := by
    intro hn
    by_cases he : d.last = some r
    · rw [hself he]
      exact fun h => Option.noConfusion h
    · rw [hkeep he]
      exact hn
  refine ⟨d1, m1, happ, hlast, hkeep, hself, hnon, ?_⟩
  intro hcase l hinv
  have htail := hinv.2.2.1 r hlast
  rcases hcase with h | h
  · exact hnon h htail
  · rw [hself h] at htail
    exact Option.noConfusion htail

/-! ## The generator of the test driver -/

/-- Claim C30.  For C `int` values `min ≤ max` whose span `max - min + 1` does not overflow
and a non-negative `int` value of `rand()`, `random_generate_integer` is defined, returns
`min + rand_value % (max - min + 1)`, and the result lies in `[min, max]`. -/
theorem random_integer_in_range (min max rand_value : Int)
    (hmin : -2147483648 ≤ min) (hle : min ≤ max) (hmax : max ≤ 2147483647)
    (hspan : max - min + 1 ≤ 2147483647) (hr0 : 0 ≤ rand_value) :
    random_generate_integer min max rand_value = some (min + rand_value % (max - min + 1))
      ∧ min ≤ min + rand_value % (max - min + 1)
      ∧ min + rand_value % (max - min + 1) ≤ max := by
  have hpos : 0 < max - min + 1 := by omega
  have h1 : wrap_int (max - min) = max - min := by
    unfold wrap_int; omega
  have h2 : wrap_int (max - min + 1) = max - min + 1 := by
    unfold wrap_int; omega
  have hm0 : 0 ≤ rand_value % (max - min + 1) := Int.emod_nonneg _ (by omega)
  have hm1 : rand_value % (max - min + 1) < max - min + 1 := Int.emod_lt_of_pos _ hpos
  have h3 : wrap_int (min + rand_value % (max - min + 1)) = min + rand_value % (max - min + 1) := by
    unfold wrap_int; omega
  have ht : Int.tmod rand_value (max - min + 1) = rand_value % (max - min + 1) :=
    Int.tmod_eq_emod hr0 (by omega)
  refine ⟨?_, by omega, by omega⟩
  unfold random_generate_integer
  rw [h1, h2, ht, h3]
  simp only [ite_eq_right_iff]
  intro h0
  omega

/-- Witness for claim C30: the driver's range `[10, 40]` and the value 12345 of `rand()`. -/
theorem random_integer_in_range_witness :
    ((-2147483648 : Int) ≤ 10 ∧ (10 : Int) ≤ 40 ∧ (40 : Int) ≤ 2147483647
        ∧ (40 : Int) - 10 + 1 ≤ 2147483647 ∧ (0 : Int) ≤ 12345)
      ∧ random_generate_integer 10 40 12345 = some 17
      ∧ (10 : Int) ≤ 10 + 12345 % (40 - 10 + 1) ∧ (10 : Int) + 12345 % (40 - 10 + 1) ≤ 40 :=
  ⟨by decide,
    (random_integer_in_range 10 40 12345 (by decide) (by decide) (by decide) (by decide)
      (by decide)).1,
    (random_integer_in_range 10 40 12345 (by decide) (by decide) (by decide) (by decide)
      (by decide)).2⟩

/-! ## The concrete pipelines at their failing inputs -/

/-- Claim C21, at the failing input.  `dataset_one_hot_encode` with alphabet size 6 succeeds
on the two-row sample source (values 0 and 5).  With the `last` field of the fresh dataset
holding the address of the stale row 2, the result has size 2 and an absent head: its
forward traversal has no row, so no result row corresponds to a source row.  With that field
reading as `NULL` the traversal has two rows, each with one vector entry per source
entry. -/
theorem one_hot_dirty_tail_loses_shape :
    (dataset_one_hot_encode 2 (some sample_source) 6 (sample_heap (some 2))).map (fun x => x.1)
        = some (some ⟨2, none, some 4⟩)
      ∧ (dataset_one_hot_encode 2 (some sample_source) 6 (sample_heap (some 2))).bind
          (fun x => x.1.bind (fun d => forward x.2.rows 2 d.iterator)) = some []
      ∧ (dataset_one_hot_encode 2 (some sample_source) 6 (sample_heap none)).bind
          (fun x => x.1.bind (fun d => (forward x.2.rows 2 d.iterator).map
            (fun l => l.map (fun p => (x.2.rows p).inputs))))
        = some [some ⟨[some ⟨some (Value.vector [1, 0, 0, 0, 0, 0])⟩]⟩,
            some ⟨[some ⟨some (Value.vector [0, 0, 0, 0, 0, 1])⟩]⟩] := by
  refine ⟨by decide, by decide, by decide⟩

/-- Claim C22, at the failing input.  Each of the three encoders returns the absent result
on an absent entry and on an entry with an absent value, under every allocation schedule.
Row 1 of the source of `gap_heap` has an absent input slot.  With the `last` field of the
fresh dataset reading as `NULL`, `dataset_string_encode` returns the absent result; with that
field holding the address of source row 0, the traversal leaves the source after row 0 and
the call has no result for any amount of fuel, so it does not return failure. -/
theorem absent_slot_dirty_tail_no_return :
    (∀ (tokens : Option (List Char)) (n : Int) (a : Alloc),
        data_entry_int_encode none tokens n a = some (none, a)
          ∧ data_entry_int_encode (some ⟨none⟩) tokens n a = some (none, a)
          ∧ data_entry_string_encode none tokens n a = some (none, a)
          ∧ data_entry_string_encode (some ⟨none⟩) tokens n a = some (none, a)
          ∧ data_entry_one_hot_encode none tokens n a = some (none, a)
          ∧ data_entry_one_hot_encode (some ⟨none⟩) tokens n a = some (none, a))
      ∧ forward (gap_heap (some 0)).rows 2 sample_source.iterator = some [0, 1]
      ∧ (dataset_string_encode 2 (some sample_source) (gap_heap none)).map (fun x => x.1)
        = some none
      ∧ ∀ fuel : Nat, dataset_string_encode fuel (some sample_source) (gap_heap (some 0))
        = none := by
  refine ⟨fun _ _ _ => ⟨rfl, rfl, rfl, rfl, rfl, rfl⟩, by decide, by decide, ?_⟩
  intro fuel
  rcases fuel with _ | _ | fuel <;> rfl

/-- Claim C23, at the failing input.  The source of `digits_heap` has the inputs 12 and 30
and the output 42.  With the `last` field of the fresh datasets holding the address of the
stale row 1, `dataset_string_encode` returns a dataset with an absent head, and
`dataset_int_encode` of it over the driver's alphabet returns a dataset of size 0 with no
row.  With that field reading as `NULL` the result has one row with the inputs 1, 2, 3, 0
and the outputs 4, 2. -/
theorem digits_dirty_tail_loses_rows :
    ((dataset_string_encode 1 (some single_source) (digits_heap (some 1))).bind
          (fun x => dataset_int_encode 1 x.1 (some driver_tokens) 12 x.2)).map (fun x => x.1)
        = some (some ⟨0, none, some 1⟩)
      ∧ ((dataset_string_encode 1 (some single_source) (digits_heap none)).bind
          (fun x => dataset_int_encode 1 x.1 (some driver_tokens) 12 x.2)).bind
          (fun x => x.1.bind (fun d => (forward x.2.rows 1 d.iterator).map
            (fun l => l.map (fun p => ((x.2.rows p).inputs, (x.2.rows p).outputs)))))
        = some [(some ⟨[some ⟨some (Value.int 1)⟩, some ⟨some (Value.int 2)⟩,
              some ⟨some (Value.int 3)⟩, some ⟨some (Value.int 0)⟩]⟩,
            some ⟨[some ⟨some (Value.int 4)⟩, some ⟨some (Value.int 2)⟩]⟩)] := by
  refine ⟨by decide, by decide⟩

/-- Claim C24, at the failing input.  The source of `minus_heap` holds the text "-7", whose
character '-' is not in the driver's alphabet.  With the `last` field of the fresh datasets
holding the address of the stale row 1, `dataset_int_encode` returns a dataset with an
absent head and `dataset_one_hot_encode` of it succeeds, with a dataset of size 0.  With that
field reading as `NULL` the one-hot stage returns the absent result. -/
theorem sentinel_dirty_tail_accepted :
    ('-' ∉ driver_tokens.take 12)
      ∧ ((dataset_int_encode 1 (some single_source) (some driver_tokens) 12
            (minus_heap (some 1))).bind
          (fun x => dataset_one_hot_encode 1 x.1 12 x.2)).map (fun x => x.1)
        = some (some ⟨0, none, some 1⟩)
      ∧ ((dataset_int_encode 1 (some single_source) (some driver_tokens) 12
            (minus_heap none)).bind
          (fun x => dataset_one_hot_encode 1 x.1 12 x.2)).map (fun x => x.1)
        = some none := by
  refine ⟨by decide, by decide, by decide⟩


/-! ## Safety of the array accesses -/

theorem encode_each_in_range_of_length (tokens : Option (List Char)) (n : Int) (enc : Encoder)
    (raw_size : Nat) (l : List (Option data_entry)) (i : Nat) (acc : EncodeAcc)
    (hlen : acc.entries_collection.length = raw_size) (hi : i + l.length = raw_size) :
    encode_each_in_range tokens n enc raw_size l i acc := by
  induction l generalizing i acc with
  | nil => simp [encode_each_in_range]
  | cons e rest ih =>
    have h1 : (e :: rest).length = rest.length + 1 := rfl
    unfold encode_each_in_range
    refine ⟨by omega, by omega, ?_⟩
    cases hr : enc e tokens n acc.alloc with
    | none => trivial
    | some res =>
      obtain ⟨out, a1⟩ := res
      cases out with
      | none => exact ih (i + 1) _ (by simp [hlen]) (by omega)
      | some c => exact ih (i + 1) _ (by simp [hlen]) (by omega)

theorem encode_each_flag_kept (tokens : Option (List Char)) (n : Int) (enc : Encoder)
    (l : List (Option data_entry)) (i : Nat) (acc acc1 : EncodeAcc)
    (h : acc.failed = true)
    (hrun : encode_each tokens n enc l i acc = some acc1) : acc1.failed = true := by
  induction l generalizing i acc with
  | nil =>
    simp only [encode_each, Option.some.injEq] at hrun
    subst hrun
    exact h
  | cons e rest ih =>
    unfold encode_each at hrun
    cases hr : enc e tokens n acc.alloc with
    | none =>
      rw [hr] at hrun
      exact Option.noConfusion hrun
    | some res =>
      obtain ⟨out, a1⟩ := res
      rw [hr] at hrun
      cases out with
      | none => exact ih (i + 1) _ rfl hrun
      | some c =>
        refine ih (i + 1) _ ?_ hrun
        exact h

/-- Whatever the encoder and the allocator do, a first loop that ends with `failed` unset
has filled every element of the temporary array with a present collection, and the running
size is the sum of their sizes. -/
theorem encode_each_shape (tokens : Option (List Char)) (n : Int) (enc : Encoder)
    (l : List (Option data_entry)) (done : List (Option data_entries)) (sz : Int) (fl : Bool)
    (a : Alloc) (acc1 : EncodeAcc)
    (hrun : encode_each tokens n enc l done.length
      ⟨done ++ List.replicate l.length none, sz, fl, a⟩ = some acc1)
    (hok : acc1.failed = false) :
    ∃ cs : List data_entries, acc1.entries_collection = done ++ cs.map some
      ∧ acc1.encoded_entries_size = sz + (cs.map (fun c => c.size)).sum := by
  induction l generalizing done sz fl a with
  | nil =>
    simp only [encode_each, Option.some.injEq] at hrun
    subst hrun
    exact ⟨[], by simp, by simp⟩
  | cons e rest ih =>
    unfold encode_each at hrun
    cases hr : enc e tokens n a with
    | none =>
      simp only [hr] at hrun
      exact Option.noConfusion hrun
    | some res =>
      obtain ⟨out, a1⟩ := res
      simp only [hr] at hrun
      cases out with
      | none =>
        have := encode_each_flag_kept tokens n enc rest _ _ acc1 rfl hrun
        rw [hok] at this
        exact Bool.noConfusion this
      | some c =>
        simp only [List.length_cons, List.replicate_succ, set_length_append] at hrun
        have h1 := ih (done ++ [some c]) (sz + c.size) fl a1
        simp only [List.length_append, List.length_singleton, List.append_assoc,
          List.singleton_append] at h1
        obtain ⟨cs, hcs, hsz⟩ := h1 hrun
        refine ⟨c :: cs, ?_, ?_⟩
        · simpa using hcs
        · rw [hsz]
          simp only [List.map_cons, List.sum_cons]
          ring

theorem flatten_inner_in_range_of_room (es done xs rest : List (Option data_entry))
    (hx : xs.length = es.length) :
    flatten_inner_in_range es done.length (done ++ xs ++ rest) := by
  induction es generalizing done xs with
  | nil => simp [flatten_inner_in_range]
  | cons e es ih =>
    cases xs with
    | nil => simp at hx
    | cons x xs =>
      have hx2 : xs.length = es.length := by simpa using hx
      have h0 := ih (done ++ [e]) xs hx2
      simp only [List.length_append, List.length_singleton, List.append_assoc,
        List.singleton_append] at h0
      simp only [flatten_inner_in_range, List.append_assoc, List.cons_append,
        set_length_append, List.length_append, List.length_cons]
      exact ⟨by omega, h0⟩

/-- The flattening step stays inside the destination array when the array has one slot for
every entry of the collections still to be copied. -/
theorem flatten_outer_in_range_of_room (cs : List data_entries)
    (done : List (Option data_entry)) :
    flatten_outer_in_range (cs.map some) done.length
      (done ++ List.replicate ((cs.map (fun c => c.entries)).flatten.length) none) := by
  induction cs generalizing done with
  | nil => simp [flatten_outer_in_range]
  | cons c cs ih =>
    have h1 := ih (done ++ c.entries)
    have h2 := flatten_inner_eq c.entries done (List.replicate c.entries.length none)
      (List.replicate ((cs.map (fun c => c.entries)).flatten.length) none) (by simp)
    have h3 := flatten_inner_in_range_of_room c.entries done
      (List.replicate c.entries.length none)
      (List.replicate ((cs.map (fun c => c.entries)).flatten.length) none) (by simp)
    simp only [List.length_append] at h1
    simp only [List.map_cons, List.flatten_cons, List.length_append, List.replicate_add,
      flatten_outer_in_range]
    rw [← List.append_assoc, h2]
    refine ⟨h3, ?_⟩
    simp only [List.append_assoc] at h1 ⊢
    exact h1

theorem sum_sizes_eq (cs : List data_entries) :
    (cs.map (fun c => c.size)).sum = (((cs.map (fun c => c.entries)).flatten.length : Nat) : Int) := by
  induction cs with
  | nil => simp
  | cons c cs ih =>
    simp only [List.map_cons, List.sum_cons, ih, List.flatten_cons, List.length_append]
    simp only [data_entries.size]
    push_cast
    rfl

/-- Every array access of `data_entries_encode` is inside its array, for every source
collection, every encoder and every allocation schedule. -/
theorem data_entries_encode_in_range_all (raw : data_entries) (tokens : Option (List Char))
    (n : Int) (enc : Encoder) (a : Alloc) :
    data_entries_encode_in_range raw tokens n enc a := by
  unfold data_entries_encode_in_range data_entries_collection_create
  cases hm : malloc a with
  | mk ok a1 =>
    cases ok with
    | false => trivial
    | true =>
      have hsize : raw.size.toNat = raw.entries.length := by simp [data_entries.size]
      simp only [hsize]
      refine ⟨encode_each_in_range_of_length tokens n enc _ _ 0 _ (by simp) (by simp), ?_⟩
      cases hrun : encode_each tokens n enc raw.entries 0
          ⟨List.replicate raw.entries.length none, 0, false, a1⟩ with
      | none => trivial
      | some acc =>
        cases hf : acc.failed with
        | true => simp [hf]
        | false =>
          show (if acc.failed = true then True
            else
              match data_entries_create acc.encoded_entries_size acc.alloc with
              | (none, _) => True
              | (some encoded_entries, _) =>
                flatten_outer_in_range acc.entries_collection 0 encoded_entries.entries)
          rw [if_neg (by simp [hf])]
          obtain ⟨cs, hcs, hsz⟩ := encode_each_shape tokens n enc raw.entries [] 0 false a1 acc
            (by simpa using hrun) hf
          unfold data_entries_create
          cases hm1 : malloc acc.alloc with
          | mk ok1 a2 =>
            cases ok1 with
            | false => trivial
            | true =>
              cases hm2 : malloc a2 with
              | mk ok2 a3 =>
                cases ok2 with
                | false => simp only [hm2]
                | true =>
                  rw [hsz, zero_add, sum_sizes_eq]
                  have hnn : ¬ ((((cs.map (fun c => c.entries)).flatten.length : Nat) : Int) < 0) := by
                    omega
                  simp only [hm2, hnn, if_false, Int.toNat_ofNat, hcs, List.nil_append]
                  have := flatten_outer_in_range_of_room cs []
                  simpa using this

theorem int_encode_fill_in_range_of_room (tokens : Option (List Char)) (n : Int)
    (text : List Char) (done rest : List (Option data_entry)) (a : Alloc)
    (hx : rest.length = text.length) :
    int_encode_fill_in_range tokens n text done.length ⟨done ++ rest⟩ a := by
  induction text generalizing done rest a with
  | nil => simp [int_encode_fill_in_range]
  | cons c text ih =>
    cases rest with
    | nil => simp at hx
    | cons x rest =>
      have hx2 : rest.length = text.length := by simpa using hx
      unfold int_encode_fill_in_range
      refine ⟨by simp, ?_⟩
      cases hf : find_token_index c tokens n with
      | none => trivial
      | some index =>
        have h0 := ih (done ++ [(data_entry_create_int index a).1]) rest
          (data_entry_create_int index a).2 hx2
        simp only [List.length_append, List.length_singleton, List.append_assoc,
          List.singleton_append] at h0
        simp only [set_length_append]
        exact h0

/-! ## Safety of the row accesses -/

theorem reaches_next (nxt : Nat → Option Nat) (s : Option Nat) (p q : Nat)
    (h : reaches nxt s p) (hq : nxt p = some q) : reaches nxt s q := by
  induction h with
  | here p =>
    apply reaches.step
    rw [hq]
    exact reaches.here q
  | step p r _ ih => exact reaches.step p q (ih hq)

/-- A source row below the allocation frontier with both sides present is read safely by
`data_row_encode`. -/
theorem row_encode_null_free_of_present (raw : Nat) (tokens : Option (List Char)) (n : Int)
    (enc : Encoder) (m : Heap) (hlt : raw < m.brk) (hin : (m.rows raw).inputs ≠ none)
    (hout : (m.rows raw).outputs ≠ none) : row_encode_null_free raw tokens n enc m := by
  have hne : raw ≠ m.brk := Nat.ne_of_lt hlt
  unfold row_encode_null_free data_row_create
  cases hm : malloc m.alloc with
  | mk ok a1 =>
    cases ok with
    | false => trivial
    | true =>
      simp only [Function.update_apply, hne, if_false]
      refine ⟨hin, ?_⟩
      cases hr : data_entries_encode (m.rows raw).inputs tokens n enc a1 with
      | none => trivial
      | some res =>
        obtain ⟨o, a2⟩ := res
        cases o with
        | none => trivial
        | some ins => exact hout

/-- A successful `data_row_encode` returns the cell at the allocation frontier with both
sides present and no successor, and leaves every other cell as it was; this holds for every
encoder and every allocation schedule. -/
theorem data_row_encode_success (cur : Nat) (tokens : Option (List Char)) (n : Int)
    (enc : Encoder) (m m1 : Heap) (e : Nat)
    (h : data_row_encode (some cur) tokens n enc m = some (some e, m1)) :
    e = m.brk ∧ m1.brk = m.brk + 1 ∧ (m1.rows e).inputs ≠ none ∧ (m1.rows e).outputs ≠ none
      ∧ (m1.rows e).next = none ∧ (∀ q, q ≠ m.brk → m1.rows q = m.rows q)
      ∧ m1.junk = m.junk := by
  unfold data_row_encode data_row_create at h
  cases hm : malloc m.alloc with
  | mk ok a1 =>
    rw [hm] at h
    cases ok with
    | false =>
      simp only [Option.some.injEq, Prod.mk.injEq] at h
      exact Option.noConfusion h.1
    | true =>
      simp only at h
      cases hr : data_entries_encode
          ((Function.update m.rows m.brk blank_row cur).inputs) tokens n enc a1 with
      | none =>
        rw [hr] at h
        exact Option.noConfusion h
      | some res =>
        obtain ⟨o, a2⟩ := res
        rw [hr] at h
        cases o with
        | none =>
          simp only [Option.some.injEq, Prod.mk.injEq] at h
          exact Option.noConfusion h.1
        | some ins =>
          simp only at h
          cases hr2 : data_entries_encode
              ((Function.update (Function.update m.rows m.brk blank_row) m.brk
                { Function.update m.rows m.brk blank_row m.brk with inputs := some ins }
                cur).outputs) tokens n enc a2 with
          | none =>
            rw [hr2] at h
            exact Option.noConfusion h
          | some res2 =>
            obtain ⟨o2, a3⟩ := res2
            rw [hr2] at h
            cases o2 with
            | none =>
              simp only [Option.some.injEq, Prod.mk.injEq] at h
              exact Option.noConfusion h.1
            | some outs =>
              simp only [Option.some.injEq, Prod.mk.injEq] at h
              obtain ⟨he, hm1⟩ := h
              subst hm1
              subst he
              refine ⟨rfl, rfl, ?_, ?_, ?_, ?_, rfl⟩
              · simp
              · simp
              · simp [blank_row]
              · intro q hq
                simp [Function.update_apply, hq]

/-- Effect of `dataset_append_row` on the links, whatever the tail field holds: the row the
tail field designates gets `e` as successor and no other `next` link changes; both sides of
every row are kept. -/
theorem append_row_links (d : dataset) (e : Nat) (m : Heap) :
    ∃ d1 m2, dataset_append_row (some d) (some e) m = (0, some d1, m2)
      ∧ m2.brk = m.brk ∧ m2.junk = m.junk
      ∧ (∀ p, (m2.rows p).inputs = (m.rows p).inputs
          ∧ (m2.rows p).outputs = (m.rows p).outputs)
      ∧ (∀ p, (m2.rows p).next = if d.last = some p then some e else (m.rows p).next) := by
  cases hl : d.last with
  | none =>
    simp only [dataset_append_row, hl]
    refine ⟨_, _, rfl, rfl, rfl, fun p => ⟨rfl, rfl⟩, ?_⟩
    intro p
    simp
  | some t =>
    simp only [dataset_append_row, hl]
    refine ⟨_, _, rfl, rfl, rfl, ?_, ?_⟩
    · intro p
      simp only [Function.update_apply]
      by_cases h1 : p = e <;> by_cases h2 : p = t <;> by_cases h3 : e = t <;>
        simp_all [eq_comm]
    · intro p
      simp only [Function.update_apply, Option.some.injEq]
      by_cases h1 : p = e <;> by_cases h2 : p = t <;> by_cases h3 : e = t <;>
        simp_all [eq_comm]

/-- The loop of `dataset_encode` reads only present collections when the rows still to be
visited lie in a set of allocated rows with present sides that is closed under `next`; the
set grows by each encoded row, so the property survives a tail field that designates a source
row. -/
theorem encode_loop_null_free_of_closed (tokens : Option (List Char)) (n : Int)
    (enc : Encoder) (fuel : Nat) :
    ∀ (cur : Option Nat) (d : Option dataset) (m : Heap) (S : Nat → Prop),
      (∀ c, cur = some c → S c) →
      (∀ p, S p → p < m.brk ∧ (m.rows p).inputs ≠ none ∧ (m.rows p).outputs ≠ none
        ∧ ∀ q, (m.rows p).next = some q → S q) →
      encode_loop_null_free tokens n enc fuel cur d m := by
  induction fuel with
  | zero =>
    intro cur d m S _ _
    cases cur <;> simp [encode_loop_null_free]
  | succ fuel ih =>
    intro cur d m S hcur hS
    cases cur with
    | none => simp [encode_loop_null_free]
    | some c =>
      obtain ⟨hlt, hin, hout, hnext⟩ := hS c (hcur c rfl)
      unfold encode_loop_null_free
      refine ⟨row_encode_null_free_of_present c tokens n enc m hlt hin hout, ?_⟩
      cases hre : data_row_encode (some c) tokens n enc m with
      | none => trivial
      | some res =>
        obtain ⟨o, m1⟩ := res
        cases o with
        | none => trivial
        | some e =>
          obtain ⟨he, hbrk, hein, heout, henext, hframe, _⟩ :=
            data_row_encode_success c tokens n enc m m1 e hre
          cases d with
          | none => simp [dataset_append_row]
          | some d =>
            obtain ⟨d1, m2, happ, hbrk2, _, hsides, hlinks⟩ := append_row_links d e m1
            simp only [happ, ne_eq, not_true_eq_false, if_false]
            apply ih _ _ _ (fun p => S p ∨ p = e)
            · intro c1 hc1
              rw [hlinks c] at hc1
              have hce : c ≠ m.brk := Nat.ne_of_lt hlt
              by_cases ht : d.last = some c
              · rw [if_pos ht] at hc1
                exact Or.inr (Option.some.inj hc1).symm
              · rw [if_neg ht, hframe c hce] at hc1
                exact Or.inl (hnext c1 hc1)
            · intro p hp
              rcases hp with hp | hp
              · obtain ⟨hplt, hpin, hpout, hpnext⟩ := hS p hp
                have hpe : p ≠ m.brk := Nat.ne_of_lt hplt
                refine ⟨by omega, ?_, ?_, ?_⟩
                · rw [(hsides p).1, hframe p hpe]
                  exact hpin
                · rw [(hsides p).2, hframe p hpe]
                  exact hpout
                · intro q hq
                  rw [hlinks p] at hq
                  by_cases ht : d.last = some p
                  · rw [if_pos ht] at hq
                    exact Or.inr (Option.some.inj hq).symm
                  · rw [if_neg ht, hframe p hpe] at hq
                    exact Or.inl (hpnext q hq)
              · subst hp
                refine ⟨by omega, ?_, ?_, ?_⟩
                · rw [(hsides p).1]
                  exact hein
                · rw [(hsides p).2]
                  exact heout
                · intro q hq
                  rw [hlinks p] at hq
                  by_cases ht : d.last = some p
                  · rw [if_pos ht] at hq
                    exact Or.inr (Option.some.inj hq).symm
                  · rw [if_neg ht, henext] at hq
                    exact Option.noConfusion hq

theorem dataset_encode_null_free_of_present (fuel : Nat) (raw : dataset)
    (tokens : Option (List Char)) (n : Int) (enc : Encoder) (m : Heap)
    (hrows : ∀ p, reaches (fun q => (m.rows q).next) raw.iterator p →
      p < m.brk ∧ (m.rows p).inputs ≠ none ∧ (m.rows p).outputs ≠ none) :
    dataset_encode_null_free fuel raw tokens n enc m := by
  unfold dataset_encode_null_free dataset_create
  cases hm : malloc m.alloc with
  | mk ok a1 =>
    cases ok with
    | false => trivial
    | true =>
      apply encode_loop_null_free_of_closed tokens n enc fuel _ _ _
        (fun p => reaches (fun q => (m.rows q).next) raw.iterator p)
      · intro c hc
        rw [hc]
        exact reaches.here c
      · intro p hp
        obtain ⟨h1, h2, h3⟩ := hrows p hp
        exact ⟨h1, h2, h3, fun q hq => reaches_next _ _ p q hp hq⟩

theorem fresh_row_not_encodable (tokens : Option (List Char)) (n : Int) (enc : Encoder)
    (m0 m1 : Heap) (r : Nat) (hcreate : data_row_create m0 = (some r, m1))
    (hroom : (data_row_create m1).1 ≠ none) :
    ¬ row_encode_null_free r tokens n enc m1
      ∧ data_row_encode (some r) tokens n enc m1 = none := by
  unfold data_row_create at hcreate
  cases hm : malloc m0.alloc with
  | mk ok a1 =>
    rw [hm] at hcreate
    cases ok with
    | false =>
      simp only [Prod.mk.injEq] at hcreate
      exact Option.noConfusion hcreate.1
    | true =>
      simp only [Prod.mk.injEq, Option.some.injEq] at hcreate
      obtain ⟨hr, hm1⟩ := hcreate
      subst hm1
      subst hr
      unfold data_row_create at hroom
      unfold row_encode_null_free data_row_encode data_row_create
      cases hm2 : malloc a1 with
      | mk ok2 a2 =>
        simp only [hm2] at hroom
        cases ok2 with
        | false => exact absurd rfl hroom
        | true =>
          simp [Function.update_apply, blank_row, data_entries_encode]

/-- Claim C29.  When every row visited from the head of the source has been allocated and
has a present inputs collection and a present outputs collection, `dataset_encode` hands
`data_row_encode` only rows whose two collections are present when their size is read, and
this for every encoder (so for the three concrete ones), every allocation schedule and every
content of the unset tail field; every slot `data_entries_encode` reads or writes in its
first loop and every slot written when flattening is inside its array, the temporary array
holding no absent element when it is dereferenced; the writes of the index encoder stay
inside the collection it created, and the collection of size one the other two encoders
create has the slot 0 they write.  Without the precondition, on a row as returned by
`data_row_create`, `data_row_encode` reads the size of an absent collection and its behaviour
is undefined. -/
theorem encode_reads_present_in_range (fuel : Nat) (raw : dataset)
    (tokens : Option (List Char)) (n : Int) (enc : Encoder) (m : Heap)
    (hrows : ∀ p, reaches (fun q => (m.rows q).next) raw.iterator p →
      p < m.brk ∧ (m.rows p).inputs ≠ none ∧ (m.rows p).outputs ≠ none) :
    dataset_encode_null_free fuel raw tokens n enc m
      ∧ (∀ (c : data_entries) (a : Alloc), data_entries_encode_in_range c tokens n enc a)
      ∧ (∀ (t : List Char) (a a1 : Alloc) (c : data_entries),
          data_entries_create (t.length : Int) a = (some c, a1) →
            int_encode_fill_in_range tokens n t 0 c a1)
      ∧ (∀ (a a1 : Alloc) (c : data_entries),
          data_entries_create 1 a = (some c, a1) → 0 < c.entries.length)
      ∧ (∀ (m0 m1 : Heap) (r : Nat), data_row_create m0 = (some r, m1) →
          (data_row_create m1).1 ≠ none →
            ¬ row_encode_null_free r tokens n enc m1
              ∧ data_row_encode (some r) tokens n enc m1 = none) := by
  refine ⟨dataset_encode_null_free_of_present fuel raw tokens n enc m hrows,
    fun c a => data_entries_encode_in_range_all c tokens n enc a, ?_, ?_,
    fun m0 m1 r h1 h2 => fresh_row_not_encodable tokens n enc m0 m1 r h1 h2⟩
  · intro t a a1 c hc
    unfold data_entries_create at hc
    cases hm1 : malloc a with
    | mk ok1 b1 =>
      rw [hm1] at hc
      cases ok1 with
      | false =>
        simp only [Prod.mk.injEq] at hc
        exact Option.noConfusion hc.1
      | true =>
        simp only at hc
        cases hm2 : malloc b1 with
        | mk ok2 b2 =>
          rw [hm2] at hc
          cases ok2 with
          | false =>
            simp only [Prod.mk.injEq] at hc
            exact Option.noConfusion hc.1
          | true =>
            have hnn : ¬ ((t.length : Int) < 0) := by omega
            simp only [hnn, if_false, Int.toNat_ofNat, Prod.mk.injEq, Option.some.injEq] at hc
            obtain ⟨hc1, hc2⟩ := hc
            subst hc1
            subst hc2
            have := int_encode_fill_in_range_of_room tokens n t []
              (List.replicate t.length none) b2 (by simp)
            simpa using this
  · intro a a1 c hc
    unfold data_entries_create at hc
    cases hm1 : malloc a with
    | mk ok1 b1 =>
      rw [hm1] at hc
      cases ok1 with
      | false =>
        simp only [Prod.mk.injEq] at hc
        exact Option.noConfusion hc.1
      | true =>
        simp only at hc
        cases hm2 : malloc b1 with
        | mk ok2 b2 =>
          rw [hm2] at hc
          cases ok2 with
          | false =>
            simp only [Prod.mk.injEq] at hc
            exact Option.noConfusion hc.1
          | true =>
            have hnn : ¬ ((1 : Int) < 0) := by decide
            simp only [hnn, if_false, Prod.mk.injEq, Option.some.injEq] at hc
            obtain ⟨hc1, _⟩ := hc
            subst hc1
            simp

/-- Witness for claim C29: the two-row sample source, with the unset tail field designating
its first row and the decimal-string encoder. -/
theorem encode_reads_present_in_range_witness :
    dataset_encode_null_free 5 sample_source none 0 data_entry_string_encode
        (sample_heap (some 0))
      ∧ (∀ (c : data_entries) (a : Alloc),
          data_entries_encode_in_range c none 0 data_entry_string_encode a)
      ∧ (∀ (t : List Char) (a a1 : Alloc) (c : data_entries),
          data_entries_create (t.length : Int) a = (some c, a1) →
            int_encode_fill_in_range none 0 t 0 c a1)
      ∧ (∀ (a a1 : Alloc) (c : data_entries),
          data_entries_create 1 a = (some c, a1) → 0 < c.entries.length)
      ∧ (∀ (m0 m1 : Heap) (r : Nat), data_row_create m0 = (some r, m1) →
          (data_row_create m1).1 ≠ none →
            ¬ row_encode_null_free r none 0 data_entry_string_encode m1
              ∧ data_row_encode (some r) none 0 data_entry_string_encode m1 = none) :=
  encode_reads_present_in_range 5 sample_source none 0 data_entry_string_encode
    (sample_heap (some 0)) (by
      intro p hp
      have h0 : p = 0 ∨ p = 1 := by
        cases hp with
        | here => exact Or.inl rfl
        | step _ _ h1 =>
          have h2 : reaches (fun q => ((sample_heap (some 0)).rows q).next) (some 1) p := h1
          cases h2 with
          | here => exact Or.inr rfl
          | step _ _ h3 =>
            have h4 : reaches (fun q => ((sample_heap (some 0)).rows q).next) none p := h3
            cases h4
      rcases h0 with h | h <;> subst h <;> decide)

/-! ## The content of the unset tail field is carried along -/

theorem data_row_encode_junk (raw : Option Nat) (tokens : Option (List Char)) (n : Int)
    (enc : Encoder) (m m1 : Heap) (o : Option Nat)
    (h : data_row_encode raw tokens n enc m = some (o, m1)) : m1.junk = m.junk := by
  unfold data_row_encode data_row_create at h
  cases raw with
  | none => exact Option.noConfusion h
  | some cur =>
    simp only at h
    cases hm : malloc m.alloc with
    | mk ok a1 =>
      rw [hm] at h
      cases ok with
      | false =>
        simp only [Option.some.injEq, Prod.mk.injEq] at h
        rw [← h.2]
      | true =>
        simp only at h
        cases hr : data_entries_encode
            ((Function.update m.rows m.brk blank_row cur).inputs) tokens n enc a1 with
        | none =>
          rw [hr] at h
          exact Option.noConfusion h
        | some res =>
          obtain ⟨o1, a2⟩ := res
          rw [hr] at h
          cases o1 with
          | none =>
            simp only [Option.some.injEq, Prod.mk.injEq] at h
            rw [← h.2]
            rfl
          | some ins =>
            simp only at h
            cases hr2 : data_entries_encode
                ((Function.update (Function.update m.rows m.brk blank_row) m.brk
                  { Function.update m.rows m.brk blank_row m.brk with inputs := some ins }
                  cur).outputs) tokens n enc a2 with
            | none =>
              rw [hr2] at h
              exact Option.noConfusion h
            | some res2 =>
              obtain ⟨o2, a3⟩ := res2
              rw [hr2] at h
              cases o2 with
              | none =>
                simp only [Option.some.injEq, Prod.mk.injEq] at h
                rw [← h.2]
                rfl
              | some outs =>
                simp only [Option.some.injEq, Prod.mk.injEq] at h
                rw [← h.2]

theorem destroy_rows_junk (fuel : Nat) (cur : Option Nat) (m m1 : Heap)
    (h : destroy_rows fuel cur m = some m1) : m1.junk = m.junk := by
  induction fuel generalizing cur m with
  | zero =>
    cases cur with
    | none =>
      simp only [destroy_rows, Option.some.injEq] at h
      rw [← h]
    | some c => simp [destroy_rows] at h
  | succ fuel ih =>
    cases cur with
    | none =>
      simp only [destroy_rows, Option.some.injEq] at h
      rw [← h]
    | some c =>
      simp only [destroy_rows] at h
      rw [ih _ _ h]
      rfl

theorem dataset_destroy_junk (fuel : Nat) (d : Option dataset) (m m1 : Heap)
    (h : dataset_destroy fuel d m = some m1) : m1.junk = m.junk := by
  cases d with
  | none =>
    simp only [dataset_destroy, Option.some.injEq] at h
    rw [← h]
  | some d => exact destroy_rows_junk fuel _ m m1 h

theorem encode_loop_junk (tokens : Option (List Char)) (n : Int) (enc : Encoder)
    (dfuel fuel : Nat) (cur : Option Nat) (d : Option dataset) (m m1 : Heap)
    (res : Option dataset)
    (h : dataset_encode_loop tokens n enc dfuel fuel cur d m = some (res, m1)) :
    m1.junk = m.junk := by
  induction fuel generalizing cur d m with
  | zero =>
    cases cur with
    | none =>
      simp only [dataset_encode_loop, Option.some.injEq, Prod.mk.injEq] at h
      rw [← h.2]
    | some c => simp [dataset_encode_loop] at h
  | succ fuel ih =>
    cases cur with
    | none =>
      simp only [dataset_encode_loop, Option.some.injEq, Prod.mk.injEq] at h
      rw [← h.2]
    | some c =>
      unfold dataset_encode_loop at h
      cases hre : data_row_encode (some c) tokens n enc m with
      | none =>
        rw [hre] at h
        exact Option.noConfusion h
      | some r1 =>
        obtain ⟨o, m2⟩ := r1
        have hj2 := data_row_encode_junk (some c) tokens n enc m m2 o hre
        rw [hre] at h
        cases o with
        | none =>
          simp only [Option.map_eq_some', Prod.mk.injEq] at h
          obtain ⟨m3, hd, _, h3⟩ := h
          rw [← h3, dataset_destroy_junk dfuel d m2 m3 hd, hj2]
        | some e =>
          simp only at h
          cases d with
          | none =>
            simp only [dataset_append_row, ne_eq, Int.reduceNeg, neg_eq_zero, one_ne_zero,
              not_false_eq_true, if_true, Option.map_eq_some', Prod.mk.injEq] at h
            obtain ⟨m3, hd, _, h3⟩ := h
            rw [← h3, dataset_destroy_junk dfuel none m2 m3 hd, hj2]
          | some d =>
            obtain ⟨d1, m3, happ, _, hj3, _, _⟩ := append_row_links d e m2
            simp only [happ, ne_eq, not_true_eq_false, if_false] at h
            rw [ih _ _ _ h, hj3, hj2]

/-- The transform does not write the content of uninitialised fields: `junk` is the same
after `dataset_encode` as before. -/
theorem dataset_encode_junk (fuel : Nat) (raw : Option dataset) (tokens : Option (List Char))
    (n : Int) (enc : Encoder) (m m1 : Heap) (res : Option dataset)
    (h : dataset_encode fuel raw tokens n enc m = some (res, m1)) : m1.junk = m.junk := by
  unfold dataset_encode dataset_create at h
  cases raw with
  | none =>
    simp only [Option.some.injEq, Prod.mk.injEq] at h
    rw [← h.2]
  | some raw =>
    simp only at h
    cases hm : malloc m.alloc with
    | mk ok a1 =>
      rw [hm] at h
      cases ok with
      | false =>
        simp only [Option.some.injEq, Prod.mk.injEq] at h
        rw [← h.2]
      | true =>
        simp only at h
        rw [encode_loop_junk tokens n enc fuel fuel _ _ _ m1 res h]

/-! ## The three encoders as per-entry results -/

theorem string_encode_results (tokens : Option (List Char)) (n v : Int) :
    data_entry_string_encode (some ⟨some (Value.int v)⟩) tokens n []
      = some (string_results (some ⟨some (Value.int v)⟩), []) := rfl

theorem one_hot_encode_results (tokens : Option (List Char)) (n v : Int) :
    data_entry_one_hot_encode (some ⟨some (Value.int v)⟩) tokens n []
      = some (one_hot_results n (some ⟨some (Value.int v)⟩), []) := by
  by_cases h : 0 ≤ v ∧ v < n
  · rw [one_hot_encode_eq tokens n v h.1 h.2]
    simp [one_hot_results, one_hot_of, h]
  · have hv : v < 0 ∨ v ≥ n := by omega
    simp only [one_hot_results, h, if_false]
    by_cases hn : n ≤ 0
    · simp [data_entry_one_hot_encode, hn]
    · simp [data_entry_one_hot_encode, hn, hv]

theorem int_encode_results (ts : List Char) (n : Nat) (hn : n ≤ ts.length) (t : List Char) :
    data_entry_int_encode (some ⟨some (Value.text t)⟩) (some ts) (n : Int) []
      = some (int_results ts n (some ⟨some (Value.text t)⟩), []) := by
  apply data_entry_int_encode_eq (some ts) (n : Int) (token_code ts n) t
  intro c _
  exact find_token_index_take c ts n hn

/-- When every per-entry result that is present is the one-entry collection holding `g e`,
a defined concatenation is the list of the `g e`, one per source entry and in source
order. -/
theorem concat_outputs_singletons (r : Option data_entry → Option data_entries)
    (g : Option data_entry → Option data_entry) (l xs : List (Option data_entry))
    (h : ∀ e ∈ l, r e = none ∨ r e = some ⟨[g e]⟩) (hc : concat_outputs r l = some xs) :
    xs = l.map g := by
  induction l generalizing xs with
  | nil =>
    simp only [concat_outputs, Option.some.injEq] at hc
    rw [← hc]
    rfl
  | cons e rest ih =>
    unfold concat_outputs at hc
    cases hr : r e with
    | none => simp [hr] at hc
    | some c =>
      cases hrest : concat_outputs r rest with
      | none => simp [hr, hrest] at hc
      | some tail =>
        simp only [hr, hrest, Option.some.injEq] at hc
        have htail := ih tail (fun x hx => h x (List.mem_cons_of_mem e hx)) hrest
        rcases h e (List.mem_cons_self e rest) with h1 | h1
        · rw [hr] at h1
          exact Option.noConfusion h1
        · rw [hr] at h1
          have hc1 : c = ⟨[g e]⟩ := Option.some.inj h1
          rw [← hc, hc1, htail]
          rfl

theorem row_outputs_singletons (r : Option data_entry → Option data_entries)
    (g : Option data_entry → Option data_entry) (row : data_row) (ins outs x y : data_entries)
    (hin : row.inputs = some ins) (hout : row.outputs = some outs)
    (h : ∀ e ∈ ins.entries ++ outs.entries, r e = none ∨ r e = some ⟨[g e]⟩)
    (hr : row_outputs r row = some (x, y)) :
    x = ⟨ins.entries.map g⟩ ∧ y = ⟨outs.entries.map g⟩ := by
  unfold row_outputs at hr
  rw [hin, hout] at hr
  simp only at hr
  cases h1 : concat_outputs r ins.entries with
  | none => simp [h1] at hr
  | some xs =>
    cases h2 : concat_outputs r outs.entries with
    | none => simp [h1, h2] at hr
    | some ys =>
      simp only [h1, h2, Option.some.injEq, Prod.mk.injEq] at hr
      have hx := concat_outputs_singletons r g ins.entries xs
        (fun e he => h e (List.mem_append_left _ he)) h1
      have hy := concat_outputs_singletons r g outs.entries ys
        (fun e he => h e (List.mem_append_right _ he)) h2
      rw [← hr.1, ← hr.2, hx, hy]
      exact ⟨rfl, rfl⟩

/-- With the tail field of the fresh dataset reading as `NULL` and a per-entry encoder whose
present results are one-entry collections: a successful `dataset_encode` returns one row
per source row, in order, whose sides have one entry per source entry, the k-th being the
encoding `g` of the k-th source entry. -/
theorem encode_shape_generic (tokens : Option (List Char)) (n : Int) (enc : Encoder)
    (r : Option data_entry → Option data_entries) (g : Option data_entry → Option data_entry)
    (m : Heap) (raw : dataset) (src : List Nat) (fuel : Nat)
    (hj : m.junk = none) (ha : m.alloc = [])
    (hsrc : forward m.rows src.length raw.iterator = some src)
    (hrows : ∀ p ∈ src, encodable tokens n enc r m.rows m.brk p)
    (hone : ∀ p ∈ src, ∀ ins outs, (m.rows p).inputs = some ins →
      (m.rows p).outputs = some outs →
      ∀ e ∈ ins.entries ++ outs.entries, r e = none ∨ r e = some ⟨[g e]⟩)
    (hfuel : src.length ≤ fuel) (d1 : dataset) (m1 : Heap)
    (hrun : dataset_encode fuel (some raw) tokens n enc m = some (some d1, m1)) :
    d1.size = (src.length : Int)
      ∧ forward m1.rows src.length d1.iterator = some (List.range' m.brk src.length)
      ∧ m1.alloc = [] ∧ m1.brk = m.brk + src.length
      ∧ ∀ i p, src[i]? = some p → ∃ ins outs, (m.rows p).inputs = some ins
          ∧ (m.rows p).outputs = some outs
          ∧ (m1.rows (m.brk + i)).inputs = some ⟨ins.entries.map g⟩
          ∧ (m1.rows (m.brk + i)).outputs = some ⟨outs.entries.map g⟩ := by
  obtain ⟨res, m2, heq, _, hsucc, hfail⟩ :=
    dataset_encode_clean tokens n enc r m raw src fuel hj ha hsrc hrows hfuel
  rw [heq] at hrun
  simp only [Option.some.injEq, Prod.mk.injEq] at hrun
  obtain ⟨hres, hm⟩ := hrun
  subst hm
  have hall : ∀ p ∈ src, row_outputs r (m.rows p) ≠ none := by
    intro p hp hn
    have := hfail ⟨p, hp, hn⟩
    rw [this] at hres
    exact Option.noConfusion hres
  obtain ⟨d2, hd2, halloc, hbrk, _, hwf, hcontent⟩ := hsucc hall
  rw [hd2] at hres
  have hd : d2 = d1 := Option.some.inj hres
  subst hd
  obtain ⟨⟨hfw, hsize, _⟩, _⟩ := hwf
  simp only [List.length_range'] at hfw hsize
  refine ⟨hsize, hfw, halloc, hbrk, ?_⟩
  intro i p hp
  obtain ⟨x, y, hro, hx, hy⟩ := hcontent i p hp
  have hmem := getElem?_mem_of_some src i p hp
  obtain ⟨_, ins, outs, hin, hout, _⟩ := hrows p hmem
  obtain ⟨hx1, hy1⟩ := row_outputs_singletons r g (m.rows p) ins outs x y hin hout
    (hone p hmem ins outs hin hout) hro
  refine ⟨ins, outs, hin, hout, ?_, ?_⟩
  · rw [hx, hx1]
  · rw [hy, hy1]

/-- With the tail field of the fresh dataset reading as `NULL` (no allocation failure), on a
source whose entries are integers: `dataset_string_encode` succeeds, and its result and
every successful result of `dataset_one_hot_encode` have one row per source row, in order;
each side of a result row has one entry per entry of that side of the source row, the k-th
being the decimal text, respectively the one-hot vector of length `n`, of the k-th source
integer. -/
theorem encode_shape_clean (m : Heap) (raw : dataset) (src : List Nat) (fuel : Nat)
    (hj : m.junk = none) (ha : m.alloc = [])
    (hsrc : forward m.rows src.length raw.iterator = some src)
    (hrows : ∀ p ∈ src, p < m.brk ∧ ∃ ins outs, (m.rows p).inputs = some ins
      ∧ (m.rows p).outputs = some outs ∧ holds_ints ins ∧ holds_ints outs)
    (hfuel : src.length ≤ fuel) :
    (∃ d1 m1, dataset_string_encode fuel (some raw) m = some (some d1, m1)
        ∧ d1.size = (src.length : Int)
        ∧ forward m1.rows src.length d1.iterator = some (List.range' m.brk src.length)
        ∧ ∀ i p, src[i]? = some p → ∃ ins outs, (m.rows p).inputs = some ins
            ∧ (m.rows p).outputs = some outs
            ∧ (m1.rows (m.brk + i)).inputs = some ⟨ins.entries.map string_of⟩
            ∧ (m1.rows (m.brk + i)).outputs = some ⟨outs.entries.map string_of⟩)
      ∧ (∀ (n : Int) (d1 : dataset) (m1 : Heap),
          dataset_one_hot_encode fuel (some raw) n m = some (some d1, m1) →
            d1.size = (src.length : Int)
              ∧ forward m1.rows src.length d1.iterator = some (List.range' m.brk src.length)
              ∧ ∀ i p, src[i]? = some p → ∃ ins outs, (m.rows p).inputs = some ins
                  ∧ (m.rows p).outputs = some outs
                  ∧ (m1.rows (m.brk + i)).inputs = some ⟨ins.entries.map (one_hot_of n)⟩
                  ∧ (m1.rows (m.brk + i)).outputs
                      = some ⟨outs.entries.map (one_hot_of n)⟩) := by
  have hent : ∀ p ∈ src, ∀ ins outs, (m.rows p).inputs = some ins →
      (m.rows p).outputs = some outs →
      ∀ e ∈ ins.entries ++ outs.entries, ∃ v : Int, e = some ⟨some (Value.int v)⟩ := by
    intro p hp ins outs hin hout e he
    obtain ⟨_, ins1, outs1, hin1, hout1, hi, ho⟩ := hrows p hp
    rw [hin] at hin1
    rw [hout] at hout1
    have e1 : ins = ins1 := Option.some.inj hin1
    have e2 : outs = outs1 := Option.some.inj hout1
    subst e1
    subst e2
    rcases List.mem_append.mp he with h | h
    · exact hi e h
    · exact ho e h
  have henc1 : ∀ p ∈ src, encodable none 0 data_entry_string_encode string_results
      m.rows m.brk p := by
    intro p hp
    obtain ⟨hlt, ins, outs, hin, hout, _, _⟩ := hrows p hp
    refine ⟨hlt, ins, outs, hin, hout, ?_⟩
    intro e he
    obtain ⟨v, hv⟩ := hent p hp ins outs hin hout e he
    subst hv
    rfl
  have henc2 : ∀ n : Int, ∀ p ∈ src, encodable none n data_entry_one_hot_encode
      (one_hot_results n) m.rows m.brk p := by
    intro n p hp
    obtain ⟨hlt, ins, outs, hin, hout, _, _⟩ := hrows p hp
    refine ⟨hlt, ins, outs, hin, hout, ?_⟩
    intro e he
    obtain ⟨v, hv⟩ := hent p hp ins outs hin hout e he
    subst hv
    exact one_hot_encode_results none n v
  constructor
  · obtain ⟨d1, m1, hrun, _⟩ :=
      encode_rows_clean none 0 data_entry_string_encode string_results m raw src fuel hj ha
        hsrc henc1
        (by
          intro p hp ins outs hin hout e he
          obtain ⟨v, hv⟩ := hent p hp ins outs hin hout e he
          subst hv
          simp [string_results])
        hfuel
    obtain ⟨h1, h2, _, _, h5⟩ :=
      encode_shape_generic none 0 data_entry_string_encode string_results string_of m raw src
        fuel hj ha hsrc henc1
        (by
          intro p hp ins outs hin hout e he
          obtain ⟨v, hv⟩ := hent p hp ins outs hin hout e he
          subst hv
          exact Or.inr rfl)
        hfuel d1 m1 hrun
    exact ⟨d1, m1, hrun, h1, h2, h5⟩
  · intro n d1 m1 hrun
    obtain ⟨h1, h2, _, _, h5⟩ :=
      encode_shape_generic none n data_entry_one_hot_encode (one_hot_results n) (one_hot_of n)
        m raw src fuel hj ha hsrc (henc2 n)
        (by
          intro p hp ins outs hin hout e he
          obtain ⟨v, hv⟩ := hent p hp ins outs hin hout e he
          subst hv
          by_cases h : 0 ≤ v ∧ v < n
          · exact Or.inr (by simp [one_hot_results, h])
          · exact Or.inl (by simp [one_hot_results, h]))
        hfuel d1 m1 hrun
    exact ⟨h1, h2, h5⟩

/-- With the tail field of the fresh dataset reading as `NULL` (no allocation failure), for
an encoder that returns the absent result on an absent entry and on an absent value, as the
three concrete encoders do: a source row with such a slot makes `dataset_encode` return the
absent result. -/
theorem encode_absent_slot_fails_clean (tokens : Option (List Char)) (n : Int) (enc : Encoder)
    (r : Option data_entry → Option data_entries) (m : Heap) (raw : dataset) (src : List Nat)
    (fuel : Nat) (hj : m.junk = none) (ha : m.alloc = [])
    (hsrc : forward m.rows src.length raw.iterator = some src)
    (hrows : ∀ p ∈ src, encodable tokens n enc r m.rows m.brk p)
    (hfuel : src.length ≤ fuel)
    (habs : ∀ a, enc none tokens n a = some (none, a)
      ∧ enc (some ⟨none⟩) tokens n a = some (none, a))
    (hslot : ∃ p ∈ src, ∃ ins outs, (m.rows p).inputs = some ins
      ∧ (m.rows p).outputs = some outs
      ∧ ∃ e ∈ ins.entries ++ outs.entries, e = none ∨ e = some ⟨none⟩) :
    ∃ m1, dataset_encode fuel (some raw) tokens n enc m = some (none, m1) := by
  obtain ⟨res, m1, heq, hiff⟩ :=
    encode_fails_iff_clean tokens n enc r m raw src fuel hj ha hsrc hrows hfuel
  obtain ⟨p, hp, ins, outs, hin, hout, e, he, hnone⟩ := hslot
  have hres : res = none := by
    apply hiff.mpr
    refine ⟨p, hp, ins, outs, hin, hout, e, he, ?_⟩
    obtain ⟨_, ins1, outs1, hin1, hout1, henc⟩ := hrows p hp
    rw [hin] at hin1
    rw [hout] at hout1
    have e1 : ins = ins1 := Option.some.inj hin1
    have e2 : outs = outs1 := Option.some.inj hout1
    subst e1
    subst e2
    have h1 := henc e he
    rcases hnone with h | h
    · subst h
      rw [(habs []).1] at h1
      simp only [Option.some.injEq, Prod.mk.injEq, and_true] at h1
      exact h1.symm
    · subst h
      rw [(habs []).2] at h1
      simp only [Option.some.injEq, Prod.mk.injEq, and_true] at h1
      exact h1.symm
  rw [hres] at heq
  exact ⟨m1, heq⟩

/-! ## Two-stage pipelines when the tail field reads as `NULL` -/

/-- One stage of a pipeline: with the tail field of the fresh dataset reading as `NULL`, no
allocation failure and every source row encodable with a present result, `dataset_encode`
returns the encoded rows at the addresses from `m.brk` on and leaves a memory in which the
next stage meets the same conditions. -/
theorem encode_stage_clean (tokens : Option (List Char)) (n : Int) (enc : Encoder)
    (r : Option data_entry → Option data_entries) (m : Heap) (raw : dataset) (src : List Nat)
    (fuel : Nat) (hj : m.junk = none) (ha : m.alloc = [])
    (hsrc : forward m.rows src.length raw.iterator = some src)
    (hrows : ∀ p ∈ src, encodable tokens n enc r m.rows m.brk p)
    (hok : ∀ p ∈ src, row_outputs r (m.rows p) ≠ none)
    (hfuel : src.length ≤ fuel) :
    ∃ d1 m1, dataset_encode fuel (some raw) tokens n enc m = some (some d1, m1)
      ∧ d1.size = (src.length : Int)
      ∧ forward m1.rows src.length d1.iterator = some (List.range' m.brk src.length)
      ∧ m1.alloc = [] ∧ m1.brk = m.brk + src.length ∧ m1.junk = none
      ∧ ∀ i p, src[i]? = some p → ∃ x y, row_outputs r (m.rows p) = some (x, y)
          ∧ (m1.rows (m.brk + i)).inputs = some x ∧ (m1.rows (m.brk + i)).outputs = some y := by
  obtain ⟨res, m1, heq, _, hsucc, _⟩ :=
    dataset_encode_clean tokens n enc r m raw src fuel hj ha hsrc hrows hfuel
  obtain ⟨d1, hd1, halloc, hbrk, _, hwf, hcontent⟩ := hsucc hok
  subst hd1
  obtain ⟨⟨hfw, hsize, _⟩, _⟩ := hwf
  simp only [List.length_range'] at hfw hsize
  have hjunk := dataset_encode_junk fuel (some raw) tokens n enc m m1 (some d1) heq
  exact ⟨d1, m1, heq, hsize, hfw, halloc, hbrk, by rw [hjunk, hj], hcontent⟩

theorem concat_outputs_flatMap (r : Option data_entry → Option data_entries)
    (f : Option data_entry → List (Option data_entry)) (l : List (Option data_entry))
    (h : ∀ e ∈ l, r e = some ⟨f e⟩) : concat_outputs r l = some (l.flatMap f) := by
  induction l with
  | nil => rfl
  | cons e rest ih =>
    have h1 := h e (List.mem_cons_self e rest)
    have h2 := ih (fun x hx => h x (List.mem_cons_of_mem e hx))
    simp only [concat_outputs, h1, h2, List.flatMap_cons]

theorem row_outputs_flatMap (r : Option data_entry → Option data_entries)
    (f : Option data_entry → List (Option data_entry)) (row : data_row) (ins outs : data_entries)
    (hin : row.inputs = some ins) (hout : row.outputs = some outs)
    (h : ∀ e ∈ ins.entries ++ outs.entries, r e = some ⟨f e⟩) :
    row_outputs r row = some (⟨ins.entries.flatMap f⟩, ⟨outs.entries.flatMap f⟩) := by
  have h1 := concat_outputs_flatMap r f ins.entries
    (fun e he => h e (List.mem_append_left _ he))
  have h2 := concat_outputs_flatMap r f outs.entries
    (fun e he => h e (List.mem_append_right _ he))
  simp only [row_outputs, hin, hout, h1, h2]

theorem flatMap_singleton_map {α β : Type} (f : α → β) (l : List α) :
    l.flatMap (fun e => [f e]) = l.map f := by
  induction l with
  | nil => rfl
  | cons e rest ih => simp only [List.flatMap_cons, ih, List.map_cons, List.singleton_append]

theorem range_getElem (b len i : Nat) (h : i < len) :
    (List.range' b len)[i]? = some (b + i) := by
  rw [List.getElem?_eq_getElem (by simpa using h)]
  simp

theorem range_mem (b len q : Nat) (h : q ∈ List.range' b len) :
    ∃ i, i < len ∧ q = b + i := by
  obtain ⟨h1, h2⟩ := List.mem_range'_1.mp h
  exact ⟨q - b, by omega, by omega⟩

theorem mem_getElem (l : List Nat) (p : Nat) (h : p ∈ l) : ∃ i, i < l.length ∧ l[i]? = some p := by
  obtain ⟨i, hi, hp⟩ := List.getElem_of_mem h
  exact ⟨i, hi, by rw [List.getElem?_eq_getElem hi, hp]⟩

theorem getElem_of_lt (l : List Nat) (i : Nat) (h : i < l.length) :
    ∃ p, l[i]? = some p ∧ p ∈ l :=
  ⟨l[i], List.getElem?_eq_getElem h, List.getElem_mem h⟩

/-- The decimal-string stage on a source of integers. -/
theorem string_stage_clean (m : Heap) (raw : dataset) (src : List Nat) (fuel : Nat)
    (hj : m.junk = none) (ha : m.alloc = [])
    (hsrc : forward m.rows src.length raw.iterator = some src)
    (hrows : ∀ p ∈ src, p < m.brk ∧ ∃ ins outs, (m.rows p).inputs = some ins
      ∧ (m.rows p).outputs = some outs ∧ holds_ints ins ∧ holds_ints outs)
    (hfuel : src.length ≤ fuel) :
    ∃ d1 m1, dataset_string_encode fuel (some raw) m = some (some d1, m1)
      ∧ d1.size = (src.length : Int)
      ∧ forward m1.rows src.length d1.iterator = some (List.range' m.brk src.length)
      ∧ m1.alloc = [] ∧ m1.brk = m.brk + src.length ∧ m1.junk = none
      ∧ ∀ i p, src[i]? = some p → ∃ ins outs, (m.rows p).inputs = some ins
          ∧ (m.rows p).outputs = some outs ∧ holds_ints ins ∧ holds_ints outs
          ∧ (m1.rows (m.brk + i)).inputs = some ⟨ins.entries.map string_of⟩
          ∧ (m1.rows (m.brk + i)).outputs = some ⟨outs.entries.map string_of⟩ := by
  have hres : ∀ c : data_entries, holds_ints c →
      ∀ e ∈ c.entries, string_results e = some ⟨[string_of e]⟩ := by
    intro c hc e he
    obtain ⟨v, hv⟩ := hc e he
    subst hv
    rfl
  have hro : ∀ p ∈ src, ∀ ins outs, (m.rows p).inputs = some ins →
      (m.rows p).outputs = some outs → holds_ints ins → holds_ints outs →
      row_outputs string_results (m.rows p)
        = some (⟨ins.entries.map string_of⟩, ⟨outs.entries.map string_of⟩) := by
    intro p _ ins outs hin hout hi ho
    have := row_outputs_flatMap string_results (fun e => [string_of e]) (m.rows p) ins outs
      hin hout (by
        intro e he
        rcases List.mem_append.mp he with h | h
        · exact hres ins hi e h
        · exact hres outs ho e h)
    rw [this, flatMap_singleton_map, flatMap_singleton_map]
  obtain ⟨d1, m1, hrun, hsize, hfw, halloc, hbrk, hjunk, hcontent⟩ :=
    encode_stage_clean none 0 data_entry_string_encode string_results m raw src fuel hj ha hsrc
      (by
        intro p hp
        obtain ⟨hlt, ins, outs, hin, hout, hi, ho⟩ := hrows p hp
        refine ⟨hlt, ins, outs, hin, hout, ?_⟩
        intro e he
        have : ∃ v : Int, e = some ⟨some (Value.int v)⟩ := by
          rcases List.mem_append.mp he with h | h
          · exact hi e h
          · exact ho e h
        obtain ⟨v, hv⟩ := this
        subst hv
        rfl)
      (by
        intro p hp
        obtain ⟨_, ins, outs, hin, hout, hi, ho⟩ := hrows p hp
        rw [hro p hp ins outs hin hout hi ho]
        exact fun h => Option.noConfusion h)
      hfuel
  refine ⟨d1, m1, hrun, hsize, hfw, halloc, hbrk, hjunk, ?_⟩
  intro i p hp
  have hmem := getElem?_mem_of_some src i p hp
  obtain ⟨_, ins, outs, hin, hout, hi, ho⟩ := hrows p hmem
  obtain ⟨x, y, hxy, hx, hy⟩ := hcontent i p hp
  rw [hro p hmem ins outs hin hout hi ho] at hxy
  simp only [Option.some.injEq, Prod.mk.injEq] at hxy
  refine ⟨ins, outs, hin, hout, hi, ho, ?_, ?_⟩
  · rw [hx, ← hxy.1]
  · rw [hy, ← hxy.2]

/-- The index-encoding stage on a source of texts, over the first `n` characters of `ts`. -/
theorem int_stage_clean (ts : List Char) (n : Nat) (hn : n ≤ ts.length) (m : Heap)
    (raw : dataset) (src : List Nat) (fuel : Nat)
    (hj : m.junk = none) (ha : m.alloc = [])
    (hsrc : forward m.rows src.length raw.iterator = some src)
    (hrows : ∀ p ∈ src, p < m.brk ∧ ∃ ins outs, (m.rows p).inputs = some ins
      ∧ (m.rows p).outputs = some outs ∧ holds_texts ins ∧ holds_texts outs)
    (hfuel : src.length ≤ fuel) :
    ∃ d1 m1, dataset_int_encode fuel (some raw) (some ts) (n : Int) m = some (some d1, m1)
      ∧ d1.size = (src.length : Int)
      ∧ forward m1.rows src.length d1.iterator = some (List.range' m.brk src.length)
      ∧ m1.alloc = [] ∧ m1.brk = m.brk + src.length ∧ m1.junk = none
      ∧ ∀ i p, src[i]? = some p → ∃ ins outs, (m.rows p).inputs = some ins
          ∧ (m.rows p).outputs = some outs ∧ holds_texts ins ∧ holds_texts outs
          ∧ (m1.rows (m.brk + i)).inputs = some ⟨code_entries ts n ins⟩
          ∧ (m1.rows (m.brk + i)).outputs = some ⟨code_entries ts n outs⟩ := by
  have hres : ∀ c : data_entries, holds_texts c →
      ∀ e ∈ c.entries, int_results ts n e = some ⟨(match e with
        | some ⟨some (Value.text t)⟩ =>
          t.map (fun ch => some ⟨some (Value.int (token_code ts n ch))⟩)
        | _ => [])⟩ := by
    intro c hc e he
    obtain ⟨t, ht⟩ := hc e he
    subst ht
    rfl
  have hro : ∀ p ∈ src, ∀ ins outs, (m.rows p).inputs = some ins →
      (m.rows p).outputs = some outs → holds_texts ins → holds_texts outs →
      row_outputs (int_results ts n) (m.rows p)
        = some (⟨code_entries ts n ins⟩, ⟨code_entries ts n outs⟩) := by
    intro p _ ins outs hin hout hi ho
    exact row_outputs_flatMap (int_results ts n) _ (m.rows p) ins outs hin hout (by
        intro e he
        rcases List.mem_append.mp he with h | h
        · exact hres ins hi e h
        · exact hres outs ho e h)
  obtain ⟨d1, m1, hrun, hsize, hfw, halloc, hbrk, hjunk, hcontent⟩ :=
    encode_stage_clean (some ts) (n : Int) data_entry_int_encode (int_results ts n) m raw src
      fuel hj ha hsrc
      (by
        intro p hp
        obtain ⟨hlt, ins, outs, hin, hout, hi, ho⟩ := hrows p hp
        refine ⟨hlt, ins, outs, hin, hout, ?_⟩
        intro e he
        have : ∃ t : List Char, e = some ⟨some (Value.text t)⟩ := by
          rcases List.mem_append.mp he with h | h
          · exact hi e h
          · exact ho e h
        obtain ⟨t, ht⟩ := this
        subst ht
        exact int_encode_results ts n hn t)
      (by
        intro p hp
        obtain ⟨_, ins, outs, hin, hout, hi, ho⟩ := hrows p hp
        rw [hro p hp ins outs hin hout hi ho]
        exact fun h => Option.noConfusion h)
      hfuel
  refine ⟨d1, m1, hrun, hsize, hfw, halloc, hbrk, hjunk, ?_⟩
  intro i p hp
  have hmem := getElem?_mem_of_some src i p hp
  obtain ⟨_, ins, outs, hin, hout, hi, ho⟩ := hrows p hmem
  obtain ⟨x, y, hxy, hx, hy⟩ := hcontent i p hp
  rw [hro p hmem ins outs hin hout hi ho] at hxy
  simp only [Option.some.injEq, Prod.mk.injEq] at hxy
  refine ⟨ins, outs, hin, hout, hi, ho, ?_, ?_⟩
  · rw [hx, ← hxy.1]
  · rw [hy, ← hxy.2]

/-! ## Decimal digits and the alphabet of the test driver -/

theorem decimal_digits_small (n : Nat) (h : n < 10) : decimal_digits n = [n] := by
  unfold decimal_digits
  by_cases h0 : n = 0
  · simp [h0]
  · rw [if_neg h0, Nat.digits_of_lt 10 n h0 h]
    rfl

theorem decimal_digits_step (n : Nat) (h : 10 ≤ n) :
    decimal_digits n = decimal_digits (n / 10) ++ [n % 10] := by
  unfold decimal_digits
  have h0 : n ≠ 0 := by omega
  have h1 : n / 10 ≠ 0 := by omega
  rw [if_neg h0, if_neg h1, Nat.digits_def' (by decide) (by omega)]
  simp

theorem decimal_digits_lt (n k : Nat) (h : k ∈ decimal_digits n) : k < 10 := by
  unfold decimal_digits at h
  by_cases h0 : n = 0
  · rw [if_pos h0] at h
    have : k = 0 := by simpa using h
    omega
  · rw [if_neg h0] at h
    exact Nat.digits_lt_base (by decide) (List.mem_reverse.mp h)

/-- The digit loop of `itos` yields the characters of the decimal digits, most significant
first. -/
theorem itos_digits_decimal (fuel n : Nat) (acc : List Char) (h : n < fuel) :
    itos_digits fuel n acc = (decimal_digits n).map Nat.digitChar ++ acc := by
  induction fuel generalizing n acc with
  | zero => omega
  | succ fuel ih =>
    unfold itos_digits
    by_cases h10 : n < 10
    · rw [if_pos h10, decimal_digits_small n h10]
      rfl
    · rw [if_neg h10, ih (n / 10) _ (by omega), decimal_digits_step n (by omega)]
      simp

theorem itos_text_natural (v : Int) (h : 0 ≤ v) :
    itos_text v = (decimal_digits v.toNat).map Nat.digitChar := by
  unfold itos_text
  have h1 : ¬ v < 0 := by omega
  have h2 : v.natAbs = v.toNat := by omega
  rw [if_neg h1, h2, itos_digits_decimal _ _ [] (by omega)]
  simp

theorem driver_code_digit : ∀ k : Nat, k < 10 →
    token_code driver_tokens 12 (Nat.digitChar k) = (k : Int) := by
  decide

/-- Index-encoding the decimal texts of non-negative integers over the driver's alphabet
gives their decimal digit values. -/
theorem code_entries_string_of (l : List (Option data_entry)) (h : holds_naturals ⟨l⟩) :
    code_entries driver_tokens 12 ⟨l.map string_of⟩ = digit_entries ⟨l⟩ := by
  induction l with
  | nil => rfl
  | cons e rest ih =>
    have hrest : holds_naturals ⟨rest⟩ := fun x hx => h x (List.mem_cons_of_mem e hx)
    have ih1 := ih hrest
    obtain ⟨v, hv, he⟩ := h e (List.mem_cons_self e rest)
    subst he
    simp only [code_entries, digit_entries, List.map_cons, List.flatMap_cons] at ih1 ⊢
    rw [ih1]
    congr 1
    simp only [string_of, itos_text_natural v hv, List.map_map]
    apply List.map_congr_left
    intro k hk
    simp only [Function.comp_apply]
    rw [driver_code_digit k (decimal_digits_lt _ k hk)]

/-- With the tail field of the fresh datasets reading as `NULL` (no allocation failure), for
the driver's alphabet and every dataset whose entries are non-negative integers:
`dataset_int_encode` of `dataset_string_encode` succeeds, the result has one row per source
row, in order, and each side of a result row holds the decimal digit values, most
significant first, of the source integers of that side, concatenated in entry order; every
digit value is below 10. -/
theorem digits_pipeline_clean (m : Heap) (raw : dataset) (src : List Nat) (fuel : Nat)
    (hj : m.junk = none) (ha : m.alloc = [])
    (hsrc : forward m.rows src.length raw.iterator = some src)
    (hrows : ∀ p ∈ src, p < m.brk ∧ ∃ ins outs, (m.rows p).inputs = some ins
      ∧ (m.rows p).outputs = some outs ∧ holds_naturals ins ∧ holds_naturals outs)
    (hfuel : src.length ≤ fuel) :
    (∃ d1 m1 d2 m2, dataset_string_encode fuel (some raw) m = some (some d1, m1)
        ∧ dataset_int_encode fuel (some d1) (some driver_tokens) 12 m1 = some (some d2, m2)
        ∧ d2.size = (src.length : Int)
        ∧ forward m2.rows src.length d2.iterator
            = some (List.range' (m.brk + src.length) src.length)
        ∧ ∀ i p, src[i]? = some p → ∃ ins outs, (m.rows p).inputs = some ins
            ∧ (m.rows p).outputs = some outs
            ∧ (m2.rows (m.brk + src.length + i)).inputs = some ⟨digit_entries ins⟩
            ∧ (m2.rows (m.brk + src.length + i)).outputs = some ⟨digit_entries outs⟩)
      ∧ ∀ n k : Nat, k ∈ decimal_digits n → k < 10 := by
  refine ⟨?_, decimal_digits_lt⟩
  have hnat : ∀ c : data_entries, holds_naturals c → holds_ints c :=
    fun c hc e he => (hc e he).imp (fun _ h => h.2)
  obtain ⟨d1, m1, hrun1, _, hfw1, halloc1, hbrk1, hjunk1, hcont1⟩ :=
    string_stage_clean m raw src fuel hj ha hsrc
      (by
        intro p hp
        obtain ⟨hlt, ins, outs, hin, hout, hi, ho⟩ := hrows p hp
        exact ⟨hlt, ins, outs, hin, hout, hnat ins hi, hnat outs ho⟩)
      hfuel
  have hlen : (List.range' m.brk src.length).length = src.length := List.length_range' _ _ _
  have htexts : ∀ l : List (Option data_entry), holds_ints ⟨l⟩ →
      holds_texts ⟨l.map string_of⟩ := by
    intro l hl e he
    obtain ⟨x, hx, hxe⟩ := List.mem_map.mp he
    obtain ⟨v, hv⟩ := hl x hx
    subst hv
    exact ⟨itos_text v, hxe.symm⟩
  obtain ⟨d2, m2, hrun2, hsize2, hfw2, _, _, _, hcont2⟩ :=
    int_stage_clean driver_tokens 12 (by decide) m1 d1 (List.range' m.brk src.length) fuel
      hjunk1 halloc1 (by rw [hlen]; exact hfw1)
      (by
        intro q hq
        obtain ⟨i, hi, hqi⟩ := range_mem _ _ q hq
        subst hqi
        obtain ⟨p, hp, _⟩ := getElem_of_lt src i hi
        obtain ⟨ins, outs, _, _, hii, hio, hx, hy⟩ := hcont1 i p hp
        exact ⟨by omega, _, _, hx, hy, htexts _ hii, htexts _ hio⟩)
      (by rw [hlen]; exact hfuel)
  rw [hlen] at hsize2 hfw2
  rw [hbrk1] at hfw2
  refine ⟨d1, m1, d2, m2, hrun1, hrun2, hsize2, hfw2, ?_⟩
  intro i p hp
  have hmem := getElem?_mem_of_some src i p hp
  have hi : i < src.length := (List.getElem?_eq_some.mp hp).1
  obtain ⟨_, ins0, outs0, hin0, hout0, hn1, hn2⟩ := hrows p hmem
  obtain ⟨ins, outs, hin, hout, _, _, hx, hy⟩ := hcont1 i p hp
  rw [hin0] at hin
  rw [hout0] at hout
  have e1 : ins0 = ins := Option.some.inj hin
  have e2 : outs0 = outs := Option.some.inj hout
  subst e1
  subst e2
  obtain ⟨ins2, outs2, hin2, hout2, _, _, hx2, hy2⟩ :=
    hcont2 i (m.brk + i) (range_getElem _ _ i hi)
  rw [hx] at hin2
  rw [hy] at hout2
  have e3 : ins2 = ⟨ins0.entries.map string_of⟩ := (Option.some.inj hin2).symm
  have e4 : outs2 = ⟨outs0.entries.map string_of⟩ := (Option.some.inj hout2).symm
  subst e3
  subst e4
  rw [hbrk1] at hx2 hy2
  refine ⟨ins0, outs0, hin0, hout0, ?_, ?_⟩
  · rw [hx2, code_entries_string_of ins0.entries hn1]
  · rw [hy2, code_entries_string_of outs0.entries hn2]

/-! ## The sentinel of the index encoding at the one-hot stage -/

theorem mem_code_entries (ts : List Char) (n : Nat) (c : data_entries) (t : List Char)
    (ch : Char) (ht : some ⟨some (Value.text t)⟩ ∈ c.entries) (hch : ch ∈ t) :
    some ⟨some (Value.int (token_code ts n ch))⟩ ∈ code_entries ts n c := by
  unfold code_entries
  refine List.mem_flatMap.mpr ⟨_, ht, ?_⟩
  exact List.mem_map.mpr ⟨ch, hch, rfl⟩

theorem mem_code_entries_inv (ts : List Char) (n : Nat) (c : data_entries)
    (e : Option data_entry) (he : e ∈ code_entries ts n c) :
    ∃ t ch, some ⟨some (Value.text t)⟩ ∈ c.entries ∧ ch ∈ t
      ∧ e = some ⟨some (Value.int (token_code ts n ch))⟩ := by
  unfold code_entries at he
  obtain ⟨x, hx, hex⟩ := List.mem_flatMap.mp he
  rcases x with _ | ⟨_ | v⟩
  · simp at hex
  · simp at hex
  · cases v with
    | int i => simp at hex
    | vector w => simp at hex
    | text t =>
      obtain ⟨ch, hch, hech⟩ := List.mem_map.mp hex
      exact ⟨t, ch, hx, hch, hech.symm⟩

/-- The one-hot encoder with alphabet size `n` rejects the code of a character exactly when
the character is not among the first `n` characters of the alphabet. -/
theorem one_hot_rejects_code (ts : List Char) (n : Nat) (ch : Char) :
    one_hot_results (n : Int) (some ⟨some (Value.int (token_code ts n ch))⟩) = none
      ↔ ch ∉ ts.take n := by
  unfold one_hot_results token_code
  by_cases h : ch ∈ ts.take n
  · have h1 := List.indexOf_lt_length.mpr h
    have h2 : (ts.take n).length ≤ n := by simp
    have h3 : (0 : Int) ≤ (((ts.take n).indexOf ch : Nat) : Int)
        ∧ (((ts.take n).indexOf ch : Nat) : Int) < (n : Int) := by omega
    simp [h, h3]
  · simp [h]

/-- With the tail field of the fresh datasets reading as `NULL` (no allocation failure), for
every alphabet whose first `n` characters are used and every dataset of texts:
`dataset_int_encode` succeeds, and `dataset_one_hot_encode` of its result returns a dataset
if and only if every character of every text of the source occurs among the first `n`
characters of the alphabet. -/
theorem sentinel_rejected_clean (ts : List Char) (n : Nat) (hn : n ≤ ts.length) (m : Heap)
    (raw : dataset) (src : List Nat) (fuel : Nat)
    (hj : m.junk = none) (ha : m.alloc = [])
    (hsrc : forward m.rows src.length raw.iterator = some src)
    (hrows : ∀ p ∈ src, p < m.brk ∧ ∃ ins outs, (m.rows p).inputs = some ins
      ∧ (m.rows p).outputs = some outs ∧ holds_texts ins ∧ holds_texts outs)
    (hfuel : src.length ≤ fuel) :
    ∃ d1 m1 res m2, dataset_int_encode fuel (some raw) (some ts) (n : Int) m = some (some d1, m1)
      ∧ dataset_one_hot_encode fuel (some d1) (n : Int) m1 = some (res, m2)
      ∧ (res ≠ none ↔ ∀ p ∈ src, ∀ ins outs, (m.rows p).inputs = some ins →
          (m.rows p).outputs = some outs →
          ∀ t, some ⟨some (Value.text t)⟩ ∈ ins.entries ++ outs.entries →
            ∀ ch ∈ t, ch ∈ ts.take n) := by
  obtain ⟨d1, m1, hrun1, _, hfw1, halloc1, hbrk1, hjunk1, hcont1⟩ :=
    int_stage_clean ts n hn m raw src fuel hj ha hsrc hrows hfuel
  have hlen : (List.range' m.brk src.length).length = src.length := List.length_range' _ _ _
  have hints : ∀ c : data_entries, ∀ e ∈ code_entries ts n c,
      ∃ v : Int, e = some ⟨some (Value.int v)⟩ := by
    intro c e he
    obtain ⟨_, ch, _, _, hech⟩ := mem_code_entries_inv ts n c e he
    exact ⟨_, hech⟩
  obtain ⟨res, m2, hrun2, hiff⟩ :=
    encode_fails_iff_clean none (n : Int) data_entry_one_hot_encode (one_hot_results (n : Int))
      m1 d1 (List.range' m.brk src.length) fuel hjunk1 halloc1 (by rw [hlen]; exact hfw1)
      (by
        intro q hq
        obtain ⟨i, hi, hqi⟩ := range_mem _ _ q hq
        subst hqi
        obtain ⟨p, hp, _⟩ := getElem_of_lt src i hi
        obtain ⟨ins, outs, _, _, _, _, hx, hy⟩ := hcont1 i p hp
        refine ⟨by omega, _, _, hx, hy, ?_⟩
        intro e he
        have hv : ∃ v : Int, e = some ⟨some (Value.int v)⟩ := by
          rcases List.mem_append.mp he with h | h
          · exact hints ins e h
          · exact hints outs e h
        obtain ⟨v, hv⟩ := hv
        subst hv
        exact one_hot_encode_results none (n : Int) v)
      (by rw [hlen]; exact hfuel)
  refine ⟨d1, m1, res, m2, hrun1, hrun2, ?_⟩
  constructor
  · intro hres p hp ins outs hin hout t ht ch hch
    by_contra hnot
    apply hres
    apply hiff.mpr
    obtain ⟨i, hi, hpi⟩ := mem_getElem src p hp
    obtain ⟨ins1, outs1, hin1, hout1, _, _, hx, hy⟩ := hcont1 i p hpi
    rw [hin] at hin1
    rw [hout] at hout1
    have e1 : ins = ins1 := Option.some.inj hin1
    have e2 : outs = outs1 := Option.some.inj hout1
    subst e1
    subst e2
    refine ⟨m.brk + i, ?_, _, _, hx, hy,
      some ⟨some (Value.int (token_code ts n ch))⟩, ?_, (one_hot_rejects_code ts n ch).mpr hnot⟩
    · exact List.mem_range'_1.mpr ⟨by omega, by omega⟩
    · rcases List.mem_append.mp ht with h | h
      · exact List.mem_append_left _ (mem_code_entries ts n ins t ch h hch)
      · exact List.mem_append_right _ (mem_code_entries ts n outs t ch h hch)
  · intro hall hres
    obtain ⟨q, hq, ins2, outs2, hin2, hout2, e, he, hnone⟩ := hiff.mp hres
    obtain ⟨i, hi, hqi⟩ := range_mem _ _ q hq
    subst hqi
    obtain ⟨p, hp, hmem⟩ := getElem_of_lt src i hi
    obtain ⟨ins, outs, hin, hout, _, _, hx, hy⟩ := hcont1 i p hp
    rw [hx] at hin2
    rw [hy] at hout2
    have e3 : ins2 = ⟨code_entries ts n ins⟩ := (Option.some.inj hin2).symm
    have e4 : outs2 = ⟨code_entries ts n outs⟩ := (Option.some.inj hout2).symm
    subst e3
    subst e4
    rcases List.mem_append.mp he with h | h
    · obtain ⟨t, ch, ht, hch, hech⟩ := mem_code_entries_inv ts n ins e h
      subst hech
      exact (one_hot_rejects_code ts n ch).mp hnone
        (hall p hmem ins outs hin hout t (List.mem_append_left _ ht) ch hch)
    · obtain ⟨t, ch, ht, hch, hech⟩ := mem_code_entries_inv ts n outs e h
      subst hech
      exact (one_hot_rejects_code ts n ch).mp hnone
        (hall p hmem ins outs hin hout t (List.mem_append_right _ ht) ch hch)

/-! ## The pipelines on the sample sources -/

/-- The hypotheses of `encode_shape_clean` hold for the two-row sample source. -/
theorem encode_shape_clean_example :
    ∃ d1 m1, dataset_string_encode 2 (some sample_source) (sample_heap none)
        = some (some d1, m1)
      ∧ d1.size = 2 ∧ forward m1.rows 2 d1.iterator = some [3, 4]
      ∧ (m1.rows 4).inputs = some ⟨[some ⟨some (Value.text ['5'])⟩]⟩
      ∧ (m1.rows 4).outputs = some ⟨[]⟩ := by
  obtain ⟨⟨d1, m1, hrun, hsize, hfw, hcont⟩, _⟩ :=
    encode_shape_clean (sample_heap none) sample_source [0, 1] 2 rfl rfl (by decide)
      (by
        intro p hp
        have h01 : p = 0 ∨ p = 1 := by simpa using hp
        rcases h01 with h | h
        · subst h
          refine ⟨show 0 < 3 by decide, ⟨[some ⟨some (Value.int 0)⟩]⟩, ⟨[]⟩, rfl, rfl, ?_, ?_⟩
          · intro e he
            exact ⟨0, by simpa using he⟩
          · intro e he
            simp at he
        · subst h
          refine ⟨show 1 < 3 by decide, ⟨[some ⟨some (Value.int 5)⟩]⟩, ⟨[]⟩, rfl, rfl, ?_, ?_⟩
          · intro e he
            exact ⟨5, by simpa using he⟩
          · intro e he
            simp at he)
      (by decide)
  obtain ⟨ins, outs, hin, hout, hx, hy⟩ := hcont 1 1 rfl
  have e1 : ins = ⟨[some ⟨some (Value.int 5)⟩]⟩ := (Option.some.inj hin).symm
  have e2 : outs = ⟨[]⟩ := (Option.some.inj hout).symm
  subst e1
  subst e2
  exact ⟨d1, m1, hrun, hsize, hfw, hx, hy⟩

/-- The hypotheses of `encode_absent_slot_fails_clean` hold for the source of `gap_heap` and
the decimal-string encoder. -/
theorem encode_absent_slot_fails_clean_example :
    ∃ m1, dataset_encode 2 (some sample_source) none 0 data_entry_string_encode (gap_heap none)
      = some (none, m1) :=
  encode_absent_slot_fails_clean none 0 data_entry_string_encode string_results (gap_heap none)
    sample_source [0, 1] 2 rfl rfl (by decide)
    (by
      intro p hp
      have h01 : p = 0 ∨ p = 1 := by simpa using hp
      rcases h01 with h | h
      · subst h
        refine ⟨show 0 < 2 by decide, ⟨[some ⟨some (Value.int 0)⟩]⟩, ⟨[]⟩, rfl, rfl, ?_⟩
        intro e he
        have : e = some ⟨some (Value.int 0)⟩ := by simpa using he
        subst this
        rfl
      · subst h
        refine ⟨show 1 < 2 by decide, ⟨[none]⟩, ⟨[]⟩, rfl, rfl, ?_⟩
        intro e he
        have : e = none := by simpa using he
        subst this
        rfl)
    (by decide) (fun _ => ⟨rfl, rfl⟩)
    ⟨1, by simp, ⟨[none]⟩, ⟨[]⟩, rfl, rfl, none, by simp, Or.inl rfl⟩

/-- The hypotheses of `digits_pipeline_clean` hold for the source of `digits_heap`: the
inputs 12 and 30 become the digit values 1, 2, 3, 0 and the output 42 becomes 4, 2. -/
theorem digits_pipeline_clean_example :
    ∃ d1 m1 d2 m2, dataset_string_encode 1 (some single_source) (digits_heap none)
        = some (some d1, m1)
      ∧ dataset_int_encode 1 (some d1) (some driver_tokens) 12 m1 = some (some d2, m2)
      ∧ d2.size = 1 ∧ forward m2.rows 1 d2.iterator = some [3]
      ∧ (m2.rows 3).inputs = some ⟨[some ⟨some (Value.int 1)⟩, some ⟨some (Value.int 2)⟩,
          some ⟨some (Value.int 3)⟩, some ⟨some (Value.int 0)⟩]⟩
      ∧ (m2.rows 3).outputs
          = some ⟨[some ⟨some (Value.int 4)⟩, some ⟨some (Value.int 2)⟩]⟩ := by
  obtain ⟨⟨d1, m1, d2, m2, hrun1, hrun2, hsize, hfw, hcont⟩, _⟩ :=
    digits_pipeline_clean (digits_heap none) single_source [0] 1 rfl rfl (by decide)
      (by
        intro p hp
        have h0 : p = 0 := by simpa using hp
        subst h0
        refine ⟨show 0 < 2 by decide,
          ⟨[some ⟨some (Value.int 12)⟩, some ⟨some (Value.int 30)⟩]⟩,
          ⟨[some ⟨some (Value.int 42)⟩]⟩, rfl, rfl, ?_, ?_⟩
        · intro e he
          have h : e = some ⟨some (Value.int 12)⟩ ∨ e = some ⟨some (Value.int 30)⟩ := by
            simpa using he
          rcases h with h | h
          · exact ⟨12, by decide, h⟩
          · exact ⟨30, by decide, h⟩
        · intro e he
          exact ⟨42, by decide, by simpa using he⟩)
      (by decide)
  obtain ⟨ins, outs, hin, hout, hx, hy⟩ := hcont 0 0 rfl
  have e1 : ins = ⟨[some ⟨some (Value.int 12)⟩, some ⟨some (Value.int 30)⟩]⟩ :=
    (Option.some.inj hin).symm
  have e2 : outs = ⟨[some ⟨some (Value.int 42)⟩]⟩ := (Option.some.inj hout).symm
  subst e1
  subst e2
  refine ⟨d1, m1, d2, m2, hrun1, hrun2, hsize, hfw, ?_, ?_⟩
  · rw [show (3 : Nat) = (digits_heap none).brk + [0].length + 0 from rfl, hx]
    simp [digit_entries, decimal_digits]
  · rw [show (3 : Nat) = (digits_heap none).brk + [0].length + 0 from rfl, hy]
    simp [digit_entries, decimal_digits]

/-- The hypotheses of `sentinel_rejected_clean` hold for the source of `minus_heap` and the
driver's alphabet: the one-hot stage returns the absent result, since the character '-' of
the text "-7" is not in the alphabet. -/
theorem sentinel_rejected_clean_example :
    ∃ d1 m1 m2, dataset_int_encode 1 (some single_source) (some driver_tokens) 12
        (minus_heap none) = some (some d1, m1)
      ∧ dataset_one_hot_encode 1 (some d1) 12 m1 = some (none, m2) := by
  obtain ⟨d1, m1, res, m2, hrun1, hrun2, hiff⟩ :=
    sentinel_rejected_clean driver_tokens 12 (by decide) (minus_heap none) single_source [0] 1
      rfl rfl (by decide)
      (by
        intro p hp
        have h0 : p = 0 := by simpa using hp
        subst h0
        refine ⟨show 0 < 2 by decide, ⟨[some ⟨some (Value.text ['-', '7'])⟩]⟩, ⟨[]⟩, rfl, rfl,
          ?_, ?_⟩
        · intro e he
          exact ⟨['-', '7'], by simpa using he⟩
        · intro e he
          simp at he)
      (by decide)
  have hres : res = none := by
    by_contra hne
    have h := hiff.mp hne 0 (by simp) ⟨[some ⟨some (Value.text ['-', '7'])⟩]⟩ ⟨[]⟩ rfl rfl
      ['-', '7'] (by simp) '-' (by simp)
    revert h
    decide
  subst hres
  exact ⟨d1, m1, m2, hrun1, hrun2⟩
end Libdataset
